import Mathlib

/-! # Host-side GPU sieve initialisation of mfakto (`src/gpusieve.cpp`)

A shallow embedding of the host code of the GPU sieve: the crossover search
that fixes the number of sieving primes, the small sieve of Eratosthenes that
produces them, and the encoder that packs them into the compressed prime-info
buffer and its row descriptors.

Conventions of the embedding.

* `cl_uint` values are natural numbers; every operation that can leave the
  range `[0, 2^32)` is reduced modulo `2^32` (`sub32`, `add32`, `mul32`).
* The build switch `MORE_CLASSES` is a Boolean parameter `mc` of every
  definition that depends on it.
* Unbounded `for ( ; ; )` loops take a fuel argument and return `none` when
  the fuel runs out; the theorems show which fuel suffices.
-/

namespace GpuSieve

/-! ## 32-bit unsigned arithmetic -/

/-- The modulus of `cl_uint` arithmetic, `2^32`. -/
def U32 : Nat := 4294967296

/-- Subtraction of two `cl_uint` values. -/
def sub32 (a b : Nat) : Nat := (a + U32 - b % U32) % U32

/-- Addition of two `cl_uint` values. -/
def add32 (a b : Nat) : Nat := (a + b) % U32

/-- Multiplication of two `cl_uint` values. -/
def mul32 (a b : Nat) : Nat := (a * b) % U32

/-! ## Constants (lines 49-84) -/

/-- Threads per block. -/
def threadsPerBlock : Nat := 256

/-- Number of primes that are not sieved at all: 2, 3, 5, 7, 11 with
`MORE_CLASSES`, 2, 3, 5, 7 without. -/
def primesNotSieved : Bool → Nat
  | true => 5
  | false => 4

/-- Count of primes handled with inline code (not using the primes array). -/
def primesHandledWithSpecialCode : Bool → Nat
  | true => 49
  | false => 50

/-- There are 6542 16-bit primes. -/
def primesBelow64K : Nat := 6542

/-- There are 12251 17-bit primes. -/
def primesBelow128K : Nat := 12251

/-- There are 82025 20-bit primes. -/
def primesBelow1M : Nat := 82025

/-- Number of thread loops processing primes below 64K. -/
def sieving64KCrossover (mc : Bool) : Nat :=
  (primesBelow64K - primesNotSieved mc - primesHandledWithSpecialCode mc) / threadsPerBlock

/-- Number of thread loops processing primes below 128K. -/
def sieving128KCrossover (mc : Bool) : Nat :=
  (primesBelow128K - primesNotSieved mc - primesHandledWithSpecialCode mc) / threadsPerBlock

/-- Number of thread loops processing primes below 1M (with the hard coded `- 3`). -/
def sieving1MCrossover (mc : Bool) : Nat :=
  (primesBelow1M - primesNotSieved mc - primesHandledWithSpecialCode mc) / threadsPerBlock - 3

/-! ## The crossover search of `gpusieve_init` (lines 225-265) -/

/-- Line 225: the requested `gpu_sieve_primes` is moved onto the grid
`prefix + 256 * m` (the quotient is a floor). -/
def roundSievePrimes (mc : Bool) (gpu_sieve_primes : Nat) : Nat :=
  add32
    (add32
      (mul32
        (sub32 (sub32 gpu_sieve_primes (primesNotSieved mc)) (primesHandledWithSpecialCode mc)
          / threadsPerBlock)
        threadsPerBlock)
      (primesNotSieved mc))
    (primesHandledWithSpecialCode mc)

/-- Line 233: the number of rows each thread is responsible for. -/
def primesPerThread (mc : Bool) (gpu_sieve_primes : Nat) : Nat :=
  sub32 (sub32 gpu_sieve_primes (primesNotSieved mc)) (primesHandledWithSpecialCode mc)
    / threadsPerBlock

/-- Lines 235-264, the body of the search loop for one candidate:
`true` when control reaches `break`, `false` when one of the tests runs
`continue`. -/
def crossoverAccepts (mc : Bool) (primes_per_thread : Nat) : Bool :=
  if primes_per_thread > 1 ∧
      (min primes_per_thread (sieving64KCrossover mc) - 1) % 3 ≠ 0 then false
  else if primes_per_thread = sieving64KCrossover mc + 1 then false
  else if primes_per_thread > sieving64KCrossover mc + 1 ∧
      (min primes_per_thread (sieving128KCrossover mc + 1) - (sieving64KCrossover mc + 1)) % 3 ≠ 1
    then false
  else if primes_per_thread > sieving128KCrossover mc + 1 ∧
      (min primes_per_thread (sieving1MCrossover mc) - (sieving128KCrossover mc + 1)) % 4 ≠ 1
    then false
  else if primes_per_thread > sieving1MCrossover mc ∧
      (primes_per_thread - sieving1MCrossover mc) % 4 ≠ 1 then false
  else true

/-- Lines 230-265: the loop `for ( ; ; gpu_sieve_primes += threadsPerBlock)`.
The result is the pair `(gpu_sieve_primes, primes_per_thread)` at the `break`. -/
def crossoverLoop (mc : Bool) : Nat → Nat → Option (Nat × Nat)
  | 0, _ => none
  | fuel + 1, gpu_sieve_primes =>
    if crossoverAccepts mc (primesPerThread mc gpu_sieve_primes) then
      some (gpu_sieve_primes, primesPerThread mc gpu_sieve_primes)
    else crossoverLoop mc fuel (add32 gpu_sieve_primes threadsPerBlock)

/-- Lines 225-265: rounding followed by the search loop, for a requested
budget `B` (the value of `mystuff->gpu_sieve_primes` on entry). -/
def crossoverSearch (mc : Bool) (fuel B : Nat) : Option (Nat × Nat) :=
  crossoverLoop mc fuel (roundSievePrimes mc B)

/-! ## Modular inverses (lines 46-47) -/

/-- The macro `gen_pinv(p) = 0xFFFFFFFF / (p) + 1` on a `cl_uint`. (For `p = 0`
the C division is undefined; the quotient is `0` here.) -/
def gen_pinv (p : Nat) : Nat := add32 (4294967295 / p) 1

/-- The macro `gen_sloppy_pinv(p) = (cl_uint) floor (4294967296.0 / (p) - 0.5)`.
For `1 ≤ p < 2^32` the double quotient is within `2^-21 / p` of `2^32 / p`,
which is at least `1 / (2 p)` away from every half-integer, and the
subtraction of `0.5` is exact; the floor is therefore the floor of the exact
rational `2^32 / p - 1/2 = (2^33 - p) / (2 p)`. (For `p = 0` the C conversion
is undefined; the quotient is `0` here.) -/
def gen_sloppy_pinv (p : Nat) : Nat := (8589934592 - p) / (2 * p) % U32

/-! ## The prime generator `tiny_soe` (lines 111-151) -/

/-- Lines 134-135: `for (j = i + prime; j < sieve_size; j += prime) flags[j] = 0;`
started at `j`. -/
def clearMultiples (sieve_size prime : Nat) : Nat → Nat → List Nat → List Nat
  | 0, _, flags => flags
  | fuel + 1, j, flags =>
    if j < sieve_size then clearMultiples sieve_size prime fuel (j + prime) (flags.set j 0)
    else flags

/-- Lines 131-140: the loop `for (i = 1; i < root; i++)` from the index `i`,
with the flags and the primes stored so far. `primes[it] = prime; it++`
appends to the list of stored primes, whose length is `it`. The variable
`prime` is a `cl_ushort`. The result is the final `i`, the flags and the
stored primes; `none` stands for a read outside `flags`. -/
def sieveLoop (sieve_size root : Nat) :
    Nat → Nat → List Nat → List Nat → Option (Nat × List Nat × List Nat)
  | 0, _, _, _ => none
  | fuel + 1, i, flags, primes =>
    if i < root then
      match flags[i]? with
      | none => none
      | some f =>
        if f = 1 then
          sieveLoop sieve_size root fuel (i + 1)
            (clearMultiples sieve_size ((2 * i + 1) % 65536) sieve_size
              (i + (2 * i + 1) % 65536) flags)
            (primes ++ [(2 * i + 1) % 65536])
        else sieveLoop sieve_size root fuel (i + 1) flags primes
    else some (i, flags, primes)

/-- Lines 143-148: the loop `for ( ; it < limit; i++)` that collects the
remaining primes; `none` stands for a read outside `flags`. -/
def collectLoop (limit : Nat) (flags : List Nat) : Nat → Nat → List Nat → Option (List Nat)
  | 0, _, _ => none
  | fuel + 1, i, primes =>
    if primes.length < limit then
      match flags[i]? with
      | none => none
      | some f =>
        if f = 1 then collectLoop limit flags fuel (i + 1) (primes ++ [(2 * i + 1) % U32])
        else collectLoop limit flags fuel (i + 1) primes
    else some primes

/-- The function `tiny_soe (limit, primes)`: the primes stored into the output
array, in index order. The square root of the double `limit * 40` truncated
to `cl_uint` is the integer square root. -/
def tiny_soe (limit : Nat) : Option (List Nat) :=
  let sieve_size := mul32 limit 40 / 2
  let flags := List.replicate sieve_size 1
  match sieveLoop sieve_size (Nat.sqrt (mul32 limit 40)) (Nat.sqrt (mul32 limit 40) + 1) 1
      flags [2] with
  | none => none
  | some (i, flags, primes) => collectLoop limit flags (sieve_size + 1) i primes

/-! ## The encoder of `gpusieve_init` (lines 298-495) -/

/-- Left shift of a `cl_uint`. -/
def shl32 (a n : Nat) : Nat := (a <<< n) % U32

/-- Padding in front of the first row (`PINFO_PAD1`). -/
def PINFO_PAD1 : Nat := 1024

/-- One row descriptor: the words `row[0]`, `row[MAX_PRIMES_PER_THREAD]`,
`row[MAX_PRIMES_PER_THREAD*2]` and `row[MAX_PRIMES_PER_THREAD*3]` of one row
of `rowinfo`. -/
structure Row where
  /-- Offset to the first pinfo byte in the row. -/
  offset : Nat
  /-- The first pinfo entry is for the prime with this index. -/
  first : Nat
  /-- Distance, in prime indices, between successive pinfo entries. -/
  stride : Nat
  /-- Mask of bits to preserve when setting bit-to-clear. -/
  mask : Nat

/-- The variables of the encoder.
* `i`: the prime index cursor `i`;
* `pinfo`: the byte cursor `pinfo - saveptr`;
* `loop_count`: the variable `loop_count`;
* `rows`: the row descriptors written so far, `rows[n]` through the pointer
  `rowinfo + n` (every section ends a descriptor with `row++`);
* `words`: the stores made through `pinfo32`, most recent first, each as
  (byte offset from `saveptr`, 32-bit value);
* `bad`: the arguments of every `printf ("Bad compress ...")`, most recent first. -/
structure Encoder where
  i : Nat
  pinfo : Nat
  loop_count : Nat
  rows : List Row
  words : List (Nat × Nat)
  bad : List (Nat × Nat × Nat)

/-- Fill one descriptor and advance `row`. -/
def Encoder.pushRow (s : Encoder) (r : Row) : Encoder :=
  { s with rows := s.rows ++ [r] }

/-- A store `pinfo32[n] = val`, where `addr` is the byte offset of
`pinfo32 + n` from `saveptr`. -/
def Encoder.store (s : Encoder) (addr val : Nat) : Encoder :=
  { s with words := (addr, val) :: s.words }

/-- The call `printf ("Bad compress: %d, %d, %d\n", p, pdiff, pinvdiff)`. -/
def Encoder.report (s : Encoder) (p pdiff pinvdiff : Nat) : Encoder :=
  { s with bad := (p, pdiff, pinvdiff) :: s.bad }

/-- The loop `for (k = k0; k < stop; k += step) body`, from the value `k` of
the counter. -/
def forLoop {σ : Type} (stop step : Nat) (body : Nat → σ → σ) : Nat → Nat → σ → σ
  | 0, _, s => s
  | fuel + 1, k, s =>
    if k < stop then forLoop stop step body fuel (k + step) (body k s) else s

/-- The loop `for ( ; cond; ) body`, the increment being part of `body`. -/
def whileLoop {σ : Type} (cond : σ → Bool) (body : σ → σ) : Nat → σ → σ
  | 0, s => s
  | fuel + 1, s => if cond s then whileLoop cond body fuel (body s) else s

/-- Lines 307-315: one row of the section of primes below 64K, which stores
`p` in 16 bits over a 16-bit bit-to-clear, and `pinv` in 32 bits. -/
def row16 (primes : Nat → Nat) (s : Encoder) : Encoder :=
  forLoop threadsPerBlock 1
    (fun j t =>
      (t.store (t.pinfo + 4 * j) (add32 (shl32 (primes (t.i + j)) 16) 0)).store
        (t.pinfo + 4 * (j + threadsPerBlock)) (gen_pinv (primes (t.i + j))))
    threadsPerBlock 0
    (s.pushRow ⟨s.pinfo % U32, s.i, 1, 0xFFFF0000⟩)

/-- Lines 304-316: the section of primes below 64K. -/
def sectionBelow64K (mc : Bool) (primes : Nat → Nat) (primes_per_thread : Nat)
    (s : Encoder) : Encoder :=
  let loop_end := min primes_per_thread (sieving64KCrossover mc)
  whileLoop
    (fun t => t.i < primesNotSieved mc + primesHandledWithSpecialCode mc
      + loop_end * threadsPerBlock)
    (fun t =>
      let t1 := row16 primes t
      { t1 with i := t1.i + threadsPerBlock, pinfo := t1.pinfo + threadsPerBlock * 8 })
    loop_end s

/-- Lines 321-330: one row that stores bit-to-clear, `pinv` and `p` in 32 bits
each, for successive primes. -/
def row32 (primes : Nat → Nat) (s : Encoder) : Encoder :=
  forLoop threadsPerBlock 1
    (fun j t =>
      ((t.store (t.pinfo + 4 * j) 0).store
        (t.pinfo + 4 * (j + threadsPerBlock)) (gen_pinv (primes (t.i + j)))).store
        (t.pinfo + 4 * (j + threadsPerBlock * 2)) (primes (t.i + j)))
    threadsPerBlock 0
    (s.pushRow ⟨s.pinfo % U32, s.i, 1, 0⟩)

/-- Lines 319-331: the section of primes both below and above 64K. -/
def sectionAcross64K (mc : Bool) (primes : Nat → Nat) (primes_per_thread : Nat)
    (s : Encoder) : Encoder :=
  let loop_end := min primes_per_thread (sieving64KCrossover mc + 1)
  whileLoop
    (fun t => t.i < primesNotSieved mc + primesHandledWithSpecialCode mc
      + loop_end * threadsPerBlock)
    (fun t =>
      let t1 := row32 primes t
      { t1 with i := t1.i + threadsPerBlock, pinfo := t1.pinfo + threadsPerBlock * 12 })
    loop_end s

/-- Lines 336-346, 386-396 and 442-452: the row in front of a delta band. It
stores bit-to-clear, `pinv` and `p` in 32 bits each for every `loop_count`-th
prime, then advances `pinfo`. The inverse is `gen_pinv` in the first of the
three places and `gen_sloppy_pinv` in the other two. -/
def rowStrided (pinv : Nat → Nat) (primes : Nat → Nat) (loop_count : Nat)
    (s : Encoder) : Encoder :=
  let s1 :=
    forLoop threadsPerBlock 1
      (fun j t =>
        ((t.store (t.pinfo + 4 * j) 0).store
          (t.pinfo + 4 * (j + threadsPerBlock)) (pinv (primes (t.i + j * t.loop_count)))).store
          (t.pinfo + 4 * (j + threadsPerBlock * 2)) (primes (t.i + j * t.loop_count)))
      threadsPerBlock 0
      (({ s with loop_count := loop_count }).pushRow ⟨s.pinfo % U32, s.i, loop_count, 0⟩)
  { s1 with pinfo := s1.pinfo + threadsPerBlock * 12 }

/-- Lines 351-357, 401-407 and 457-463: the descriptors of the rows of a
delta band. -/
def deltaRows (mask : Nat) (s : Encoder) : Encoder :=
  forLoop s.loop_count 1
    (fun k t =>
      t.pushRow ⟨add32 (t.pinfo % U32) (mul32 (mul32 (k - 1) threadsPerBlock) 4),
        t.i + k, t.loop_count, mask⟩)
    s.loop_count 1 s

/-- One entry of a delta band, for the prime at `index` against the prime
`back` places before it (lines 361-364 and their repetitions): `pdiff`,
`pinvdiff`, the test that prints "Bad compress", and the store of the packed
word at byte offset `addr`. The bit-to-clear field is `shift` bits wide and
`maxinv` is the largest inverse difference the band can hold. -/
def deltaEntry (pinv : Nat → Nat) (maxinv shift : Nat) (primes : Nat → Nat)
    (index back addr : Nat) (s : Encoder) : Encoder :=
  let pdiff := sub32 (primes index) (primes (index - back)) / 2
  let pinvdiff := sub32 (pinv (primes (index - back))) (pinv (primes index))
  let s1 := if pdiff > 127 ∨ pinvdiff > maxinv then s.report (primes index) pdiff pinvdiff else s
  s1.store addr (add32 (add32 (shl32 pinvdiff (shift + 7)) (shl32 pdiff shift)) 0)

/-- Lines 358-378: the packed words of the band of primes from 64K through
128K, three rows in each turn of the outer loop. -/
def deltaWords3 (primes : Nat → Nat) (s : Encoder) : Encoder :=
  forLoop s.loop_count 3
    (fun k t =>
      forLoop threadsPerBlock 1
        (fun j u =>
          let index := u.i + j * u.loop_count + k
          let u1 := deltaEntry gen_pinv 127 18 primes index 1
            (u.pinfo + 4 * ((k - 1) * threadsPerBlock + j)) u
          let u2 := deltaEntry gen_pinv 127 18 primes (index + 1) 2
            (u.pinfo + 4 * (k * threadsPerBlock + j)) u1
          deltaEntry gen_pinv 127 18 primes (index + 2) 3
            (u.pinfo + 4 * ((k + 1) * threadsPerBlock + j)) u2)
        threadsPerBlock 0 t)
    s.loop_count 1 s

/-- Lines 408-434 and 464-490: the packed words of the two upper delta bands,
four rows in each turn of the outer loop. -/
def deltaWords4 (maxinv shift : Nat) (primes : Nat → Nat) (s : Encoder) : Encoder :=
  forLoop s.loop_count 4
    (fun k t =>
      forLoop threadsPerBlock 1
        (fun j u =>
          let index := u.i + j * u.loop_count + k
          let u1 := deltaEntry gen_sloppy_pinv maxinv shift primes index 1
            (u.pinfo + 4 * ((k - 1) * threadsPerBlock + j)) u
          let u2 := deltaEntry gen_sloppy_pinv maxinv shift primes (index + 1) 2
            (u.pinfo + 4 * (k * threadsPerBlock + j)) u1
          let u3 := deltaEntry gen_sloppy_pinv maxinv shift primes (index + 2) 3
            (u.pinfo + 4 * ((k + 1) * threadsPerBlock + j)) u2
          deltaEntry gen_sloppy_pinv maxinv shift primes (index + 3) 4
            (u.pinfo + 4 * ((k + 2) * threadsPerBlock + j)) u3)
        threadsPerBlock 0 t)
    s.loop_count 1 s

/-- Lines 379-380, 435-436 and 491-492: the cursors move past a delta band. -/
def deltaAdvance (s : Encoder) : Encoder :=
  { s with
    pinfo := s.pinfo + mul32 (mul32 (sub32 s.loop_count 1) threadsPerBlock) 4,
    i := add32 s.i (mul32 s.loop_count threadsPerBlock) }

/-- Lines 334-347: the row of the transition to dense storage. -/
def sectionTransition128K (mc : Bool) (primes : Nat → Nat) (primes_per_thread : Nat)
    (s : Encoder) : Encoder :=
  if primes_per_thread > sieving64KCrossover mc + 1 then
    rowStrided gen_pinv primes
      (min primes_per_thread (sieving128KCrossover mc + 1) - (sieving64KCrossover mc + 1)) s
  else s

/-- Lines 350-381: primes from 64K through 128K, with bit-to-clear in 18
bits, `(p diff) / 2` in 7 bits and `pinv diff` in 7 bits. -/
def section64Kto128K (mc : Bool) (primes : Nat → Nat) (primes_per_thread : Nat)
    (s : Encoder) : Encoder :=
  if primes_per_thread > sieving64KCrossover mc + 2 then
    deltaAdvance (deltaWords3 primes (deltaRows 0xFFFC0000 s))
  else s

/-- Lines 384-397: the first complete row of primes above 128K. -/
def sectionFirstAbove128K (mc : Bool) (primes : Nat → Nat) (primes_per_thread : Nat)
    (s : Encoder) : Encoder :=
  if primes_per_thread > sieving128KCrossover mc + 1 then
    rowStrided gen_sloppy_pinv primes
      (min primes_per_thread (sieving1MCrossover mc) - (sieving128KCrossover mc + 1)) s
  else s

/-- Lines 400-437: primes from 128K to 1M, with bit-to-clear in 20 bits,
`(p diff) / 2` in 7 bits and `pinv diff` in 5 bits. -/
def section128Kto1M (mc : Bool) (primes : Nat → Nat) (primes_per_thread : Nat)
    (s : Encoder) : Encoder :=
  if primes_per_thread > sieving128KCrossover mc + 2 then
    deltaAdvance (deltaWords4 31 20 primes (deltaRows 0xFFF00000 s))
  else s

/-- Lines 440-453: the row of primes both below and above 1M. -/
def sectionAcross1M (mc : Bool) (primes : Nat → Nat) (primes_per_thread : Nat)
    (s : Encoder) : Encoder :=
  if primes_per_thread > sieving1MCrossover mc then
    rowStrided gen_sloppy_pinv primes (primes_per_thread - sieving1MCrossover mc) s
  else s

/-- Lines 456-493: primes above 1M to 16M, with bit-to-clear in 24 bits,
`(p diff) / 2` in 7 bits and `pinv diff` in 1 bit. -/
def section1Mto16M (mc : Bool) (primes : Nat → Nat) (primes_per_thread : Nat)
    (s : Encoder) : Encoder :=
  if primes_per_thread > sieving1MCrossover mc + 1 then
    deltaAdvance (deltaWords4 1 24 primes (deltaRows 0xFF000000 s))
  else s

/-- Lines 299-301: the encoder starts at the first prime after the prefix and
behind the padding. `loop_count` holds what line 257 of the accepting turn of
the search loop left in it. -/
def encoderStart (mc : Bool) (primes_per_thread : Nat) : Encoder :=
  { i := primesNotSieved mc + primesHandledWithSpecialCode mc
    pinfo := PINFO_PAD1
    loop_count := sub32 primes_per_thread (sieving1MCrossover mc)
    rows := []
    words := []
    bad := [] }

/-- The encoder up to the end of the band of primes from 64K through 128K
(lines 299-381). -/
def encodeTo128K (mc : Bool) (primes : Nat → Nat) (primes_per_thread : Nat) : Encoder :=
  section64Kto128K mc primes primes_per_thread
    (sectionTransition128K mc primes primes_per_thread
      (sectionAcross64K mc primes primes_per_thread
        (sectionBelow64K mc primes primes_per_thread (encoderStart mc primes_per_thread))))

/-- Lines 299-493 of `gpusieve_init`: the whole encoder, for the primes
array `primes` and the row count `primes_per_thread` found by the search. -/
def encode (mc : Bool) (primes : Nat → Nat) (primes_per_thread : Nat) : Encoder :=
  section1Mto16M mc primes primes_per_thread
    (sectionAcross1M mc primes primes_per_thread
      (section128Kto1M mc primes primes_per_thread
        (sectionFirstAbove128K mc primes primes_per_thread
          (encodeTo128K mc primes primes_per_thread))))

/-- Line 494: `pinfo_size = (cl_uint)(pinfo - saveptr)`. -/
def pinfo_size (s : Encoder) : Nat := s.pinfo % U32

/-! ## Notions used to state the properties of the encoder -/

/-- The part of the encoder state that decides the row descriptors: the two
cursors, `loop_count` and the descriptors written so far. -/
def Encoder.cursor (s : Encoder) : Nat × Nat × Nat × List Row :=
  (s.i, s.pinfo, s.loop_count, s.rows)

/-- The prime indices of the 256 lanes of a row: lane `j` holds the prime with
index `first + j * stride`. -/
def Row.lanes (row : Row) : List Nat :=
  (List.range threadsPerBlock).map (fun j => row.first + j * row.stride)

/-- The prime indices packed by a list of rows, row by row and lane by lane. -/
def packedIndices (rows : List Row) : List Nat := rows.flatMap Row.lanes

/-- Bytes per lane in the packed buffer of a row, by the layout its mask
stands for: the sections that write the mask `0xFFFF0000` advance `pinfo` by
`threadsPerBlock * 8` for a row, those that write the mask `0` by
`threadsPerBlock * 12`, and the delta bands by `threadsPerBlock * 4`. -/
def Row.entrySize (row : Row) : Nat :=
  if row.mask = 0xFFFF0000 then 8 else if row.mask = 0 then 12 else 4

/-- The byte range of a row ends where `other` begins, or the other way round. -/
def Row.disjoint (row other : Row) : Prop :=
  row.offset + threadsPerBlock * row.entrySize ≤ other.offset ∨
    other.offset + threadsPerBlock * other.entrySize ≤ row.offset

/-- The descriptors of `n` rows of a dense section that starts at byte `p0`
and prime index `i0`, with `bytes` bytes to a row. -/
def denseRows (p0 i0 bytes mask n : Nat) : List Row :=
  (List.range n).map (fun k => ⟨(p0 + bytes * k) % U32, i0 + threadsPerBlock * k, 1, mask⟩)

/-- The descriptors of a delta band of `lc` rows that starts at byte `p0` and
prime index `i0`: the row of full 32-bit entries in front, then the `lc - 1`
rows of packed words. -/
def bandRows (p0 i0 lc mask : Nat) : List Row :=
  ⟨p0 % U32, i0, lc, 0⟩ ::
    (List.range' 1 (lc - 1)).map (fun k =>
      ⟨add32 ((p0 + threadsPerBlock * 12) % U32) (mul32 (mul32 (k - 1) threadsPerBlock) 4),
        i0 + k, lc, mask⟩)

/-- The rows `rows` lie one after the other in the packed buffer, from byte
`a` to byte `b`. -/
def stacked : Nat → List Row → Nat → Prop
  | a, [], b => a = b
  | a, row :: rest, b =>
    row.offset = a ∧ stacked (a + threadsPerBlock * row.entrySize) rest b

/-- The row descriptors that the encoder writes for the row count `r`, in
closed form: the rows of primes below 64K, the row across 64K, and the three
delta bands, each present when `r` reaches it. -/
def encodedRows (r : Nat) : List Row :=
  denseRows 1024 54 2048 0xFFFF0000 (min r 25)
    ++ denseRows (1024 + 2048 * min r 25) (54 + 256 * min r 25) 3072 0 (min r 26 - min r 25)
    ++ (if 26 < r then bandRows 55296 6710 (min r 48 - 26) 0xFFFC0000 else [])
    ++ (if 48 < r then bandRows 79872 12342 (min r 317 - 48) 0xFFF00000 else [])
    ++ (if 317 < r then bandRows 357376 81206 (r - 317) 0xFF000000 else [])

/-- The byte cursor at the end of the encoder for the row count `r`, in
closed form. -/
def encodedBytes (r : Nat) : Nat :=
  1024 + 2048 * min r 25 + 3072 * (min r 26 - min r 25)
    + (if 26 < r then 3072 + 1024 * (min r 48 - 27) else 0)
    + (if 48 < r then 3072 + 1024 * (min r 317 - 49) else 0)
    + (if 317 < r then
        3072 + (if 318 < r then mul32 (mul32 (sub32 (r - 317) 1) 256) 4 else 0) else 0)

/-! ## Notions used to state the properties of `tiny_soe` -/

/-- The primes below `n`, in ascending order. -/
def primesBelow (n : Nat) : List Nat := (List.range n).filter fun x => decide (Nat.Prime x)

/-- The odd number `2 * j + 1` has been crossed off once the sieve has dealt
with every index below `i`: it is a proper multiple of an odd prime
`2 * i' + 1` with `1 ≤ i' < i`. -/
def crossed (i j : Nat) : Prop :=
  ∃ i', 1 ≤ i' ∧ i' < i ∧ Nat.Prime (2 * i' + 1) ∧ (2 * i' + 1) ∣ (2 * j + 1) ∧ i' < j

/-- The state of the array `flags` of `sieve_size` bytes when the sieve
reaches the index `i`: a byte is `0` when its odd number has been crossed
off and `1` otherwise. -/
def FlagsAt (sieve_size i : Nat) (flags : List Nat) : Prop :=
  flags.length = sieve_size ∧
    ∀ j, j < sieve_size →
      (crossed i j → flags[j]? = some 0) ∧ (¬ crossed i j → flags[j]? = some 1)

/-! ## Notions used to state and check the bounds of the delta band -/

/-- The primes array as the encoder reads it: index to value. (An index
outside the array, which the encoder never reads, gives `0`.) -/
def primesArray (primes : List Nat) : Nat → Nat := fun k => primes.getD k 0

/-- The test of lines 363, 369 and 375 does not print: for the prime `q` and
the earlier prime `p` it is packed against, both `pdiff` and `pinvdiff` are
at most 127. -/
def deltaFits (p q : Nat) : Bool :=
  decide (¬ (sub32 q p / 2 > 127 ∨ sub32 (gen_pinv p) (gen_pinv q) > 127))

/-- A checker for `deltaFits` over a range of primes. It goes through the
numbers `top - fuel, ..., top - 1`, taking a number to be prime when it is
coprime to `W`, and carries the count `cnt` of primes below the current
number and the last three primes `a > b > c` below it. For every prime whose
index lies in `[lo, hi]` it tests `deltaFits` against the prime three places
before. The result is the final `(cnt, a, b, c)`, or `none` when a test
fails. -/
def scanPrimes (W top lo hi : Nat) : Nat → Nat → Nat → Nat → Nat → Option (Nat × Nat × Nat × Nat)
  | 0, cnt, a, b, c => some (cnt, a, b, c)
  | fuel + 1, cnt, a, b, c =>
    cond (Nat.beq (Nat.gcd (Nat.sub top (fuel + 1)) W) 1)
      (cond (Nat.ble lo cnt && Nat.ble cnt hi && !(deltaFits c (Nat.sub top (fuel + 1))))
        none
        (scanPrimes W top lo hi fuel (Nat.succ cnt) (Nat.sub top (fuel + 1)) a b))
      (scanPrimes W top lo hi fuel cnt a b c)

/-- What `scanPrimes` carries at the number `n`: the count of primes below `n`
and the last three of them. -/
def PrimeState (n cnt a b c : Nat) : Prop :=
  cnt = Nat.count Nat.Prime n ∧ 3 ≤ cnt ∧ a = Nat.nth Nat.Prime (cnt - 1) ∧
    b = Nat.nth Nat.Prime (cnt - 2) ∧ c = Nat.nth Nat.Prime (cnt - 3)

/-- A synthetic ascending list of odd values with one gap of 1002 in the band
from 64K through 128K: `2 k + 1` up to the index 6710 and `2 k + 1001` from the
index 6711 on. -/
def gapList (k : Nat) : Nat := if k < 6711 then 2 * k + 1 else 2 * k + 1001

/-! ## The side table of `gpusieve_init` (lines 286-292 and 497-500) -/

/-- Line 287: `rowinfo_size`, in bytes, for the constant
`MAX_PRIMES_PER_THREAD` of the build. -/
def rowinfo_size (MAX_PRIMES_PER_THREAD gpu_sieve_primes : Nat) : Nat :=
  add32 (mul32 (mul32 MAX_PRIMES_PER_THREAD 4) 4) (mul32 gpu_sieve_primes 8)

/-- Lines 307-311 and their repetitions, on the words of `rowinfo`: the
descriptor `row` goes to the words `n`, `MAX_PRIMES_PER_THREAD + n`,
`MAX_PRIMES_PER_THREAD*2 + n` and `MAX_PRIMES_PER_THREAD*3 + n`, where `n` is
the number of descriptors filled before it. -/
def storeRow (MAX_PRIMES_PER_THREAD : Nat) (rowinfo : Nat → Nat) (n : Nat) (row : Row) :
    Nat → Nat :=
  Function.update
    (Function.update
      (Function.update (Function.update rowinfo n row.offset)
        (MAX_PRIMES_PER_THREAD + n) row.first)
      (MAX_PRIMES_PER_THREAD * 2 + n) row.stride)
    (MAX_PRIMES_PER_THREAD * 3 + n) row.mask

/-- The words of `rowinfo` once the descriptors `rows` are filled, the first
of them being descriptor number `n`. -/
def storeRows (MAX_PRIMES_PER_THREAD : Nat) : List Row → Nat → (Nat → Nat) → Nat → Nat
  | [], _, rowinfo => rowinfo
  | row :: rest, n, rowinfo =>
    storeRows MAX_PRIMES_PER_THREAD rest (n + 1) (storeRow MAX_PRIMES_PER_THREAD rowinfo n row)

/-- Lines 498-500: the loop that copies the primes into the tail of `rowinfo`,
`rowinfo[MAX_PRIMES_PER_THREAD*4 + 2 * i] = primes[i]`, on the words of
`rowinfo` (word index to value). -/
def copyPrimes (mc : Bool) (MAX_PRIMES_PER_THREAD : Nat) (primes : Nat → Nat)
    (gpu_sieve_primes : Nat) (rowinfo : Nat → Nat) : Nat → Nat :=
  forLoop gpu_sieve_primes 1
    (fun i mem =>
      Function.update mem (add32 (mul32 MAX_PRIMES_PER_THREAD 4) (mul32 2 i)) (primes i))
    gpu_sieve_primes (primesNotSieved mc) rowinfo

/-! ## The host functions (lines 158-648)

The model is of the build without `RAW_GPU_BENCH`, the benchmark switch under
which the per-exponent, per-class and sieve functions return at once, and
without `DETAILED_INFO`, which only prints. -/

/-- Bytes of shared memory of one block. -/
def block_size_in_bytes : Nat := 8192

/-- Number of bits generated by each block. -/
def block_size : Nat := mul32 block_size_in_bytes 8

/-- The status `CL_SUCCESS` of the OpenCL calls. -/
def CL_SUCCESS : Int := 0

/-- The three buffers of the run context: each has a device buffer `d_...`
and a host mirror `h_...`. -/
inductive Buffer where
  | bitarray
  | calc_bit_to_clear_info
  | sieve_info
  deriving DecidableEq

/-- The calls that the host functions make to the allocator, to OpenCL and to
the kernel launchers, with the arguments that matter here. -/
inductive Call where
  /-- The call `malloc (bytes)`. -/
  | malloc (bytes : Nat)
  /-- The call `realloc (pinfo, bytes)`. -/
  | realloc (bytes : Nat)
  /-- The call `clCreateBuffer` for the device buffer `b`, of `bytes` bytes. -/
  | clCreateBuffer (b : Buffer) (bytes : Nat)
  /-- The call `clReleaseMemObject` on the device buffer `b`. -/
  | clReleaseMemObject (b : Buffer)
  /-- The call `free` on the host mirror of `b`. -/
  | free (b : Buffer)
  /-- The call `free (primes)`. -/
  | freePrimes
  /-- The call `run_calc_mod_inv (groups, lanes, NULL)`. -/
  | run_calc_mod_inv (groups lanes : Nat)
  /-- The call `run_cl_sieve (groups, lanes, NULL, primes_per_thread)`. -/
  | run_cl_sieve (groups lanes primes_per_thread : Nat)
  deriving DecidableEq

/-- The fields of `mystuff_t` that this file uses. A host mirror or device
buffer is `none` while the pointer is `NULL`; a device buffer is given by its
size in bytes. -/
structure Mystuff where
  gpu_sieve_size : Nat
  gpu_sieve_primes : Nat
  exponent : Nat
  h_bitarray : Option Nat
  d_bitarray : Option Nat
  /-- The packed buffer: its size `pinfo_size` and the stores made into it. -/
  h_sieve_info : Option (Nat × List (Nat × Nat))
  d_sieve_info : Option Nat
  /-- The words of `rowinfo`. -/
  h_calc_bit_to_clear_info : Option (Nat → Nat)
  d_calc_bit_to_clear_info : Option Nat

/-- The state that the host functions share: the run context, the global
`primes_per_thread`, the two `static` variables, and the calls made so far,
oldest first. -/
structure Global where
  mystuff : Mystuff
  primes_per_thread : Nat
  gpusieve_initialized : Bool
  last_exponent_initialized : Nat
  trace : List Call

/-- Record a call. -/
def Global.call (g : Global) (c : Call) : Global :=
  { g with trace := g.trace ++ [c] }

/-- What the allocator and OpenCL answer during one call of `gpusieve_init`:
whether each `malloc` gives a block, and the status of each `clCreateBuffer`. -/
structure InitEnv where
  malloc_bitarray : Bool
  status_bitarray : Int
  malloc_primes : Bool
  malloc_pinfo : Bool
  malloc_rowinfo : Bool
  status_sieve_info : Int
  status_calc_bit_to_clear_info : Int

/-- Lines 267-547 of `gpusieve_init`, after the search: generation of the
primes, the encoder, the side table and the two remaining buffers. `none`
stands for `exit (1)` and for a read outside the flags of `tiny_soe`. The
blocks come from `calloc` (line 42), so `rowinfo` starts as zeros. -/
def gpusieve_init_buffers (mc : Bool) (MAX_PRIMES_PER_THREAD : Nat) (env : InitEnv)
    (g : Global) : Option (Int × Global) :=
  let gpu_sieve_primes := g.mystuff.gpu_sieve_primes
  let g1 := g.call (.malloc (mul32 gpu_sieve_primes 4))
  if !env.malloc_primes then none else
  match tiny_soe gpu_sieve_primes with
  | none => none
  | some out =>
    let primes := primesArray out
    let g2 := g1.call (.malloc (mul32 gpu_sieve_primes 12))
    if !env.malloc_pinfo then none else
    let g3 := g2.call (.malloc (rowinfo_size MAX_PRIMES_PER_THREAD gpu_sieve_primes))
    if !env.malloc_rowinfo then none else
    let enc := encode mc primes g.primes_per_thread
    let rowinfo := copyPrimes mc MAX_PRIMES_PER_THREAD primes gpu_sieve_primes
      (storeRows MAX_PRIMES_PER_THREAD enc.rows 0 (fun _ => 0))
    let g4 := (g3.call (.realloc (pinfo_size enc))).call
      (.clCreateBuffer .sieve_info (pinfo_size enc))
    let g5 := { g4 with mystuff := { g4.mystuff with
      h_sieve_info := some (pinfo_size enc, enc.words)
      d_sieve_info :=
        if env.status_sieve_info ≠ CL_SUCCESS then none else some (pinfo_size enc) } }
    if env.status_sieve_info ≠ CL_SUCCESS then some (1, g5) else
    let g6 := g5.call
      (.clCreateBuffer .calc_bit_to_clear_info (rowinfo_size MAX_PRIMES_PER_THREAD gpu_sieve_primes))
    let g7 := { g6 with mystuff := { g6.mystuff with
      h_calc_bit_to_clear_info := some rowinfo
      d_calc_bit_to_clear_info :=
        if env.status_calc_bit_to_clear_info ≠ CL_SUCCESS then none
        else some (rowinfo_size MAX_PRIMES_PER_THREAD gpu_sieve_primes) } }
    if env.status_calc_bit_to_clear_info ≠ CL_SUCCESS then some (1, g7) else
    some (0, g7.call .freePrimes)

/-- The function `gpusieve_init (mystuff, context)` (lines 158-548): the
returned `int` and the state after the call. `none` stands for `exit (1)`, for
a read outside the flags of `tiny_soe`, and for a search loop that is still
running after `fuel` turns. -/
def gpusieve_init (mc : Bool) (MAX_PRIMES_PER_THREAD fuel : Nat) (env : InitEnv)
    (g : Global) : Option (Int × Global) :=
  if g.gpusieve_initialized then some (0, g) else
  let g0 := { g with gpusieve_initialized := true }
  let g1 := g0.call (.malloc (g0.mystuff.gpu_sieve_size / 8))
  if !env.malloc_bitarray then
    some (1, { g1 with mystuff := { g1.mystuff with h_bitarray := none } })
  else
  let g2 := ({ g1 with mystuff := { g1.mystuff with
      h_bitarray := some (g1.mystuff.gpu_sieve_size / 8) } }).call
    (.clCreateBuffer .bitarray (g1.mystuff.gpu_sieve_size / 8))
  let g3 := { g2 with mystuff := { g2.mystuff with
    d_bitarray :=
      if env.status_bitarray ≠ CL_SUCCESS then none else some (g2.mystuff.gpu_sieve_size / 8) } }
  if env.status_bitarray ≠ CL_SUCCESS then some (1, g3) else
  match crossoverSearch mc fuel g3.mystuff.gpu_sieve_primes with
  | none => none
  | some (gpu_sieve_primes, primes_per_thread) =>
    gpusieve_init_buffers mc MAX_PRIMES_PER_THREAD env
      { g3 with
        mystuff := { g3.mystuff with gpu_sieve_primes := gpu_sieve_primes }
        primes_per_thread := primes_per_thread }

/-- A sequence of calls of `gpusieve_init`, one for each element of `envs`:
the values returned, in order, and the state after the last call. -/
def gpusieve_init_calls (mc : Bool) (MAX_PRIMES_PER_THREAD fuel : Nat) :
    List InitEnv → Global → Option (List Int × Global)
  | [], g => some ([], g)
  | env :: rest, g =>
    match gpusieve_init mc MAX_PRIMES_PER_THREAD fuel env g with
    | none => none
    | some (code, g1) =>
      match gpusieve_init_calls mc MAX_PRIMES_PER_THREAD fuel rest g1 with
      | none => none
      | some (codes, g2) => some (code :: codes, g2)

/-- The function `gpusieve_init_exponent (mystuff)` (lines 553-571). -/
def gpusieve_init_exponent (g : Global) : Global :=
  if g.mystuff.exponent = g.last_exponent_initialized then g
  else
    ({ g with last_exponent_initialized := g.mystuff.exponent }).call
      (.run_calc_mod_inv (add32 g.primes_per_thread 1) threadsPerBlock)

/-- The function `gpusieve (mystuff, num_k_remaining)` (lines 599-619).
`sieve_size` is an `int`; it enters the sum of line 618 converted to `cl_uint`,
so its value modulo `2^32` is what is kept here. -/
def gpusieve (g : Global) (num_k_remaining : Nat) : Global :=
  let sieve_size :=
    if g.mystuff.gpu_sieve_size < num_k_remaining then g.mystuff.gpu_sieve_size % U32
    else num_k_remaining % U32
  g.call
    (.run_cl_sieve (sub32 (add32 sieve_size block_size) 1 / block_size) threadsPerBlock
      g.primes_per_thread)

/-- The function `gpusieve_free (mystuff)` (lines 621-648), where `status b`
is what `clReleaseMemObject` returns for the device buffer `b`. -/
def gpusieve_free (status : Buffer → Int) (g : Global) : Int × Global :=
  let g1 := g.call (.clReleaseMemObject .bitarray)
  if status .bitarray ≠ CL_SUCCESS then (1, g1) else
  let g2 := (g1.call (.free .bitarray)).call (.clReleaseMemObject .calc_bit_to_clear_info)
  if status .calc_bit_to_clear_info ≠ CL_SUCCESS then (1, g2) else
  let g3 := (g2.call (.free .calc_bit_to_clear_info)).call (.clReleaseMemObject .sieve_info)
  if status .sieve_info ≠ CL_SUCCESS then (1, g3) else
  (0, g3.call (.free .sieve_info))

/-- The caller stores the exponent to be factored into the run context before
it calls `gpusieve_init_exponent`. -/
def Global.setExponent (g : Global) (p : Nat) : Global :=
  { g with mystuff := { g.mystuff with exponent := p } }

/-! ## Notions used to state what the packed buffer holds -/

/-- The word of the packed buffer at the byte offset `addr`: the value of the
most recent store there, `none` when the encoder has not stored there. -/
def Encoder.load (s : Encoder) (addr : Nat) : Option Nat :=
  (s.words.find? fun x => x.1 == addr).map Prod.snd

/-- The packed word of a delta entry (line 364 and its repetitions): the value
that `deltaEntry` stores for the prime at `index` against the prime `back`
places before it. -/
def deltaWord (pinv : Nat → Nat) (shift : Nat) (primes : Nat → Nat) (index back : Nat) : Nat :=
  add32
    (add32 (shl32 (sub32 (pinv (primes (index - back))) (pinv (primes index))) (shift + 7))
      (shl32 (sub32 (primes index) (primes (index - back)) / 2) shift))
    0

/-- The stores of one row of the section of primes below 64K, written at the
byte cursor `p` and the prime cursor `i`. -/
def Stored16 (primes : Nat → Nat) (p i : Nat) (x : Nat × Nat) : Prop :=
  ∃ j, j < 256 ∧
    (x = (p + 4 * j, add32 (shl32 (primes (i + j)) 16) 0) ∨
      x = (p + 4 * (j + 256), gen_pinv (primes (i + j))))

/-- The stores of one row of full 32-bit entries, written at the byte cursor
`p` for the primes `i + j * stride`. -/
def Stored32 (pinv primes : Nat → Nat) (p i stride : Nat) (x : Nat × Nat) : Prop :=
  ∃ j, j < 256 ∧
    (x = (p + 4 * j, 0) ∨ x = (p + 4 * (j + 256), pinv (primes (i + j * stride))) ∨
      x = (p + 4 * (j + 512), primes (i + j * stride)))

/-- The stores of the packed words of a delta band of `lc` rows whose words
start at the byte `q` and whose primes start at the index `i`: turn `t` of the
outer loop has `k = 1 + step * t`, and its entry `e` is for the prime
`i + j * lc + k + e`, packed against the prime `e + 1` places before it, in the
row `k - 1 + e` of the band. -/
def StoredDelta (pinv : Nat → Nat) (shift : Nat) (primes : Nat → Nat) (step q i lc : Nat)
    (x : Nat × Nat) : Prop :=
  ∃ t j e, 1 + step * t < lc ∧ j < 256 ∧ e < step ∧
    x = (q + 4 * ((step * t + e) * 256 + j),
      deltaWord pinv shift primes (i + j * lc + (1 + step * t) + e) (e + 1))

/-- The stores that the encoder makes for the row count `r`, in closed form:
`EncodedWord primes r (addr, val)` says that some store of `val` at the byte
offset `addr` is made. The rows of primes below 64K start at byte 1024, the
band from 64K through 128K at byte 55296, the band from 128K to 1M at byte
79872 and the band above 1M at byte 357376; the packed words of a band start
3072 bytes after its row of full entries. -/
def EncodedWord (primes : Nat → Nat) (r : Nat) (x : Nat × Nat) : Prop :=
  (∃ n, n < min r 25 ∧ Stored16 primes (1024 + 2048 * n) (54 + 256 * n) x) ∨
  (∃ n, n < min r 26 - min r 25 ∧
    Stored32 gen_pinv primes (1024 + 2048 * min r 25 + 3072 * n)
      (54 + 256 * min r 25 + 256 * n) 1 x) ∨
  (26 < r ∧ (Stored32 gen_pinv primes 55296 6710 (min r 48 - 26) x ∨
    (27 < r ∧ StoredDelta gen_pinv 18 primes 3 58368 6710 (min r 48 - 26) x))) ∨
  (48 < r ∧ (Stored32 gen_sloppy_pinv primes 79872 12342 (min r 317 - 48) x ∨
    (49 < r ∧ StoredDelta gen_sloppy_pinv 20 primes 4 82944 12342 (min r 317 - 48) x))) ∨
  (317 < r ∧ (Stored32 gen_sloppy_pinv primes 357376 81206 (r - 317) x ∨
    (318 < r ∧ StoredDelta gen_sloppy_pinv 24 primes 4 360448 81206 (r - 317) x)))

/-- The 32-bit word `w` has nothing outside `mask`: `w AND NOT mask = 0`, where
`NOT mask` is the complement of `mask` in 32 bits, and `w AND mask = w`. -/
def underMask (mask w : Nat) : Prop :=
  w &&& (4294967295 ^^^ mask) = 0 ∧ w &&& mask = w

/-- The indices of `primes` that the loops of the packed words of a delta band
read (lines 358-378, 408-434 and 464-490), in the order of the loops: the
entry `e` of a turn reads `primes[index]` and `primes[index - back]` for
`index = i + j * loop_count + k + e` and `back = e + 1`, where `step` is the
number of entries of a turn (3 in the first band, 4 in the other two). -/
def deltaReads (step : Nat) (s : Encoder) : List Nat :=
  forLoop s.loop_count step
    (fun k reads =>
      forLoop threadsPerBlock 1
        (fun j reads =>
          reads ++ (List.range step).flatMap fun e =>
            [s.i + j * s.loop_count + k + e, s.i + j * s.loop_count + k + e - (e + 1)])
        threadsPerBlock 0 reads)
    s.loop_count 1 []

/-- The encoder when the loop of line 358 starts: the descriptors of the band
from 64K through 128K are filled and `pinfo` points at its packed words. -/
def bandStart128K (mc : Bool) (primes : Nat → Nat) (primes_per_thread : Nat) : Encoder :=
  deltaRows 0xFFFC0000
    (sectionTransition128K mc primes primes_per_thread
      (sectionAcross64K mc primes primes_per_thread
        (sectionBelow64K mc primes primes_per_thread (encoderStart mc primes_per_thread))))

/-- The encoder when the loop of line 408 starts, in the band from 128K to 1M. -/
def bandStart1M (mc : Bool) (primes : Nat → Nat) (primes_per_thread : Nat) : Encoder :=
  deltaRows 0xFFF00000
    (sectionFirstAbove128K mc primes primes_per_thread
      (encodeTo128K mc primes primes_per_thread))

/-- The encoder when the loop of line 464 starts, in the band above 1M. -/
def bandStart16M (mc : Bool) (primes : Nat → Nat) (primes_per_thread : Nat) : Encoder :=
  deltaRows 0xFF000000
    (sectionAcross1M mc primes primes_per_thread
      (section128Kto1M mc primes primes_per_thread
        (sectionFirstAbove128K mc primes primes_per_thread
          (encodeTo128K mc primes primes_per_thread))))

/-- The loops of the packed words of a delta band stay in range. `S` is the
encoder when the loop `W` of the packed words starts, `after` the encoder
after the band, `step` the number of rows that a turn of the loop writes,
and `size` the final `pinfo_size`:
* the band ends with `deltaAdvance` after the loop `W`;
* the row count `loop_count` of the band is `1` modulo `step`;
* every index of `primes` that the loop reads is at least 54 and below
  `primeCount`;
* every store of the loop goes into the `(loop_count - 1) * 256` words that
  start at `pinfo`;
* these words end where the cursor stands after the band, which is not
  beyond `size`. -/
def DeltaInRange (step primeCount : Nat) (S after : Encoder) (W : Encoder → Encoder)
    (size : Nat) : Prop :=
  after = deltaAdvance (W S) ∧ S.loop_count % step = 1 ∧
    (∀ idx ∈ deltaReads step S, 54 ≤ idx ∧ idx < primeCount) ∧
    (∀ x ∈ (W S).words,
      x ∈ S.words ∨ (S.pinfo ≤ x.1 ∧ x.1 + 4 ≤ S.pinfo + (S.loop_count - 1) * 256 * 4)) ∧
    S.pinfo + (S.loop_count - 1) * 256 * 4 = after.pinfo ∧ after.pinfo ≤ size

/-! # Verification -/

/-! ## Facts about the constants -/

theorem prefix_eq (mc : Bool) :
    primesNotSieved mc + primesHandledWithSpecialCode mc = 54 := by
  cases mc <;> rfl

theorem sieving64KCrossover_eq (mc : Bool) : sieving64KCrossover mc = 25 := by
  cases mc <;> rfl

theorem sieving128KCrossover_eq (mc : Bool) : sieving128KCrossover mc = 47 := by
  cases mc <;> rfl

theorem sieving1MCrossover_eq (mc : Bool) : sieving1MCrossover mc = 317 := by
  cases mc <;> rfl

/-- Subtracting the two prefix counts from a `cl_uint`, in 32-bit arithmetic. -/
theorem sub32_skipped (mc : Bool) (g : Nat) (hg : g < U32) :
    sub32 (sub32 g (primesNotSieved mc)) (primesHandledWithSpecialCode mc)
      = (g + U32 - 54) % U32 := by
  cases mc <;> simp only [sub32, primesNotSieved, primesHandledWithSpecialCode, U32] at * <;> omega

/-- On the grid `54 + 256 * m` the row count is `m`. -/
theorem primesPerThread_grid (mc : Bool) (m : Nat) (hm : m < 16777216) :
    primesPerThread mc (54 + 256 * m) = m := by
  unfold primesPerThread
  rw [sub32_skipped mc _ (by unfold U32; omega)]
  simp only [threadsPerBlock, U32]
  omega

/-- Rounding a request `B ≥ 54` puts it on the grid, at or below `B`. -/
theorem roundSievePrimes_eq (mc : Bool) (B : Nat) (h54 : 54 ≤ B) (hB : B < U32) :
    roundSievePrimes mc B = 54 + 256 * ((B - 54) / 256) := by
  unfold roundSievePrimes
  rw [sub32_skipped mc _ hB]
  cases mc <;>
    simp only [add32, mul32, threadsPerBlock, primesNotSieved, primesHandledWithSpecialCode, U32
      ] at * <;> omega

/-- The acceptance test of the search loop as a conjunction of the tests the
loop body makes. -/
theorem crossoverAccepts_iff (mc : Bool) (r : Nat) :
    crossoverAccepts mc r = true ↔
      ((1 < r → (min r 25 - 1) % 3 = 0) ∧ r ≠ 26 ∧ (26 < r → (min r 48 - 26) % 3 = 1) ∧
        (48 < r → (min r 317 - 48) % 4 = 1) ∧ (317 < r → (r - 317) % 4 = 1)) := by
  unfold crossoverAccepts
  rw [sieving64KCrossover_eq, sieving128KCrossover_eq, sieving1MCrossover_eq]
  split_ifs <;> simp <;> omega

/-- One trip through the search loop from a grid point below the top of the
32-bit range. -/
theorem crossoverLoop_succ (mc : Bool) (f m : Nat) (hm : m < 16777215) :
    crossoverLoop mc (f + 1) (54 + 256 * m) =
      if crossoverAccepts mc m then some (54 + 256 * m, m)
      else crossoverLoop mc f (54 + 256 * (m + 1)) := by
  have h1 : add32 (54 + 256 * m) threadsPerBlock = 54 + 256 * (m + 1) := by
    simp only [add32, threadsPerBlock, U32]; omega
  rw [crossoverLoop, primesPerThread_grid mc m (by omega), h1]

/-- One trip through the search loop from the last grid point of the 32-bit
range: the increment wraps around to the prefix size. -/
theorem crossoverLoop_top (mc : Bool) (f : Nat) :
    crossoverLoop mc (f + 2) (54 + 256 * 16777215) = some (54, 0) := by
  have h1 : add32 (54 + 256 * 16777215) threadsPerBlock = 54 + 256 * 0 := by
    simp only [add32, threadsPerBlock, U32]
  have h2 : crossoverAccepts mc 16777215 = false := by
    rw [← Bool.not_eq_true, crossoverAccepts_iff]; omega
  have h3 : crossoverAccepts mc 0 = true := by
    rw [crossoverAccepts_iff]; omega
  rw [crossoverLoop, primesPerThread_grid mc _ (by omega), h2, h1, crossoverLoop,
    primesPerThread_grid mc 0 (by omega), h3]
  simp

/-- Among four consecutive row counts one is accepted. -/
theorem crossoverAccepts_within_four (mc : Bool) (m : Nat)
    (h0 : crossoverAccepts mc m = false) (h1 : crossoverAccepts mc (m + 1) = false)
    (h2 : crossoverAccepts mc (m + 2) = false) : crossoverAccepts mc (m + 3) = true := by
  rw [← Bool.not_eq_true, crossoverAccepts_iff] at h0 h1 h2
  rw [crossoverAccepts_iff]
  omega

/-- The search loop started on a grid point that is not the last one of the
32-bit range stops at the first accepted row count, after at most three
increments and without wrapping around. -/
theorem crossoverLoop_grid (mc : Bool) (f m : Nat) (hf : 4 ≤ f) (hm : m ≤ 16777214) :
    ∃ k, k ≤ 3 ∧ m + k ≤ 16777214 ∧
      crossoverLoop mc f (54 + 256 * m) = some (54 + 256 * (m + k), m + k) ∧
      crossoverAccepts mc (m + k) = true ∧
      ∀ j, j < k → crossoverAccepts mc (m + j) = false := by
  obtain ⟨f, rfl⟩ : ∃ g, f = g + 4 := ⟨f - 4, by omega⟩
  have top : crossoverAccepts mc 16777214 = true := by
    rw [crossoverAccepts_iff]; omega
  by_cases a0 : crossoverAccepts mc m = true
  · refine ⟨0, by omega, by omega, ?_, a0, fun j hj => by omega⟩
    rw [crossoverLoop_succ mc _ m (by omega), if_pos a0]; rfl
  rw [Bool.not_eq_true] at a0
  have hm1 : m + 1 ≤ 16777214 := by
    rcases Nat.lt_or_ge m 16777214 with h | h
    · omega
    · have : m = 16777214 := by omega
      subst this; rw [top] at a0; cases a0
  by_cases a1 : crossoverAccepts mc (m + 1) = true
  · refine ⟨1, by omega, by omega, ?_, a1, fun j hj => ?_⟩
    · rw [crossoverLoop_succ mc _ m (by omega), a0, if_neg (by simp),
        crossoverLoop_succ mc _ (m + 1) (by omega), if_pos a1]
    · have : j = 0 := by omega
      subst this; exact a0
  rw [Bool.not_eq_true] at a1
  have hm2 : m + 2 ≤ 16777214 := by
    rcases Nat.lt_or_ge (m + 1) 16777214 with h | h
    · omega
    · have : m + 1 = 16777214 := by omega
      rw [this, top] at a1; cases a1
  by_cases a2 : crossoverAccepts mc (m + 2) = true
  · refine ⟨2, by omega, by omega, ?_, a2, fun j hj => ?_⟩
    · rw [crossoverLoop_succ mc _ m (by omega), a0, if_neg (by simp),
        crossoverLoop_succ mc _ (m + 1) (by omega), a1, if_neg (by simp),
        crossoverLoop_succ mc _ (m + 2) (by omega), if_pos a2]
    · have : j = 0 ∨ j = 1 := by omega
      rcases this with rfl | rfl
      · exact a0
      · exact a1
  rw [Bool.not_eq_true] at a2
  have hm3 : m + 3 ≤ 16777214 := by
    rcases Nat.lt_or_ge (m + 2) 16777214 with h | h
    · omega
    · have : m + 2 = 16777214 := by omega
      rw [this, top] at a2; cases a2
  have a3 := crossoverAccepts_within_four mc m a0 a1 a2
  refine ⟨3, by omega, by omega, ?_, a3, fun j hj => ?_⟩
  · rw [crossoverLoop_succ mc _ m (by omega), a0, if_neg (by simp),
      crossoverLoop_succ mc _ (m + 1) (by omega), a1, if_neg (by simp),
      crossoverLoop_succ mc _ (m + 2) (by omega), a2, if_neg (by simp),
      crossoverLoop_succ mc _ (m + 3) (by omega), if_pos a3]
  · have : j = 0 ∨ j = 1 ∨ j = 2 := by omega
    rcases this with rfl | rfl | rfl
    · exact a0
    · exact a1
    · exact a2

/-- The search loop started anywhere on the grid returns an accepted grid
point (the wrapped one, `54`, when started on the last grid point). -/
theorem crossoverLoop_total (mc : Bool) (f m : Nat) (hf : 4 ≤ f) (hm : m < 16777216) :
    ∃ r, r < 16777216 ∧ crossoverLoop mc f (54 + 256 * m) = some (54 + 256 * r, r) ∧
      crossoverAccepts mc r = true := by
  rcases Nat.lt_or_ge m 16777215 with h | h
  · obtain ⟨k, _, hk, hl, ha, _⟩ := crossoverLoop_grid mc f m hf (by omega)
    exact ⟨m + k, by omega, hl, ha⟩
  · have : m = 16777215 := by omega
    subst this
    obtain ⟨f, rfl⟩ : ∃ g, f = g + 2 := ⟨f - 2, by omega⟩
    refine ⟨0, by omega, crossoverLoop_top mc f, ?_⟩
    rw [crossoverAccepts_iff]; omega

/-- An accepted grid point is returned at once. -/
theorem crossoverSearch_fixed (mc : Bool) (f r : Nat) (hf : 1 ≤ f) (hr : r < 16777216)
    (ha : crossoverAccepts mc r = true) :
    crossoverSearch mc f (54 + 256 * r) = some (54 + 256 * r, r) := by
  obtain ⟨f, rfl⟩ : ∃ g, f = g + 1 := ⟨f - 1, by omega⟩
  have hround : roundSievePrimes mc (54 + 256 * r) = 54 + 256 * r := by
    rw [roundSievePrimes_eq mc _ (by omega) (by unfold U32; omega)]; omega
  rw [crossoverSearch, hround, crossoverLoop, primesPerThread_grid mc r hr, if_pos ha]

/-! ## The crossover search: claims C1, C2, C3 and C10 -/

/-- The search on a request `B` with `54 ≤ B < 2^32 - 202`: it stops, without
wrapping, at the first accepted grid point at or above the rounded request. -/
theorem crossoverSearch_spec (mc : Bool) (fuel B : Nat) (hfuel : 4 ≤ fuel) (h54 : 54 ≤ B)
    (hB : B + 202 < U32) :
    ∃ k, k ≤ 3 ∧
      crossoverSearch mc fuel B
        = some (54 + 256 * ((B - 54) / 256 + k), (B - 54) / 256 + k) ∧
      crossoverAccepts mc ((B - 54) / 256 + k) = true ∧
      ∀ j, j < k → crossoverAccepts mc ((B - 54) / 256 + j) = false := by
  have hm : (B - 54) / 256 ≤ 16777214 := by unfold U32 at hB; omega
  obtain ⟨k, hk, _, hl, ha, hmin⟩ := crossoverLoop_grid mc fuel _ hfuel hm
  refine ⟨k, hk, ?_, ha, hmin⟩
  rw [crossoverSearch, roundSievePrimes_eq mc B h54 (by unfold U32 at *; omega), hl]

/-- C1: for every requested budget `B ≥ 310` for which the search does not
wrap around 32 bits (`B + 202 < 2^32`), and any fuel of at least 4, the
crossover search ends with `primeCount = 54 + 256 * r`, where
`r = (primeCount - 54) / 256 ≥ 1` is the row count, and `r` passes every test of
the loop body: `(min r 25 - 1) % 3 = 0`, `r ≠ 26`, `(min r 48 - 26) % 3 = 1`
when `r > 26`, `(min r 317 - 48) % 4 = 1` when `r > 48`, `(r - 317) % 4 = 1`
when `r > 317`. Here `54` is the prefix size and `25`, `47`, `317` are the
three crossovers, in both build configurations. -/
theorem C1_crossover_constraints (mc : Bool) (fuel B : Nat) (hfuel : 4 ≤ fuel)
    (h310 : 310 ≤ B) (hB : B + 202 < U32) :
    primesNotSieved mc + primesHandledWithSpecialCode mc = 54 ∧
      sieving64KCrossover mc = 25 ∧ sieving128KCrossover mc = 47 ∧
      sieving1MCrossover mc = 317 ∧
      ∃ primeCount r, crossoverSearch mc fuel B = some (primeCount, r) ∧
        primeCount = 54 + 256 * r ∧ r = (primeCount - 54) / 256 ∧ 1 ≤ r ∧
        (min r 25 - 1) % 3 = 0 ∧ r ≠ 26 ∧ (26 < r → (min r 48 - 26) % 3 = 1) ∧
        (48 < r → (min r 317 - 48) % 4 = 1) ∧ (317 < r → (r - 317) % 4 = 1) := by
  refine ⟨prefix_eq mc, sieving64KCrossover_eq mc, sieving128KCrossover_eq mc,
    sieving1MCrossover_eq mc, ?_⟩
  obtain ⟨k, _, hs, ha, _⟩ := crossoverSearch_spec mc fuel B hfuel (by omega) hB
  rw [crossoverAccepts_iff] at ha
  refine ⟨_, _, hs, rfl, by omega, by omega, ?_, ha.2.1, ha.2.2.1, ha.2.2.2.1, ha.2.2.2.2⟩
  have h1 := ha.1
  omega

/-- C1, witness: the budget 10000 gives `primeCount = 10038` and `r = 39`. -/
theorem C1_crossover_constraints_witness :
    crossoverSearch true 4 10000 = some (10038, 39) ∧
      (primesNotSieved true + primesHandledWithSpecialCode true = 54 ∧
        sieving64KCrossover true = 25 ∧ sieving128KCrossover true = 47 ∧
        sieving1MCrossover true = 317 ∧
        ∃ primeCount r, crossoverSearch true 4 10000 = some (primeCount, r) ∧
          primeCount = 54 + 256 * r ∧ r = (primeCount - 54) / 256 ∧ 1 ≤ r ∧
          (min r 25 - 1) % 3 = 0 ∧ r ≠ 26 ∧ (26 < r → (min r 48 - 26) % 3 = 1) ∧
          (48 < r → (min r 317 - 48) % 4 = 1) ∧ (317 < r → (r - 317) % 4 = 1)) :=
  ⟨by decide, C1_crossover_constraints true 4 10000 (by decide) (by decide) (by decide)⟩

/-- C2, as stated, fails: the request `2^32 - 1` is rounded to the grid point
`4294967094`, whose row count is rejected; the increment wraps around and the
search returns `54`, which lies below the rounded request. -/
theorem C2_counterexample :
    crossoverSearch true 4 4294967295 = some (54, 0) ∧
      crossoverSearch false 4 4294967295 = some (54, 0) ∧
      ¬ (54 + 256 * ((4294967295 - 54) / 256) ≤ 54) := by
  decide

/-- C2, amended: for every requested budget `B` with `54 ≤ B < 2^32 - 202`
the `primeCount` chosen by the search is the smallest value `54 + 256 * m` at
or above the rounded request `54 + 256 * ((B - 54) / 256)` whose row count `m`
is accepted: no grid value from the rounded request up to the result is
accepted. -/
theorem C2_smallest_admissible (mc : Bool) (fuel B : Nat) (hfuel : 4 ≤ fuel) (h54 : 54 ≤ B)
    (hB : B + 202 < U32) :
    ∃ primeCount r, crossoverSearch mc fuel B = some (primeCount, r) ∧
      primeCount = 54 + 256 * r ∧ 54 + 256 * ((B - 54) / 256) ≤ primeCount ∧
      crossoverAccepts mc r = true ∧
      ∀ m, 54 + 256 * ((B - 54) / 256) ≤ 54 + 256 * m → 54 + 256 * m < primeCount →
        crossoverAccepts mc m = false := by
  obtain ⟨k, _, hs, ha, hmin⟩ := crossoverSearch_spec mc fuel B hfuel h54 hB
  refine ⟨_, _, hs, rfl, by omega, ha, fun m h1 h2 => ?_⟩
  have := hmin (m - (B - 54) / 256) (by omega)
  rwa [show (B - 54) / 256 + (m - (B - 54) / 256) = m by omega] at this

/-- C2, witness: the budget 10000. -/
theorem C2_smallest_admissible_witness :
    ∃ primeCount r, crossoverSearch true 4 10000 = some (primeCount, r) ∧
      primeCount = 54 + 256 * r ∧ 54 + 256 * ((10000 - 54) / 256) ≤ primeCount ∧
      crossoverAccepts true r = true ∧
      ∀ m, 54 + 256 * ((10000 - 54) / 256) ≤ 54 + 256 * m → 54 + 256 * m < primeCount →
        crossoverAccepts true m = false :=
  C2_smallest_admissible true 4 10000 (by decide) (by decide) (by decide)

/-- C3, the code at the failing input: a request of 82500 primes is rounded
down to the grid point 82486, whose row count 322 is accepted, so the search
returns 82486, which is below the request. -/
theorem C3_result_below_request :
    crossoverSearch true 4 82500 = some (82486, 322) ∧
      crossoverSearch false 4 82500 = some (82486, 322) ∧ 82486 < 82500 := by
  decide

/-! ## Loops -/

/-- A property kept by the body is kept by a `for` loop. -/
theorem forLoop_invariant {σ : Type} (P : σ → Prop) (stop step : Nat) (body : Nat → σ → σ)
    (h : ∀ k s, P s → P (body k s)) :
    ∀ fuel k s, P s → P (forLoop stop step body fuel k s) := by
  intro fuel
  induction fuel with
  | zero => intro k s hs; exact hs
  | succ fuel ih =>
    intro k s hs
    unfold forLoop
    split
    · exact ih _ _ (h k s hs)
    · exact hs

/-- A `for` loop with step one and enough fuel runs its body for every value
of the counter, in order. -/
theorem forLoop_one_eq_foldl {σ : Type} (stop : Nat) (body : Nat → σ → σ) :
    ∀ fuel k s, stop - k ≤ fuel →
      forLoop stop 1 body fuel k s
        = (List.range' k (stop - k)).foldl (fun t j => body j t) s := by
  intro fuel
  induction fuel with
  | zero =>
    intro k s h
    have : stop - k = 0 := by omega
    simp [forLoop, this]
  | succ fuel ih =>
    intro k s h
    unfold forLoop
    split
    · rename_i hk
      rw [ih (k + 1) _ (by omega)]
      have : stop - k = (stop - (k + 1)) + 1 := by omega
      rw [this, List.range'_succ, List.foldl_cons]
    · rename_i hk
      have : stop - k = 0 := by omega
      simp [this]

/-! ## The cursor of the encoder through the rows -/

theorem cursor_store (s : Encoder) (a v : Nat) : (s.store a v).cursor = s.cursor := rfl

theorem cursor_report (s : Encoder) (p d e : Nat) : (s.report p d e).cursor = s.cursor := rfl

theorem cursor_deltaEntry (pinv : Nat → Nat) (maxinv shift : Nat) (primes : Nat → Nat)
    (index back addr : Nat) (s : Encoder) :
    (deltaEntry pinv maxinv shift primes index back addr s).cursor = s.cursor := by
  unfold deltaEntry
  simp only []
  split <;> rfl

theorem cursor_row16 (primes : Nat → Nat) (s : Encoder) :
    (row16 primes s).cursor
      = (s.i, s.pinfo, s.loop_count, s.rows ++ [⟨s.pinfo % U32, s.i, 1, 0xFFFF0000⟩]) := by
  unfold row16
  refine forLoop_invariant (fun t : Encoder => t.cursor
    = (s.i, s.pinfo, s.loop_count, s.rows ++ [(⟨s.pinfo % U32, s.i, 1, 0xFFFF0000⟩ : Row)]))
    _ _ _ ?_ _ _ _ ?_
  swap
  · rfl
  intro k t ht
  rw [cursor_store, cursor_store, ht]

theorem cursor_row32 (primes : Nat → Nat) (s : Encoder) :
    (row32 primes s).cursor
      = (s.i, s.pinfo, s.loop_count, s.rows ++ [⟨s.pinfo % U32, s.i, 1, 0⟩]) := by
  unfold row32
  refine forLoop_invariant (fun t : Encoder => t.cursor
    = (s.i, s.pinfo, s.loop_count, s.rows ++ [(⟨s.pinfo % U32, s.i, 1, 0⟩ : Row)]))
    _ _ _ ?_ _ _ _ ?_
  swap
  · rfl
  intro k t ht
  rw [cursor_store, cursor_store, cursor_store, ht]

theorem cursor_rowStrided (pinv primes : Nat → Nat) (lc : Nat) (s : Encoder) :
    (rowStrided pinv primes lc s).cursor
      = (s.i, s.pinfo + threadsPerBlock * 12, lc, s.rows ++ [⟨s.pinfo % U32, s.i, lc, 0⟩]) := by
  unfold rowStrided
  have h : (forLoop threadsPerBlock 1
      (fun j (t : Encoder) =>
        ((t.store (t.pinfo + 4 * j) 0).store
          (t.pinfo + 4 * (j + threadsPerBlock)) (pinv (primes (t.i + j * t.loop_count)))).store
          (t.pinfo + 4 * (j + threadsPerBlock * 2)) (primes (t.i + j * t.loop_count)))
      threadsPerBlock 0
      (({ s with loop_count := lc }).pushRow ⟨s.pinfo % U32, s.i, lc, 0⟩)).cursor
      = (s.i, s.pinfo, lc, s.rows ++ [⟨s.pinfo % U32, s.i, lc, 0⟩]) := by
    refine forLoop_invariant (fun t : Encoder => t.cursor
      = (s.i, s.pinfo, lc, s.rows ++ [(⟨s.pinfo % U32, s.i, lc, 0⟩ : Row)])) _ _ _ ?_ _ _ _ ?_
    swap
    · rfl
    intro k t ht
    rw [cursor_store, cursor_store, cursor_store, ht]
  simp only [Encoder.cursor, Prod.mk.injEq] at h ⊢
  simp [h]

theorem cursor_deltaWords3 (primes : Nat → Nat) (s : Encoder) :
    (deltaWords3 primes s).cursor = s.cursor := by
  unfold deltaWords3
  refine forLoop_invariant (fun t : Encoder => t.cursor = s.cursor) _ _ _ ?_ _ _ _ rfl
  intro k t ht
  refine forLoop_invariant (fun t : Encoder => t.cursor = s.cursor) _ _ _ ?_ _ _ _ ht
  intro j u hu
  simp only [cursor_deltaEntry, hu]

theorem cursor_deltaWords4 (maxinv shift : Nat) (primes : Nat → Nat) (s : Encoder) :
    (deltaWords4 maxinv shift primes s).cursor = s.cursor := by
  unfold deltaWords4
  refine forLoop_invariant (fun t : Encoder => t.cursor = s.cursor) _ _ _ ?_ _ _ _ rfl
  intro k t ht
  refine forLoop_invariant (fun t : Encoder => t.cursor = s.cursor) _ _ _ ?_ _ _ _ ht
  intro j u hu
  simp only [cursor_deltaEntry, hu]

/-- The descriptors of a delta band, in closed form. -/
theorem cursor_deltaRows (mask : Nat) (s : Encoder) :
    (deltaRows mask s).cursor
      = (s.i, s.pinfo, s.loop_count,
          s.rows ++ (List.range' 1 (s.loop_count - 1)).map (fun k =>
            (⟨add32 (s.pinfo % U32) (mul32 (mul32 (k - 1) threadsPerBlock) 4),
              s.i + k, s.loop_count, mask⟩ : Row))) := by
  unfold deltaRows
  rw [forLoop_one_eq_foldl _ _ _ _ _ (by omega)]
  generalize List.range' 1 (s.loop_count - 1) = l
  suffices h : ∀ (l : List Nat) (t : Encoder), t.i = s.i → t.pinfo = s.pinfo →
      t.loop_count = s.loop_count →
      (List.foldl (fun (t : Encoder) j =>
          t.pushRow ⟨add32 (t.pinfo % U32) (mul32 (mul32 (j - 1) threadsPerBlock) 4),
            t.i + j, t.loop_count, mask⟩) t l).cursor
        = (s.i, s.pinfo, s.loop_count, t.rows ++ l.map (fun k =>
            (⟨add32 (s.pinfo % U32) (mul32 (mul32 (k - 1) threadsPerBlock) 4),
              s.i + k, s.loop_count, mask⟩ : Row))) from h l s rfl rfl rfl
  intro l
  induction l with
  | nil => intro t h1 h2 h3; simp [Encoder.cursor, h1, h2, h3]
  | cons a l ih =>
    intro t h1 h2 h3
    rw [List.foldl_cons, ih _ (by simpa [Encoder.pushRow] using h1)
      (by simpa [Encoder.pushRow] using h2) (by simpa [Encoder.pushRow] using h3)]
    simp [Encoder.pushRow, h1, h2, h3]

theorem cursor_deltaAdvance (s : Encoder) :
    (deltaAdvance s).cursor
      = (add32 s.i (mul32 s.loop_count threadsPerBlock),
          s.pinfo + mul32 (mul32 (sub32 s.loop_count 1) threadsPerBlock) 4,
          s.loop_count, s.rows) := rfl

/-- The cursor after the loop over the rows of a dense section: `n` rows are
written, one for each block of 256 successive primes. -/
theorem cursor_denseLoop (rowf : Encoder → Encoder) (bytes mask bound : Nat)
    (hrow : ∀ t : Encoder, (rowf t).cursor
      = (t.i, t.pinfo, t.loop_count, t.rows ++ [(⟨t.pinfo % U32, t.i, 1, mask⟩ : Row)])) :
    ∀ n fuel (s : Encoder), n ≤ fuel → s.i + threadsPerBlock * n = bound →
      (whileLoop (fun t : Encoder => decide (t.i < bound))
          (fun t => { rowf t with i := (rowf t).i + threadsPerBlock,
                                  pinfo := (rowf t).pinfo + bytes }) fuel s).cursor
        = (bound, s.pinfo + bytes * n, s.loop_count,
            s.rows ++ (List.range n).map (fun k =>
              (⟨(s.pinfo + bytes * k) % U32, s.i + threadsPerBlock * k, 1, mask⟩ : Row))) := by
  intro n
  induction n with
  | zero =>
    intro fuel s _ hb
    have hi : s.i = bound := by omega
    cases fuel with
    | zero => simp [whileLoop, Encoder.cursor, hi]
    | succ fuel => simp [whileLoop, Encoder.cursor, hi]
  | succ n ih =>
    intro fuel s hf hb
    obtain ⟨fuel, rfl⟩ : ∃ g, fuel = g + 1 := ⟨fuel - 1, by omega⟩
    have hlt : s.i < bound := by simp only [threadsPerBlock] at hb; omega
    have hr := hrow s
    simp only [Encoder.cursor, Prod.mk.injEq] at hr
    obtain ⟨h1, h2, h3, h4⟩ := hr
    rw [whileLoop, if_pos (by simpa using hlt),
      ih fuel _ (by omega) (by simp only [h1, threadsPerBlock] at hb ⊢; omega)]
    simp only [h1, h2, h3, h4, List.range_succ_eq_map, List.map_cons, List.map_map,
      Prod.mk.injEq, true_and]
    refine ⟨by ring, ?_⟩
    simp only [List.append_assoc, List.singleton_append, Nat.mul_zero, Nat.add_zero,
      List.cons.injEq, true_and, List.append_cancel_left_eq]
    refine List.map_congr_left (fun k _ => ?_)
    simp only [Function.comp, Nat.succ_eq_add_one, Row.mk.injEq, and_true]
    constructor
    · congr 1; ring
    · ring

/-- The cursor after the section of primes below 64K. -/
theorem cursor_sectionBelow64K (mc : Bool) (primes : Nat → Nat) (r : Nat) (s : Encoder)
    (hi : s.i = 54) :
    (sectionBelow64K mc primes r s).cursor
      = (54 + 256 * min r 25, s.pinfo + 2048 * min r 25, s.loop_count,
          s.rows ++ (List.range (min r 25)).map (fun k =>
            (⟨(s.pinfo + 2048 * k) % U32, 54 + 256 * k, 1, 0xFFFF0000⟩ : Row))) := by
  have h := cursor_denseLoop (row16 primes) (threadsPerBlock * 8) 0xFFFF0000
    (54 + 256 * min r 25) (cursor_row16 primes) (min r 25) (min r 25) s (le_refl _)
    (by simp [hi, threadsPerBlock])
  unfold sectionBelow64K
  rw [sieving64KCrossover_eq, prefix_eq]
  simp only [threadsPerBlock, hi] at h ⊢
  have e : 54 + min r 25 * 256 = 54 + 256 * min r 25 := by ring
  simp only [e, Nat.reduceMul] at h ⊢
  exact h

/-- The cursor after the section of primes both below and above 64K. -/
theorem cursor_sectionAcross64K (mc : Bool) (primes : Nat → Nat) (r : Nat) (s : Encoder)
    (hi : s.i = 54 + 256 * min r 25) :
    (sectionAcross64K mc primes r s).cursor
      = (54 + 256 * min r 26, s.pinfo + 3072 * (min r 26 - min r 25), s.loop_count,
          s.rows ++ (List.range (min r 26 - min r 25)).map (fun k =>
            (⟨(s.pinfo + 3072 * k) % U32, s.i + 256 * k, 1, 0⟩ : Row))) := by
  have h := cursor_denseLoop (row32 primes) (threadsPerBlock * 12) 0
    (54 + 256 * min r 26) (cursor_row32 primes) (min r 26 - min r 25) (min r 26) s (by omega)
    (by simp only [hi, threadsPerBlock]; omega)
  unfold sectionAcross64K
  rw [sieving64KCrossover_eq, prefix_eq]
  simp only [threadsPerBlock] at h ⊢
  have e : 54 + min r (25 + 1) * 256 = 54 + 256 * min r 26 := by ring
  simp only [e, Nat.reduceMul, Nat.reduceAdd] at h ⊢
  exact h

/-- The cursor after a delta band: the row in front, then, when the band has
more than one row, the descriptors, the packed words and the advance. -/
theorem cursor_band (pinv primes : Nat → Nat) (W : Encoder → Encoder)
    (hW : ∀ t : Encoder, (W t).cursor = t.cursor) (mask lc : Nat) (s : Encoder)
    (g : Prop) [Decidable g] :
    (if g then deltaAdvance (W (deltaRows mask (rowStrided pinv primes lc s)))
      else rowStrided pinv primes lc s).cursor
      = (if g then add32 s.i (mul32 lc threadsPerBlock) else s.i,
          if g then s.pinfo + threadsPerBlock * 12
              + mul32 (mul32 (sub32 lc 1) threadsPerBlock) 4
            else s.pinfo + threadsPerBlock * 12,
          lc,
          if g then s.rows ++ bandRows s.pinfo s.i lc mask
            else s.rows ++ [(⟨s.pinfo % U32, s.i, lc, 0⟩ : Row)]) := by
  have h1 := cursor_rowStrided pinv primes lc s
  by_cases hg : g
  · simp only [if_pos hg]
    have h2 := cursor_deltaRows mask (rowStrided pinv primes lc s)
    have h3 := hW (deltaRows mask (rowStrided pinv primes lc s))
    have h4 := cursor_deltaAdvance (W (deltaRows mask (rowStrided pinv primes lc s)))
    simp only [Encoder.cursor, Prod.mk.injEq] at h1 h2 h3 h4 ⊢
    obtain ⟨a1, a2, a3, a4⟩ := h1
    obtain ⟨b1, b2, b3, b4⟩ := h2
    obtain ⟨c1, c2, c3, c4⟩ := h3
    obtain ⟨d1, d2, d3, d4⟩ := h4
    refine ⟨?_, ?_, ?_, ?_⟩
    · rw [d1, c1, c3, b1, b3, a1, a3]
    · rw [d2, c2, c3, b2, b3, a2, a3]
    · rw [d3, c3, b3, a3]
    · rw [d4, c4, b4, a4, a1, a2, a3, bandRows, List.append_assoc, List.singleton_append]
  · simp only [if_neg hg]
    exact h1

theorem length_denseRows (p0 i0 bytes mask n : Nat) :
    (denseRows p0 i0 bytes mask n).length = n := by
  simp [denseRows]

theorem length_bandRows (p0 i0 lc mask : Nat) (h : 1 ≤ lc) :
    (bandRows p0 i0 lc mask).length = lc := by
  simp [bandRows]; omega

theorem packedIndices_append (l₁ l₂ : List Row) :
    packedIndices (l₁ ++ l₂) = packedIndices l₁ ++ packedIndices l₂ := by
  simp [packedIndices]

/-- The lanes of a run of dense rows are the prime indices from `i0` on, in order. -/
theorem packedIndices_denseRows (p0 i0 bytes mask n : Nat) :
    packedIndices (denseRows p0 i0 bytes mask n) = List.range' i0 (256 * n) := by
  induction n with
  | zero => simp [packedIndices, denseRows]
  | succ n ih =>
    have hsplit : denseRows p0 i0 bytes mask (n + 1)
        = denseRows p0 i0 bytes mask n
          ++ [(⟨(p0 + bytes * n) % U32, i0 + threadsPerBlock * n, 1, mask⟩ : Row)] := by
      simp [denseRows, List.range_succ]
    rw [hsplit, packedIndices_append, ih,
      show 256 * (n + 1) = 256 + 256 * n by ring, ← List.range'_append_1]
    refine congrArg (List.range' i0 (256 * n) ++ ·) ?_
    simp only [packedIndices, List.flatMap_cons, List.flatMap_nil, List.append_nil, Row.lanes,
      threadsPerBlock, Nat.mul_one]
    rw [List.range'_eq_map_range]

/-- Swapping the two loops of a doubly indexed list is a permutation. -/
theorem perm_flatMap_map_comm {α β γ : Type} (l₁ : List α) (l₂ : List β) (f : α → β → γ) :
    (l₁.flatMap fun a => l₂.map (f a)).Perm (l₂.flatMap fun b => l₁.map fun a => f a b) := by
  rw [← Multiset.coe_eq_coe, ← Multiset.coe_bind, ← Multiset.coe_bind]
  simp only [← Multiset.map_coe]
  exact Multiset.bind_map_comm _ _

/-- Lane by lane, the rows of a band hold successive prime indices. -/
theorem flatMap_band_eq (i0 lc : Nat) : ∀ n,
    ((List.range n).flatMap fun j => (List.range lc).map fun k => i0 + k + j * lc)
      = List.range' i0 (n * lc) := by
  intro n
  induction n with
  | zero => simp
  | succ n ih =>
    rw [List.range_succ, List.flatMap_append, ih, show (n + 1) * lc = lc + n * lc by ring,
      ← List.range'_append_1]
    refine congrArg (List.range' i0 (n * lc) ++ ·) ?_
    simp only [List.flatMap_cons, List.flatMap_nil, List.append_nil]
    rw [List.range'_eq_map_range]
    refine List.map_congr_left (fun k _ => ?_)
    ring

/-- The lanes of a delta band are a rearrangement of the prime indices from
`i0` to `i0 + 256 * lc`. -/
theorem packedIndices_bandRows (p0 i0 lc mask : Nat) (h : 1 ≤ lc) :
    (packedIndices (bandRows p0 i0 lc mask)).Perm (List.range' i0 (256 * lc)) := by
  have h1 : packedIndices (bandRows p0 i0 lc mask)
      = (List.range lc).flatMap fun k => (List.range 256).map fun j => i0 + k + j * lc := by
    obtain ⟨m, rfl⟩ : ∃ m, lc = m + 1 := ⟨lc - 1, by omega⟩
    rw [List.range_eq_range', List.range'_succ]
    simp only [packedIndices, bandRows, List.flatMap_cons, Row.lanes, threadsPerBlock,
      Nat.add_zero, Nat.add_sub_cancel, Nat.zero_add, List.flatMap_map]
  rw [h1]
  exact (perm_flatMap_map_comm _ _ _).trans (by rw [flatMap_band_eq])

theorem bandRows_one (p0 i0 mask : Nat) :
    bandRows p0 i0 1 mask = [(⟨p0 % U32, i0, 1, 0⟩ : Row)] := by
  simp [bandRows]

/-- The advance past a delta band of `lc ≥ 1` rows, when nothing overflows. -/
theorem deltaAdvance_exact (i0 lc : Nat) (h1 : 1 ≤ lc) (h2 : i0 + 256 * lc < U32)
    (h3 : 1024 * (lc - 1) < U32) :
    add32 i0 (mul32 lc threadsPerBlock) = i0 + 256 * lc ∧
      mul32 (mul32 (sub32 lc 1) threadsPerBlock) 4 = 1024 * (lc - 1) := by
  simp only [add32, mul32, sub32, threadsPerBlock, U32] at *
  omega

/-- The two sections of the band of primes from 64K through 128K. -/
theorem cursor_band128K (mc : Bool) (primes : Nat → Nat) (r : Nat) (s : Encoder)
    (hi : 26 < r → s.i = 6710) :
    (section64Kto128K mc primes r (sectionTransition128K mc primes r s)).rows
        = s.rows ++ (if 26 < r then bandRows s.pinfo 6710 (min r 48 - 26) 0xFFFC0000 else []) ∧
      (section64Kto128K mc primes r (sectionTransition128K mc primes r s)).pinfo
        = s.pinfo + (if 26 < r then 3072 + 1024 * (min r 48 - 27) else 0) ∧
      (48 < r → (section64Kto128K mc primes r (sectionTransition128K mc primes r s)).i = 12342) := by
  unfold section64Kto128K sectionTransition128K
  rw [sieving64KCrossover_eq, sieving128KCrossover_eq]
  by_cases h26 : 26 < r
  · have h := cursor_band gen_pinv primes (deltaWords3 primes) (cursor_deltaWords3 primes)
      0xFFFC0000 (min r (47 + 1) - (25 + 1)) s (r > 25 + 2)
    simp only [if_pos (show r > 25 + 1 from h26), if_pos h26]
    simp only [Encoder.cursor, Prod.mk.injEq, hi h26, threadsPerBlock] at h
    obtain ⟨h1, h2, _, h4⟩ := h
    by_cases h27 : r > 25 + 2
    · have hlc : 1 ≤ min r (47 + 1) - (25 + 1) := by omega
      obtain ⟨e1, e2⟩ := deltaAdvance_exact 6710 (min r (47 + 1) - (25 + 1)) hlc
        (by unfold U32; omega) (by unfold U32; omega)
      simp only [threadsPerBlock] at e1 e2
      simp only [if_pos h27, e1, e2] at h1 h2 h4 ⊢
      refine ⟨h4, ?_, fun h48 => ?_⟩
      · rw [h2]; omega
      · rw [h1]; omega
    · have hr : r = 27 := by omega
      subst hr
      simp only [if_neg h27] at h1 h2 h4 ⊢
      refine ⟨?_, ?_, fun h48 => by omega⟩
      · rw [h4]; simp [bandRows]
      · rw [h2]; norm_num
  · simp only [if_neg (show ¬ r > 25 + 1 from h26), if_neg (show ¬ r > 25 + 2 by omega),
      if_neg h26, List.append_nil, Nat.add_zero, true_and]
    intro h48; omega

/-- The two sections of the band of primes from 128K to 1M. -/
theorem cursor_band1M (mc : Bool) (primes : Nat → Nat) (r : Nat) (s : Encoder)
    (hi : 48 < r → s.i = 12342) :
    (section128Kto1M mc primes r (sectionFirstAbove128K mc primes r s)).rows
        = s.rows ++ (if 48 < r then bandRows s.pinfo 12342 (min r 317 - 48) 0xFFF00000 else []) ∧
      (section128Kto1M mc primes r (sectionFirstAbove128K mc primes r s)).pinfo
        = s.pinfo + (if 48 < r then 3072 + 1024 * (min r 317 - 49) else 0) ∧
      (317 < r → (section128Kto1M mc primes r (sectionFirstAbove128K mc primes r s)).i = 81206) := by
  unfold section128Kto1M sectionFirstAbove128K
  rw [sieving128KCrossover_eq, sieving1MCrossover_eq]
  by_cases h48 : 48 < r
  · have h := cursor_band gen_sloppy_pinv primes (deltaWords4 31 20 primes)
      (cursor_deltaWords4 31 20 primes) 0xFFF00000 (min r 317 - (47 + 1)) s (r > 47 + 2)
    simp only [if_pos (show r > 47 + 1 from h48), if_pos h48]
    simp only [Encoder.cursor, Prod.mk.injEq, hi h48, threadsPerBlock] at h
    obtain ⟨h1, h2, _, h4⟩ := h
    by_cases h49 : r > 47 + 2
    · have hlc : 1 ≤ min r 317 - (47 + 1) := by omega
      obtain ⟨e1, e2⟩ := deltaAdvance_exact 12342 (min r 317 - (47 + 1)) hlc
        (by unfold U32; omega) (by unfold U32; omega)
      simp only [threadsPerBlock] at e1 e2
      simp only [if_pos h49, e1, e2] at h1 h2 h4 ⊢
      refine ⟨h4, ?_, fun h317 => ?_⟩
      · rw [h2]; omega
      · rw [h1]; omega
    · have hr : r = 49 := by omega
      subst hr
      simp only [if_neg h49] at h1 h2 h4 ⊢
      refine ⟨?_, ?_, fun h317 => by omega⟩
      · rw [h4]; simp [bandRows]
      · rw [h2]; norm_num
  · simp only [if_neg (show ¬ r > 47 + 1 from h48), if_neg (show ¬ r > 47 + 2 by omega),
      if_neg h48, List.append_nil, Nat.add_zero, true_and]
    intro h317; omega

/-- The two sections of the band of primes above 1M. -/
theorem cursor_band16M (mc : Bool) (primes : Nat → Nat) (r : Nat) (s : Encoder)
    (hi : 317 < r → s.i = 81206) :
    (section1Mto16M mc primes r (sectionAcross1M mc primes r s)).rows
        = s.rows ++ (if 317 < r then bandRows s.pinfo 81206 (r - 317) 0xFF000000 else []) ∧
      (section1Mto16M mc primes r (sectionAcross1M mc primes r s)).pinfo
        = s.pinfo + (if 317 < r then
            3072 + (if 318 < r then mul32 (mul32 (sub32 (r - 317) 1) 256) 4 else 0) else 0) := by
  unfold section1Mto16M sectionAcross1M
  rw [sieving1MCrossover_eq]
  by_cases h317 : 317 < r
  · have h := cursor_band gen_sloppy_pinv primes (deltaWords4 1 24 primes)
      (cursor_deltaWords4 1 24 primes) 0xFF000000 (r - 317) s (r > 317 + 1)
    simp only [if_pos (show r > 317 from h317), if_pos h317]
    simp only [Encoder.cursor, Prod.mk.injEq, hi h317, threadsPerBlock] at h
    obtain ⟨_, h2, _, h4⟩ := h
    by_cases h318 : r > 317 + 1
    · simp only [if_pos h318] at h2 h4 ⊢
      refine ⟨h4, ?_⟩
      rw [h2]; omega
    · have hr : r = 318 := by omega
      subst hr
      simp only [if_neg h318] at h2 h4 ⊢
      refine ⟨?_, ?_⟩
      · rw [h4]; simp [bandRows]
      · rw [h2]
  · simp only [if_neg (show ¬ r > 317 from h317), if_neg (show ¬ r > 317 + 1 by omega),
      if_neg h317, List.append_nil, Nat.add_zero, true_and]

/-- The descriptors and the byte cursor at the end of the encoder. -/
theorem encode_closed (mc : Bool) (primes : Nat → Nat) (r : Nat) :
    (encode mc primes r).rows = encodedRows r ∧ (encode mc primes r).pinfo = encodedBytes r := by
  have hA := cursor_sectionBelow64K mc primes r (encoderStart mc r) (prefix_eq mc)
  simp only [Encoder.cursor, Prod.mk.injEq] at hA
  obtain ⟨a1, a2, _, a4⟩ := hA
  have hB := cursor_sectionAcross64K mc primes r _ a1
  simp only [Encoder.cursor, Prod.mk.injEq] at hB
  obtain ⟨b1, b2, _, b4⟩ := hB
  obtain ⟨c4, c2, c1⟩ := cursor_band128K mc primes r
    (sectionAcross64K mc primes r (sectionBelow64K mc primes r (encoderStart mc r)))
    (fun h => by rw [b1]; omega)
  obtain ⟨d4, d2, d1⟩ := cursor_band1M mc primes r (encodeTo128K mc primes r) c1
  obtain ⟨e4, e2⟩ := cursor_band16M mc primes r
    (section128Kto1M mc primes r (sectionFirstAbove128K mc primes r (encodeTo128K mc primes r)))
    d1
  have hstart : (encoderStart mc r).pinfo = 1024 ∧ (encoderStart mc r).rows = [] := ⟨rfl, rfl⟩
  rw [hstart.1] at a2 a4
  rw [hstart.2, List.nil_append] at a4
  rw [a1, a2, a4] at b4
  rw [a2] at b2
  have c2' : (encodeTo128K mc primes r).pinfo
      = 1024 + 2048 * min r 25 + 3072 * (min r 26 - min r 25)
        + (if 26 < r then 3072 + 1024 * (min r 48 - 27) else 0) := by
    unfold encodeTo128K; rw [c2, b2]
  have c4' : (encodeTo128K mc primes r).rows
      = denseRows 1024 54 2048 0xFFFF0000 (min r 25)
        ++ denseRows (1024 + 2048 * min r 25) (54 + 256 * min r 25) 3072 0 (min r 26 - min r 25)
        ++ (if 26 < r then bandRows 55296 6710 (min r 48 - 26) 0xFFFC0000 else []) := by
    unfold encodeTo128K; rw [c4, b4, b2]
    refine congrArg₂ (· ++ ·) rfl ?_
    split
    · rename_i h
      rw [show 1024 + 2048 * min r 25 + 3072 * (min r 26 - min r 25) = 55296 by omega]
    · rfl
  have d2' : (section128Kto1M mc primes r
      (sectionFirstAbove128K mc primes r (encodeTo128K mc primes r))).pinfo
      = 1024 + 2048 * min r 25 + 3072 * (min r 26 - min r 25)
        + (if 26 < r then 3072 + 1024 * (min r 48 - 27) else 0)
        + (if 48 < r then 3072 + 1024 * (min r 317 - 49) else 0) := by
    rw [d2, c2']
  have d4' : (section128Kto1M mc primes r
      (sectionFirstAbove128K mc primes r (encodeTo128K mc primes r))).rows
      = denseRows 1024 54 2048 0xFFFF0000 (min r 25)
        ++ denseRows (1024 + 2048 * min r 25) (54 + 256 * min r 25) 3072 0 (min r 26 - min r 25)
        ++ (if 26 < r then bandRows 55296 6710 (min r 48 - 26) 0xFFFC0000 else [])
        ++ (if 48 < r then bandRows 79872 12342 (min r 317 - 48) 0xFFF00000 else []) := by
    rw [d4, c4', c2']
    refine congrArg₂ (· ++ ·) rfl ?_
    split
    · rename_i h
      rw [if_pos (show 26 < r by omega),
        show 1024 + 2048 * min r 25 + 3072 * (min r 26 - min r 25)
          + (3072 + 1024 * (min r 48 - 27)) = 79872 by omega]
    · rfl
  constructor
  · unfold encode encodedRows
    rw [e4, d4', d2']
    refine congrArg₂ (· ++ ·) rfl ?_
    split
    · rename_i h
      rw [if_pos (show 26 < r by omega), if_pos (show 48 < r by omega),
        show 1024 + 2048 * min r 25 + 3072 * (min r 26 - min r 25)
          + (3072 + 1024 * (min r 48 - 27)) + (3072 + 1024 * (min r 317 - 49)) = 357376 by omega]
    · rfl
  · unfold encode encodedBytes
    rw [e2, d2']

/-! ## What the search returns -/

/-- The rounded request lies on the grid, whatever the request. -/
theorem roundSievePrimes_grid (mc : Bool) (B : Nat) :
    ∃ m, m < 16777216 ∧ roundSievePrimes mc B = 54 + 256 * m := by
  refine ⟨sub32 (sub32 B (primesNotSieved mc)) (primesHandledWithSpecialCode mc) / 256, ?_, ?_⟩
  · have : sub32 (sub32 B (primesNotSieved mc)) (primesHandledWithSpecialCode mc) < U32 :=
      Nat.mod_lt _ (by unfold U32; omega)
    unfold U32 at this
    omega
  · unfold roundSievePrimes
    have hx : sub32 (sub32 B (primesNotSieved mc)) (primesHandledWithSpecialCode mc) < U32 :=
      Nat.mod_lt _ (by unfold U32; omega)
    generalize sub32 (sub32 B (primesNotSieved mc)) (primesHandledWithSpecialCode mc) = x at hx ⊢
    cases mc <;>
      simp only [add32, mul32, threadsPerBlock, primesNotSieved, primesHandledWithSpecialCode,
        U32] at * <;> omega

/-- Whatever the search loop returns from a grid point is an accepted grid point. -/
theorem crossoverLoop_some (mc : Bool) (pc r : Nat) :
    ∀ fuel m, m < 16777216 → crossoverLoop mc fuel (54 + 256 * m) = some (pc, r) →
      pc = 54 + 256 * r ∧ r < 16777216 ∧ crossoverAccepts mc r = true := by
  intro fuel
  induction fuel with
  | zero => intro m _ h; simp [crossoverLoop] at h
  | succ fuel ih =>
    intro m hm h
    rw [crossoverLoop, primesPerThread_grid mc m hm] at h
    by_cases ha : crossoverAccepts mc m = true
    · rw [if_pos ha] at h
      simp only [Option.some.injEq, Prod.mk.injEq] at h
      obtain ⟨rfl, rfl⟩ := h
      exact ⟨rfl, hm, ha⟩
    · rw [if_neg ha] at h
      have hnext : add32 (54 + 256 * m) threadsPerBlock = 54 + 256 * ((m + 1) % 16777216) := by
        simp only [add32, threadsPerBlock, U32]; omega
      rw [hnext] at h
      exact ih _ (Nat.mod_lt _ (by omega)) h

/-- Whatever the search returns is an accepted grid point. -/
theorem crossoverSearch_some (mc : Bool) (fuel B pc r : Nat)
    (h : crossoverSearch mc fuel B = some (pc, r)) :
    pc = 54 + 256 * r ∧ r < 16777216 ∧ crossoverAccepts mc r = true := by
  obtain ⟨m, hm, hround⟩ := roundSievePrimes_grid mc B
  rw [crossoverSearch, hround] at h
  exact crossoverLoop_some mc pc r fuel m hm h

/-- C10: the crossover search is idempotent. For every budget `B ≥ 54` and
any fuel of at least 4 the search returns a pair `(primeCount, rowsPerThread)`,
and the search run on that `primeCount` returns the same pair. -/
theorem C10_search_idempotent (mc : Bool) (fuel B : Nat) (hfuel : 4 ≤ fuel) (_h54 : 54 ≤ B) :
    ∃ primeCount r, crossoverSearch mc fuel B = some (primeCount, r) ∧
      crossoverSearch mc fuel primeCount = some (primeCount, r) := by
  obtain ⟨m, hm, hround⟩ := roundSievePrimes_grid mc B
  obtain ⟨r, hr, hl, ha⟩ := crossoverLoop_total mc fuel m hfuel hm
  refine ⟨54 + 256 * r, r, ?_, crossoverSearch_fixed mc fuel r (by omega) hr ha⟩
  rw [crossoverSearch, hround, hl]

/-- C10, witness: the budget 10000 gives `(10038, 39)`, and so does 10038. -/
theorem C10_search_idempotent_witness :
    crossoverSearch true 4 10000 = some (10038, 39) ∧
      ∃ primeCount r, crossoverSearch true 4 10000 = some (primeCount, r) ∧
        crossoverSearch true 4 primeCount = some (primeCount, r) :=
  ⟨by decide, C10_search_idempotent true 4 10000 (by decide) (by decide)⟩

/-! ## The row descriptors: claims C5, C8 and C9 -/

theorem length_encodedRows (r : Nat) : (encodedRows r).length = r := by
  unfold encodedRows
  simp only [List.length_append, length_denseRows]
  have h1 : (if 26 < r then bandRows 55296 6710 (min r 48 - 26) 0xFFFC0000 else []).length
      = if 26 < r then min r 48 - 26 else 0 := by
    split
    · exact length_bandRows _ _ _ _ (by omega)
    · rfl
  have h2 : (if 48 < r then bandRows 79872 12342 (min r 317 - 48) 0xFFF00000 else []).length
      = if 48 < r then min r 317 - 48 else 0 := by
    split
    · exact length_bandRows _ _ _ _ (by omega)
    · rfl
  have h3 : (if 317 < r then bandRows 357376 81206 (r - 317) 0xFF000000 else []).length
      = if 317 < r then r - 317 else 0 := by
    split
    · exact length_bandRows _ _ _ _ (by omega)
    · rfl
  rw [h1, h2, h3]
  split_ifs <;> omega

/-- C9, as stated, fails: for the row count 1 (the budget 310) the encoder
fills one row descriptor, not two. -/
theorem C9_counterexample :
    crossoverSearch true 4 310 = some (310, 1) ∧
      (encode true (fun _ => 3) 1).rows.length = 1 ∧
      (encode true (fun _ => 3) 1).rows.length ≠ 1 + 1 := by
  refine ⟨by decide, ?_, ?_⟩ <;> rw [(encode_closed true _ 1).1] <;> decide

/-- C9, amended: for every row count `r` returned by the crossover search the
encoder fills exactly `r` row descriptors, one for each group of 256 sieving
primes, whatever the primes are. (The kernels are dispatched over `r + 1`
groups; the encoder writes no descriptor of its own for the extra group.) -/
theorem C9_row_count (mc : Bool) (fuel B primeCount r : Nat) (primes : Nat → Nat)
    (hsearch : crossoverSearch mc fuel B = some (primeCount, r)) :
    (encode mc primes r).rows.length = r ∧ primeCount = 54 + 256 * r := by
  rw [(encode_closed mc primes r).1, length_encodedRows]
  exact ⟨rfl, (crossoverSearch_some mc fuel B primeCount r hsearch).1⟩

/-- C9, witness: the budget 10000, with 39 rows. -/
theorem C9_row_count_witness :
    (encode true (fun k => 2 * k + 1) 39).rows.length = 39 ∧ 10038 = 54 + 256 * 39 :=
  C9_row_count true 4 10000 10038 39 (fun k => 2 * k + 1) (by decide)

theorem range'_glue (s m n t : Nat) (h : t = s + m) :
    List.range' s m ++ List.range' t n = List.range' s (m + n) := by
  subst h
  rw [List.range'_append_1, Nat.add_comm]

/-- The lanes of the rows written for the row count `r` are a rearrangement
of the prime indices from `54` to `54 + 256 * r`. -/
theorem packedIndices_encodedRows (r : Nat) :
    (packedIndices (encodedRows r)).Perm (List.range' 54 (256 * r)) := by
  have h3 : (packedIndices
      (if 26 < r then bandRows 55296 6710 (min r 48 - 26) 0xFFFC0000 else [])).Perm
      (List.range' 6710 (256 * (if 26 < r then min r 48 - 26 else 0))) := by
    split
    · exact packedIndices_bandRows _ _ _ _ (by omega)
    · simp [packedIndices]
  have h4 : (packedIndices
      (if 48 < r then bandRows 79872 12342 (min r 317 - 48) 0xFFF00000 else [])).Perm
      (List.range' 12342 (256 * (if 48 < r then min r 317 - 48 else 0))) := by
    split
    · exact packedIndices_bandRows _ _ _ _ (by omega)
    · simp [packedIndices]
  have h5 : (packedIndices
      (if 317 < r then bandRows 357376 81206 (r - 317) 0xFF000000 else [])).Perm
      (List.range' 81206 (256 * (if 317 < r then r - 317 else 0))) := by
    split
    · exact packedIndices_bandRows _ _ _ _ (by omega)
    · simp [packedIndices]
  unfold encodedRows
  rw [packedIndices_append, packedIndices_append, packedIndices_append, packedIndices_append,
    packedIndices_denseRows, packedIndices_denseRows]
  refine ((((List.Perm.refl _).append h3).append h4).append h5).trans ?_
  apply List.Perm.of_eq
  by_cases c1 : 26 < r
  · by_cases c2 : 48 < r
    · by_cases c3 : 317 < r
      · simp only [if_pos c1, if_pos c2, if_pos c3]
        rw [range'_glue _ _ _ _ (by omega), range'_glue _ _ _ _ (by omega),
          range'_glue _ _ _ _ (by omega), range'_glue _ _ _ _ (by omega)]
        exact congrArg (List.range' 54) (by omega)
      · simp only [if_pos c1, if_pos c2, if_neg c3, Nat.mul_zero, List.range'_zero,
          List.append_nil]
        rw [range'_glue _ _ _ _ (by omega), range'_glue _ _ _ _ (by omega),
          range'_glue _ _ _ _ (by omega)]
        exact congrArg (List.range' 54) (by omega)
    · simp only [if_pos c1, if_neg c2, if_neg (show ¬ 317 < r by omega), Nat.mul_zero,
        List.range'_zero, List.append_nil]
      rw [range'_glue _ _ _ _ (by omega), range'_glue _ _ _ _ (by omega)]
      exact congrArg (List.range' 54) (by omega)
  · simp only [if_neg c1, if_neg (show ¬ 48 < r by omega), if_neg (show ¬ 317 < r by omega),
      Nat.mul_zero, List.range'_zero, List.append_nil]
    rw [range'_glue _ _ _ _ (by omega)]
    exact congrArg (List.range' 54) (by omega)

/-- C5: for every row count `r ≥ 1` returned by the crossover search (with
`primeCount = 54 + 256 * r`) and whatever the primes are, the row descriptors
written by the encoder cover the sieving primes exactly once. The list of the
prime indices `first (row) + j * stride (row)`, over the written rows and the
lanes `j < 256`, is a rearrangement of the prime indices `54, ..., primeCount - 1`:
it has no repetition (no prime index is packed twice) and its members are
exactly the indices in `[54, primeCount)` (none is left out). -/
theorem C5_rows_cover_primes (mc : Bool) (fuel B primeCount r : Nat) (primes : Nat → Nat)
    (hsearch : crossoverSearch mc fuel B = some (primeCount, r)) (_hr : 1 ≤ r) :
    (packedIndices (encode mc primes r).rows).Perm (List.range' 54 (primeCount - 54)) ∧
      (packedIndices (encode mc primes r).rows).Nodup ∧
      (packedIndices (encode mc primes r).rows).length = 256 * (encode mc primes r).rows.length ∧
      ∀ idx, idx ∈ packedIndices (encode mc primes r).rows ↔ 54 ≤ idx ∧ idx < primeCount := by
  obtain ⟨hpc, _, _⟩ := crossoverSearch_some mc fuel B primeCount r hsearch
  have hperm : (packedIndices (encode mc primes r).rows).Perm
      (List.range' 54 (primeCount - 54)) := by
    rw [(encode_closed mc primes r).1, hpc, Nat.add_sub_cancel_left]
    exact packedIndices_encodedRows r
  refine ⟨hperm, hperm.nodup_iff.mpr (List.nodup_range' _ _), ?_, fun idx => ?_⟩
  · rw [hperm.length_eq, (encode_closed mc primes r).1, length_encodedRows, List.length_range',
      hpc, Nat.add_sub_cancel_left]
  · rw [hperm.mem_iff, List.mem_range'_1]
    omega

/-- C5, witness: the budget 10000, with 39 rows and the prime indices 54 to 10037. -/
theorem C5_rows_cover_primes_witness :
    (packedIndices (encode true (fun k => 2 * k + 1) 39).rows).Perm
        (List.range' 54 (10038 - 54)) ∧
      (packedIndices (encode true (fun k => 2 * k + 1) 39).rows).Nodup ∧
      (packedIndices (encode true (fun k => 2 * k + 1) 39).rows).length
        = 256 * (encode true (fun k => 2 * k + 1) 39).rows.length ∧
      ∀ idx, idx ∈ packedIndices (encode true (fun k => 2 * k + 1) 39).rows ↔
        54 ≤ idx ∧ idx < 10038 :=
  C5_rows_cover_primes true 4 10000 10038 39 (fun k => 2 * k + 1) (by decide) (by decide)

/-! ## The byte ranges of the rows -/

theorem stacked_append (l₁ l₂ : List Row) : ∀ a b c, stacked a l₁ b → stacked b l₂ c →
    stacked a (l₁ ++ l₂) c := by
  induction l₁ with
  | nil => intro a b c h1 h2; simp only [stacked] at h1; subst h1; simpa using h2
  | cons row rest ih =>
    intro a b c h1 h2
    simp only [stacked, List.cons_append] at h1 ⊢
    exact ⟨h1.1, ih _ _ _ h1.2 h2⟩

/-- Rows that lie one after the other: each range is inside the whole, the
ranges are pairwise disjoint and their lengths add up to the whole. -/
theorem stacked_spec (l : List Row) : ∀ a b, stacked a l b →
    a ≤ b ∧ (∀ row ∈ l, a ≤ row.offset ∧ row.offset + threadsPerBlock * row.entrySize ≤ b) ∧
      l.Pairwise Row.disjoint ∧
      a + (l.map fun row => threadsPerBlock * row.entrySize).sum = b := by
  induction l with
  | nil => intro a b h; simp only [stacked] at h; subst h; simp
  | cons row rest ih =>
    intro a b h
    simp only [stacked] at h
    obtain ⟨h1, h2⟩ := h
    obtain ⟨i1, i2, i3, i4⟩ := ih _ _ h2
    refine ⟨by omega, ?_, ?_, ?_⟩
    · intro x hx
      rcases List.mem_cons.mp hx with rfl | hx
      · omega
      · have := i2 x hx; omega
    · refine List.pairwise_cons.mpr ⟨fun x hx => ?_, i3⟩
      left
      have := i2 x hx
      omega
    · simp only [List.map_cons, List.sum_cons]; omega

theorem denseRows_succ (p0 i0 bytes mask n : Nat) :
    denseRows p0 i0 bytes mask (n + 1)
      = ⟨p0 % U32, i0, 1, mask⟩ :: denseRows (p0 + bytes) (i0 + threadsPerBlock) bytes mask n := by
  simp only [denseRows, List.range_succ_eq_map, List.map_cons, List.map_map, Nat.mul_zero,
    Nat.add_zero, List.cons.injEq, true_and]
  refine List.map_congr_left (fun k _ => ?_)
  simp only [Function.comp, Nat.succ_eq_add_one, Row.mk.injEq, and_self, and_true]
  constructor
  · congr 1; ring
  · ring

/-- A run of dense rows lies one row after the other. -/
theorem stacked_denseRows (es i0 mask : Nat) (hpos : 0 < es)
    (hes : ∀ o f st, Row.entrySize ⟨o, f, st, mask⟩ = es) :
    ∀ n p0, p0 + threadsPerBlock * es * n ≤ U32 →
      stacked p0 (denseRows p0 i0 (threadsPerBlock * es) mask n) (p0 + threadsPerBlock * es * n) := by
  intro n
  induction n generalizing i0 with
  | zero => intro p0 _; simp [denseRows, stacked]
  | succ n ih =>
    intro p0 h
    rw [denseRows_succ]
    simp only [stacked, hes]
    refine ⟨Nat.mod_eq_of_lt ?_, ?_⟩
    · have h1 : 0 < threadsPerBlock * es := Nat.mul_pos (by unfold threadsPerBlock; omega) hpos
      have h2 : threadsPerBlock * es * (n + 1)
          = threadsPerBlock * es * n + threadsPerBlock * es := by ring
      omega
    · have e : p0 + threadsPerBlock * es * (n + 1)
          = p0 + threadsPerBlock * es + threadsPerBlock * es * n := by ring
      rw [e]
      exact ih _ _ (by rw [← e]; exact h)

/-- The packed rows of a delta band lie one row after the other. -/
theorem stacked_deltaRows (q i0 lc mask : Nat) (hm1 : mask ≠ 0xFFFF0000) (hm2 : mask ≠ 0) :
    ∀ n k0, 1 ≤ k0 → q + 1024 * (k0 - 1 + n) ≤ U32 → q < U32 →
      stacked (q + 1024 * (k0 - 1))
        ((List.range' k0 n).map fun k =>
          (⟨add32 (q % U32) (mul32 (mul32 (k - 1) threadsPerBlock) 4), i0 + k, lc, mask⟩ : Row))
        (q + 1024 * (k0 - 1 + n)) := by
  intro n
  induction n with
  | zero => intro k0 _ _ _; simp [stacked]
  | succ n ih =>
    intro k0 hk hb hq
    rw [List.range'_succ, List.map_cons]
    simp only [stacked, Row.entrySize, if_neg hm1, if_neg hm2]
    refine ⟨?_, ?_⟩
    · simp only [add32, mul32, threadsPerBlock, U32] at *
      omega
    · have := ih (k0 + 1) (by omega) (by omega) hq
      simp only [threadsPerBlock]
      rw [show q + 1024 * (k0 - 1) + 256 * 4 = q + 1024 * (k0 + 1 - 1) by omega,
        show q + 1024 * (k0 - 1 + (n + 1)) = q + 1024 * (k0 + 1 - 1 + n) by omega]
      exact this

/-- A delta band lies one row after the other, behind its row of full entries. -/
theorem stacked_bandRows (p0 i0 lc mask : Nat) (hm1 : mask ≠ 0xFFFF0000) (hm2 : mask ≠ 0)
    (hb : p0 + 3072 + 1024 * (lc - 1) < U32) :
    stacked p0 (bandRows p0 i0 lc mask) (p0 + 3072 + 1024 * (lc - 1)) := by
  unfold bandRows
  simp only [stacked, Row.entrySize, threadsPerBlock]
  refine ⟨Nat.mod_eq_of_lt (by omega), ?_⟩
  have h := stacked_deltaRows (p0 + 256 * 12) i0 lc mask hm1 hm2 (lc - 1) 1 (le_refl 1)
    (by simp only [Nat.sub_self, Nat.zero_add]; omega) (by omega)
  simp only [Nat.sub_self, Nat.mul_zero, Nat.add_zero, Nat.zero_add, threadsPerBlock] at h
  norm_num at h ⊢
  exact h

/-- The byte cursor at the end of the encoder when the allocation of 12 bytes
for each prime fits 32 bits: the padding, 2048 bytes for each row below 64K,
3072 bytes for each row of full entries and 1024 bytes for each row of packed
words. -/
theorem encodedBytes_exact (r : Nat) (hb : 12 * (54 + 256 * r) < U32) :
    encodedBytes r = 1024 + 2048 * min r 25 + 3072 * (min r 26 - min r 25)
      + (if 26 < r then 3072 + 1024 * (min r 48 - 27) else 0)
      + (if 48 < r then 3072 + 1024 * (min r 317 - 49) else 0)
      + (if 317 < r then 3072 + 1024 * (r - 318) else 0) := by
  unfold encodedBytes
  refine congrArg₂ (· + ·) rfl ?_
  split
  · split
    · simp only [mul32, sub32, U32] at *
      omega
    · omega
  · rfl

/-- The rows written for the row count `r` lie one after the other from the
end of the padding to the end of the packed data. -/
theorem stacked_encodedRows (r : Nat) (hb : 12 * (54 + 256 * r) < U32) :
    stacked 1024 (encodedRows r) (encodedBytes r) := by
  rw [encodedBytes_exact r hb]
  unfold U32 at hb
  have e1 : stacked 1024 (denseRows 1024 54 2048 0xFFFF0000 (min r 25))
      (1024 + 2048 * min r 25) := by
    have h := stacked_denseRows 8 54 0xFFFF0000 (by omega) (fun _ _ _ => by simp [Row.entrySize]) (min r 25) 1024
      (by simp only [threadsPerBlock, U32]; omega)
    simp only [threadsPerBlock, Nat.reduceMul] at h
    exact h
  have e2 : stacked (1024 + 2048 * min r 25)
      (denseRows (1024 + 2048 * min r 25) (54 + 256 * min r 25) 3072 0 (min r 26 - min r 25))
      (1024 + 2048 * min r 25 + 3072 * (min r 26 - min r 25)) := by
    have h := stacked_denseRows 12 (54 + 256 * min r 25) 0 (by omega) (fun _ _ _ => by simp [Row.entrySize])
      (min r 26 - min r 25) (1024 + 2048 * min r 25)
      (by simp only [threadsPerBlock, U32]; omega)
    simp only [threadsPerBlock, Nat.reduceMul] at h
    exact h
  have e3 : stacked (1024 + 2048 * min r 25 + 3072 * (min r 26 - min r 25))
      (if 26 < r then bandRows 55296 6710 (min r 48 - 26) 0xFFFC0000 else [])
      (1024 + 2048 * min r 25 + 3072 * (min r 26 - min r 25)
        + (if 26 < r then 3072 + 1024 * (min r 48 - 27) else 0)) := by
    by_cases c : 26 < r
    · have h := stacked_bandRows 55296 6710 (min r 48 - 26) 0xFFFC0000 (by norm_num)
        (by norm_num) (by unfold U32; omega)
      simp only [if_pos c]
      rw [show 1024 + 2048 * min r 25 + 3072 * (min r 26 - min r 25) = 55296 by omega,
        show 55296 + (3072 + 1024 * (min r 48 - 27)) = 55296 + 3072 + 1024 * (min r 48 - 26 - 1)
          by omega]
      exact h
    · simp only [if_neg c, stacked, Nat.add_zero]
  have e4 : stacked (1024 + 2048 * min r 25 + 3072 * (min r 26 - min r 25)
        + (if 26 < r then 3072 + 1024 * (min r 48 - 27) else 0))
      (if 48 < r then bandRows 79872 12342 (min r 317 - 48) 0xFFF00000 else [])
      (1024 + 2048 * min r 25 + 3072 * (min r 26 - min r 25)
        + (if 26 < r then 3072 + 1024 * (min r 48 - 27) else 0)
        + (if 48 < r then 3072 + 1024 * (min r 317 - 49) else 0)) := by
    by_cases c : 48 < r
    · have h := stacked_bandRows 79872 12342 (min r 317 - 48) 0xFFF00000 (by norm_num)
        (by norm_num) (by unfold U32; omega)
      simp only [if_pos c, if_pos (show 26 < r by omega)]
      rw [show 1024 + 2048 * min r 25 + 3072 * (min r 26 - min r 25)
          + (3072 + 1024 * (min r 48 - 27)) = 79872 by omega,
        show 79872 + (3072 + 1024 * (min r 317 - 49))
          = 79872 + 3072 + 1024 * (min r 317 - 48 - 1) by omega]
      exact h
    · simp only [if_neg c, stacked, Nat.add_zero]
  have e5 : stacked (1024 + 2048 * min r 25 + 3072 * (min r 26 - min r 25)
        + (if 26 < r then 3072 + 1024 * (min r 48 - 27) else 0)
        + (if 48 < r then 3072 + 1024 * (min r 317 - 49) else 0))
      (if 317 < r then bandRows 357376 81206 (r - 317) 0xFF000000 else [])
      (1024 + 2048 * min r 25 + 3072 * (min r 26 - min r 25)
        + (if 26 < r then 3072 + 1024 * (min r 48 - 27) else 0)
        + (if 48 < r then 3072 + 1024 * (min r 317 - 49) else 0)
        + (if 317 < r then 3072 + 1024 * (r - 318) else 0)) := by
    by_cases c : 317 < r
    · have h := stacked_bandRows 357376 81206 (r - 317) 0xFF000000 (by norm_num)
        (by norm_num) (by unfold U32; omega)
      simp only [if_pos c, if_pos (show 26 < r by omega), if_pos (show 48 < r by omega)]
      rw [show 1024 + 2048 * min r 25 + 3072 * (min r 26 - min r 25)
          + (3072 + 1024 * (min r 48 - 27)) + (3072 + 1024 * (min r 317 - 49)) = 357376
          by omega,
        show 357376 + (3072 + 1024 * (r - 318)) = 357376 + 3072 + 1024 * (r - 317 - 1) by omega]
      exact h
    · simp only [if_neg c, stacked, Nat.add_zero]
  unfold encodedRows
  exact stacked_append _ _ _ _ _
    (stacked_append _ _ _ _ _ (stacked_append _ _ _ _ _ (stacked_append _ _ _ _ _ e1 e2) e3) e4) e5

/-- C8: for every row count `r ≥ 1` returned by the crossover search whose
allocation of 12 bytes for each of the `primeCount` primes fits 32 bits, the
byte ranges `[offset, offset + 256 * entrySize)` of the written rows, with
entry size 8 for the rows of 16-bit primes, 12 for the rows of full 32-bit
entries and 4 for the rows of packed delta words, are pairwise disjoint, lie
inside `[1024, pinfo_size]`, and their lengths add up to `pinfo_size - 1024`:
`pinfo_size` is the 1024 bytes of padding plus the sum of the extents of the
rows. -/
theorem C8_rows_disjoint_and_exact (mc : Bool) (fuel B primeCount r : Nat) (primes : Nat → Nat)
    (hsearch : crossoverSearch mc fuel B = some (primeCount, r)) (_hr : 1 ≤ r)
    (halloc : 12 * primeCount < U32) :
    (encode mc primes r).rows.Pairwise Row.disjoint ∧
      (∀ row ∈ (encode mc primes r).rows,
        1024 ≤ row.offset ∧
          row.offset + 256 * row.entrySize ≤ pinfo_size (encode mc primes r)) ∧
      ((encode mc primes r).rows.map fun row => 256 * row.entrySize).sum
        = pinfo_size (encode mc primes r) - 1024 ∧
      pinfo_size (encode mc primes r)
        = PINFO_PAD1 + ((encode mc primes r).rows.map fun row => 256 * row.entrySize).sum := by
  obtain ⟨hpc, _, _⟩ := crossoverSearch_some mc fuel B primeCount r hsearch
  subst hpc
  obtain ⟨hrows, hbytes⟩ := encode_closed mc primes r
  have hst := stacked_encodedRows r halloc
  obtain ⟨h1, h2, h3, h4⟩ := stacked_spec _ _ _ hst
  have hlt : encodedBytes r < U32 := by
    rw [encodedBytes_exact r halloc]
    unfold U32 at halloc ⊢
    split_ifs <;> omega
  have hsize : pinfo_size (encode mc primes r) = encodedBytes r := by
    rw [pinfo_size, hbytes, Nat.mod_eq_of_lt hlt]
  simp only [threadsPerBlock] at h2 h4
  rw [hrows, hsize]
  refine ⟨h3, h2, by omega, ?_⟩
  unfold PINFO_PAD1
  omega

/-- C8, witness: the budget 10000, with 39 rows and 10038 primes. -/
theorem C8_rows_disjoint_and_exact_witness :
    (encode true (fun k => 2 * k + 1) 39).rows.Pairwise Row.disjoint ∧
      (∀ row ∈ (encode true (fun k => 2 * k + 1) 39).rows,
        1024 ≤ row.offset ∧
          row.offset + 256 * row.entrySize ≤ pinfo_size (encode true (fun k => 2 * k + 1) 39)) ∧
      ((encode true (fun k => 2 * k + 1) 39).rows.map fun row => 256 * row.entrySize).sum
        = pinfo_size (encode true (fun k => 2 * k + 1) 39) - 1024 ∧
      pinfo_size (encode true (fun k => 2 * k + 1) 39)
        = PINFO_PAD1
          + ((encode true (fun k => 2 * k + 1) 39).rows.map fun row => 256 * row.entrySize).sum :=
  C8_rows_disjoint_and_exact true 4 10000 10038 39 (fun k => 2 * k + 1) (by decide) (by decide)
    (by decide)

/-! ## Enough primes below `40 * N` -/

/-- The central binomial coefficient is at most `(2 n) ^ π (2 n)`: each prime
power in its factorisation is at most `2 n`. -/
theorem centralBinom_le_pow_count (n : Nat) (hn : 0 < n) :
    Nat.centralBinom n ≤ (2 * n) ^ Nat.count Nat.Prime (2 * n + 1) := by
  have h1 : ∏ p ∈ (Finset.range (2 * n + 1)).filter Nat.Prime,
      p ^ (Nat.centralBinom n).factorization p = Nat.centralBinom n := by
    refine Eq.trans ?_ (Nat.prod_pow_factorization_centralBinom n)
    apply Finset.prod_subset (Finset.filter_subset _ _)
    intro p hp hnp
    have : ¬ p.Prime := fun h => hnp (Finset.mem_filter.mpr ⟨hp, h⟩)
    rw [Nat.factorization_eq_zero_of_non_prime _ this, pow_zero]
  rw [Nat.count_eq_card_filter_range, ← h1]
  apply Finset.prod_le_pow_card
  intro p _
  exact Nat.pow_factorization_choose_le (by omega)

/-- There are at least `N` primes up to `40 * N`, for every `N` with
`40 * N ≤ 2^32`. -/
theorem count_primes_ge (N : Nat) (h1 : 1 ≤ N) (h2 : 40 * N ≤ 2 ^ 32) :
    N ≤ Nat.count Nat.Prime (40 * N + 1) := by
  by_contra hlt
  have hc : Nat.count Nat.Prime (2 * (20 * N) + 1) + 1 ≤ N := by
    rw [show 2 * (20 * N) = 40 * N by ring]; omega
  have hbig := Nat.four_pow_lt_mul_centralBinom (20 * N) (by omega)
  have hcb := centralBinom_le_pow_count (20 * N) (by omega)
  have h3 : 20 * N * Nat.centralBinom (20 * N)
      ≤ (2 * (20 * N)) ^ (Nat.count Nat.Prime (2 * (20 * N) + 1) + 1) := by
    rw [pow_succ, Nat.mul_comm]
    exact Nat.mul_le_mul hcb (by omega)
  have h4 : (2 * (20 * N)) ^ (Nat.count Nat.Prime (2 * (20 * N) + 1) + 1)
      ≤ (2 * (20 * N)) ^ N := Nat.pow_le_pow_right (by omega) hc
  have h5 : (2 * (20 * N)) ^ N ≤ (2 ^ 32) ^ N :=
    Nat.pow_le_pow_left (by rw [show 2 * (20 * N) = 40 * N by ring]; exact h2) N
  have h6 : ((2 : Nat) ^ 32) ^ N ≤ 4 ^ (20 * N) := by
    rw [show (4 : Nat) = 2 ^ 2 by norm_num, ← pow_mul, ← pow_mul]
    exact Nat.pow_le_pow_right (by omega) (by omega)
  omega

/-! ## The list of primes below a bound -/

theorem primesBelow_succ (n : Nat) :
    primesBelow (n + 1) = primesBelow n ++ (if Nat.Prime n then [n] else []) := by
  unfold primesBelow
  rw [List.range_succ, List.filter_append]
  by_cases h : Nat.Prime n <;> simp [h]

theorem length_primesBelow (n : Nat) : (primesBelow n).length = Nat.count Nat.Prime n := by
  induction n with
  | zero => simp [primesBelow]
  | succ n ih =>
    rw [primesBelow_succ, List.length_append, ih, Nat.count_succ]
    by_cases h : Nat.Prime n <;> simp [h]

/-- The entry `k` of the list of primes below a bound is the prime number `k`
(counted from zero). -/
theorem getElem?_primesBelow (n : Nat) :
    ∀ k, k < (primesBelow n).length → (primesBelow n)[k]? = some (Nat.nth Nat.Prime k) := by
  induction n with
  | zero => intro k hk; simp [primesBelow] at hk
  | succ n ih =>
    intro k hk
    rw [primesBelow_succ] at hk ⊢
    by_cases hlt : k < (primesBelow n).length
    · rw [List.getElem?_append_left hlt]
      exact ih k hlt
    · rw [List.getElem?_append_right (by omega)]
      by_cases hp : Nat.Prime n
      · simp only [if_pos hp, List.length_append, List.length_singleton] at hk ⊢
        have hk' : k = (primesBelow n).length := by omega
        rw [hk', Nat.sub_self, length_primesBelow, Nat.nth_count hp]
        rfl
      · simp only [if_neg hp, List.length_append, List.length_nil, Nat.add_zero] at hk
        omega

theorem primesBelow_mono_length {m n : Nat} (h : m ≤ n) :
    (primesBelow m).length ≤ (primesBelow n).length := by
  rw [length_primesBelow, length_primesBelow]
  exact Nat.count_monotone _ h

/-- Past an odd bound the next number, being even, adds no prime. -/
theorem primesBelow_odd_step (i : Nat) (hi : 1 ≤ i) :
    primesBelow (2 * (i + 1) + 1)
      = primesBelow (2 * i + 1) ++ (if Nat.Prime (2 * i + 1) then [2 * i + 1] else []) := by
  rw [show 2 * (i + 1) + 1 = (2 * i + 1 + 1) + 1 by ring, primesBelow_succ, primesBelow_succ]
  have h : ¬ Nat.Prime (2 * i + 1 + 1) := by
    intro hp
    have h2 : 2 ∣ 2 * i + 1 + 1 := ⟨i + 1, by ring⟩
    have := (Nat.prime_dvd_prime_iff_eq Nat.prime_two hp).mp h2
    omega
  rw [if_neg h, List.append_nil]

/-! ## Crossing off -/

/-- Below the square of `2 * i + 1` the numbers crossed off at index `i` are
the composite ones. -/
theorem crossed_iff_not_prime (i j : Nat) (hj : 1 ≤ j)
    (h : 2 * j + 1 < (2 * i + 1) ^ 2) : crossed i j ↔ ¬ Nat.Prime (2 * j + 1) := by
  constructor
  · rintro ⟨i', h1, _, hp, hd, hlt⟩ hprime
    have := (Nat.prime_dvd_prime_iff_eq hp hprime).mp hd
    omega
  · intro hnp
    have hmp : (Nat.minFac (2 * j + 1)).Prime := Nat.minFac_prime (by omega)
    have hmd : Nat.minFac (2 * j + 1) ∣ 2 * j + 1 := Nat.minFac_dvd _
    have hsq : Nat.minFac (2 * j + 1) ^ 2 ≤ 2 * j + 1 := Nat.minFac_sq_le_self (by omega) hnp
    have hodd : Nat.minFac (2 * j + 1) % 2 = 1 := by
      rcases Nat.mod_two_eq_zero_or_one (Nat.minFac (2 * j + 1)) with h0 | h1
      · have h2 : 2 ∣ 2 * j + 1 := (Nat.dvd_of_mod_eq_zero h0).trans hmd
        omega
      · exact h1
    have hlt : Nat.minFac (2 * j + 1) < 2 * i + 1 := by
      by_contra hge
      have : (2 * i + 1) ^ 2 ≤ Nat.minFac (2 * j + 1) ^ 2 :=
        Nat.pow_le_pow_left (by omega) 2
      omega
    have h2 : 2 ≤ Nat.minFac (2 * j + 1) := hmp.two_le
    have hq : Nat.minFac (2 * j + 1) < 2 * j + 1 := by
      have : Nat.minFac (2 * j + 1) * 2 ≤ Nat.minFac (2 * j + 1) ^ 2 := by
        rw [pow_two]; exact Nat.mul_le_mul_left _ h2
      omega
    refine ⟨Nat.minFac (2 * j + 1) / 2, by omega, by omega, ?_, ?_, by omega⟩
    · rw [show 2 * (Nat.minFac (2 * j + 1) / 2) + 1 = Nat.minFac (2 * j + 1) by omega]
      exact hmp
    · rw [show 2 * (Nat.minFac (2 * j + 1) / 2) + 1 = Nat.minFac (2 * j + 1) by omega]
      exact hmd

theorem crossed_succ (i j : Nat) :
    crossed (i + 1) j ↔
      crossed i j ∨ (1 ≤ i ∧ Nat.Prime (2 * i + 1) ∧ (2 * i + 1) ∣ (2 * j + 1) ∧ i < j) := by
  constructor
  · rintro ⟨i', h1, h2, hp, hd, hlt⟩
    rcases Nat.lt_or_ge i' i with h | h
    · exact Or.inl ⟨i', h1, h, hp, hd, hlt⟩
    · have : i' = i := by omega
      subst this
      exact Or.inr ⟨h1, hp, hd, hlt⟩
  · rintro (⟨i', h1, h2, hp, hd, hlt⟩ | ⟨h1, hp, hd, hlt⟩)
    · exact ⟨i', h1, by omega, hp, hd, hlt⟩
    · exact ⟨i, h1, by omega, hp, hd, hlt⟩

/-- The proper odd multiples of `2 * i + 1` sit at the indices
`i + k * (2 * i + 1)` with `k ≥ 1`. -/
theorem dvd_odd_iff (i j : Nat) :
    ((2 * i + 1) ∣ (2 * j + 1) ∧ i < j) ↔ i + (2 * i + 1) ≤ j ∧ (j - (i + (2 * i + 1))) % (2 * i + 1) = 0 := by
  constructor
  · rintro ⟨⟨m, hm⟩, hlt⟩
    have hm1 : m % 2 = 1 := by
      rcases Nat.mod_two_eq_zero_or_one m with h0 | h1
      · obtain ⟨c, rfl⟩ := Nat.dvd_of_mod_eq_zero h0
        have : 2 * j + 1 = 2 * ((2 * i + 1) * c) := by rw [hm]; ring
        omega
      · exact h1
    have hm3 : 3 ≤ m := by
      by_contra hlt3
      have : m = 1 := by omega
      subst this
      omega
    obtain ⟨k, rfl⟩ : ∃ k, m = 2 * k + 3 := ⟨(m - 3) / 2, by omega⟩
    have hj : j = i + (2 * i + 1) + k * (2 * i + 1) := by
      have : 2 * j + 1 = 2 * (i + (2 * i + 1) + k * (2 * i + 1)) + 1 := by rw [hm]; ring
      omega
    subst hj
    refine ⟨by omega, ?_⟩
    rw [Nat.add_sub_cancel_left, Nat.mul_mod_left]
  · rintro ⟨hle, hmod⟩
    obtain ⟨k, hk⟩ := Nat.dvd_of_mod_eq_zero hmod
    have hj : j = i + (2 * i + 1) + (2 * i + 1) * k := by omega
    subst hj
    refine ⟨⟨2 * k + 3, by ring⟩, by omega⟩

/-! ## The loops of `tiny_soe` -/

/-- The inner loop clears the flags at `j0`, `j0 + prime`, `j0 + 2 * prime`, ...
below `sieve_size` and leaves the others. -/
theorem clearMultiples_spec (S p : Nat) (hp : 1 ≤ p) :
    ∀ fuel j0 (flags : List Nat), S - j0 ≤ fuel →
      (clearMultiples S p fuel j0 flags).length = flags.length ∧
        ∀ j, (clearMultiples S p fuel j0 flags)[j]?
          = if j0 ≤ j ∧ j < S ∧ p ∣ (j - j0) ∧ j < flags.length then some 0 else flags[j]? := by
  intro fuel
  induction fuel with
  | zero =>
    intro j0 flags h
    refine ⟨rfl, fun j => ?_⟩
    rw [clearMultiples, if_neg (by omega)]
  | succ fuel ih =>
    intro j0 flags h
    rw [clearMultiples]
    by_cases hlt : j0 < S
    · rw [if_pos hlt]
      obtain ⟨h1, h2⟩ := ih (j0 + p) (flags.set j0 0) (by omega)
      refine ⟨by rw [h1, List.length_set], fun j => ?_⟩
      rw [h2, List.length_set, List.getElem?_set]
      by_cases hj : j0 = j
      · subst hj
        rw [if_neg (by omega), if_pos rfl]
        by_cases hlen : j0 < flags.length
        · rw [if_pos hlen, if_pos ⟨le_refl _, hlt, by simp, hlen⟩]
        · rw [if_neg hlen, if_neg (by omega), List.getElem?_eq_none (by omega)]
      · rw [if_neg hj]
        have hiff : (j0 + p ≤ j ∧ j < S ∧ p ∣ (j - (j0 + p)) ∧ j < flags.length) ↔
            (j0 ≤ j ∧ j < S ∧ p ∣ (j - j0) ∧ j < flags.length) := by
          constructor
          · rintro ⟨a, b, ⟨c, hc⟩, d⟩
            refine ⟨by omega, b, ⟨c + 1, ?_⟩, d⟩
            rw [Nat.mul_add, Nat.mul_one, ← hc]; omega
          · rintro ⟨a, b, ⟨c, hc⟩, d⟩
            have hc0 : c ≠ 0 := by
              rintro rfl
              simp at hc
              omega
            obtain ⟨c', rfl⟩ : ∃ c', c = c' + 1 := ⟨c - 1, by omega⟩
            rw [Nat.mul_add, Nat.mul_one] at hc
            refine ⟨by omega, b, ⟨c', by omega⟩, d⟩
        by_cases hc : j0 + p ≤ j ∧ j < S ∧ p ∣ (j - (j0 + p)) ∧ j < flags.length
        · rw [if_pos hc, if_pos (hiff.mp hc)]
        · rw [if_neg hc, if_neg (fun h => hc (hiff.mpr h))]
    · rw [if_neg hlt]
      refine ⟨rfl, fun j => ?_⟩
      rw [if_neg (by omega)]

/-- At the index `i` the flag tells whether `2 * i + 1` is prime. -/
theorem FlagsAt.getElem?_self {S i : Nat} {flags : List Nat} (h : FlagsAt S i flags)
    (hi : 1 ≤ i) (hS : i < S) :
    (Nat.Prime (2 * i + 1) ∧ flags[i]? = some 1) ∨
      (¬ Nat.Prime (2 * i + 1) ∧ flags[i]? = some 0) := by
  have hc := crossed_iff_not_prime i i hi (by nlinarith)
  by_cases hp : Nat.Prime (2 * i + 1)
  · exact Or.inl ⟨hp, (h.2 i hS).2 (fun c => (hc.mp c) hp)⟩
  · exact Or.inr ⟨hp, (h.2 i hS).1 (hc.mpr hp)⟩

/-- One turn of the first loop keeps the flags in step with the index. -/
theorem FlagsAt.step {S i : Nat} {flags : List Nat} (h : FlagsAt S i flags) (hi : 1 ≤ i) :
    (Nat.Prime (2 * i + 1) →
        FlagsAt S (i + 1) (clearMultiples S (2 * i + 1) S (i + (2 * i + 1)) flags)) ∧
      (¬ Nat.Prime (2 * i + 1) → FlagsAt S (i + 1) flags) := by
  constructor
  · intro hp
    obtain ⟨h1, h2⟩ := clearMultiples_spec S (2 * i + 1) (by omega) S (i + (2 * i + 1)) flags
      (by omega)
    refine ⟨by rw [h1, h.1], fun j hj => ?_⟩
    rw [h2, crossed_succ]
    have hd := dvd_odd_iff i j
    by_cases hc : i + (2 * i + 1) ≤ j ∧ j < S ∧ (2 * i + 1) ∣ (j - (i + (2 * i + 1)))
        ∧ j < flags.length
    · rw [if_pos hc]
      refine ⟨fun _ => rfl, fun hn => ?_⟩
      exact absurd (Or.inr ⟨hi, hp, hd.mpr ⟨hc.1, Nat.mod_eq_zero_of_dvd hc.2.2.1⟩⟩) hn
    · rw [if_neg hc]
      have hnew : ¬ ((2 * i + 1) ∣ (2 * j + 1) ∧ i < j) := by
        intro hn
        obtain ⟨a, b⟩ := hd.mp hn
        exact hc ⟨a, hj, Nat.dvd_of_mod_eq_zero b, by rw [h.1]; exact hj⟩
      refine ⟨fun hcr => (h.2 j hj).1 ?_, fun hn => (h.2 j hj).2 (fun c => hn (Or.inl c))⟩
      rcases hcr with c | ⟨_, _, c1, c2⟩
      · exact c
      · exact absurd ⟨c1, c2⟩ hnew
  · intro hp
    refine ⟨h.1, fun j hj => ?_⟩
    rw [crossed_succ]
    refine ⟨fun hcr => (h.2 j hj).1 ?_, fun hn => (h.2 j hj).2 (fun c => hn (Or.inl c))⟩
    rcases hcr with c | ⟨_, c, _⟩
    · exact c
    · exact absurd c hp

/-- The first loop runs to `i = root`, leaves the flags of every composite
odd number below `sieve_size` cleared as far as the primes below
`2 * root + 1` clear them, and has stored the primes below `2 * root + 1`. -/
theorem sieveLoop_spec (S R : Nat) (hRS : R ≤ S) (hR : R ≤ 32768) :
    ∀ fuel i (flags : List Nat), 1 ≤ i → i ≤ R → R - i < fuel → FlagsAt S i flags →
      ∃ flags', sieveLoop S R fuel i flags (primesBelow (2 * i + 1))
          = some (R, flags', primesBelow (2 * R + 1)) ∧ FlagsAt S R flags' := by
  intro fuel
  induction fuel with
  | zero => intro i flags _ _ h; omega
  | succ fuel ih =>
    intro i flags hi hiR hfuel hflags
    rw [sieveLoop]
    by_cases hlt : i < R
    · rw [if_pos hlt]
      have hmod : (2 * i + 1) % 65536 = 2 * i + 1 := Nat.mod_eq_of_lt (by omega)
      rcases hflags.getElem?_self hi (by omega) with ⟨hp, hget⟩ | ⟨hp, hget⟩
      · rw [hget]
        simp only [if_true, hmod]
        have hstep := (hflags.step hi).1 hp
        obtain ⟨flags', h1, h2⟩ := ih (i + 1) _ (by omega) (by omega) (by omega) hstep
        rw [primesBelow_odd_step i hi, if_pos hp] at h1
        exact ⟨flags', h1, h2⟩
      · rw [hget]
        simp only [show ¬ ((0 : Nat) = 1) by omega, if_false]
        have hstep := (hflags.step hi).2 hp
        obtain ⟨flags', h1, h2⟩ := ih (i + 1) _ (by omega) (by omega) (by omega) hstep
        rw [primesBelow_odd_step i hi, if_neg hp, List.append_nil] at h1
        exact ⟨flags', h1, h2⟩
    · rw [if_neg hlt]
      have : i = R := by omega
      subst this
      exact ⟨flags, rfl, hflags⟩

/-- The second loop collects primes, in order, until `limit` of them are
stored. It never reads past the flags, because there are `limit` primes below
`2 * sieve_size + 1`. -/
theorem collectLoop_spec (N S R : Nat) (flags : List Nat) (hflags : FlagsAt S R flags)
    (hsq : 2 * S < (2 * R + 1) ^ 2) (hcount : N ≤ (primesBelow (2 * S + 1)).length)
    (hS : 2 * S + 1 ≤ U32) :
    ∀ fuel i, R ≤ i → 1 ≤ i → S - i < fuel →
      ∃ m, collectLoop N flags fuel i (primesBelow (2 * i + 1)) = some (primesBelow m) ∧
        N ≤ (primesBelow m).length ∧
        ((primesBelow (2 * i + 1)).length ≤ N → (primesBelow m).length = N) := by
  intro fuel
  induction fuel with
  | zero => intro i _ _ h; omega
  | succ fuel ih =>
    intro i hRi hi hfuel
    rw [collectLoop]
    by_cases hlen : (primesBelow (2 * i + 1)).length < N
    · rw [if_pos hlen]
      have hiS : i < S := by
        by_contra hge
        have := primesBelow_mono_length (show 2 * S + 1 ≤ 2 * i + 1 by omega)
        omega
      have hmod : (2 * i + 1) % U32 = 2 * i + 1 := Nat.mod_eq_of_lt (by omega)
      have hc := crossed_iff_not_prime R i hi (by omega)
      by_cases hp : Nat.Prime (2 * i + 1)
      · have hget : flags[i]? = some 1 := (hflags.2 i hiS).2 (fun c => (hc.mp c) hp)
        rw [hget]
        simp only [if_true, hmod]
        obtain ⟨m, h1, h2, h3⟩ := ih (i + 1) (by omega) (by omega) (by omega)
        rw [primesBelow_odd_step i hi, if_pos hp] at h1 h3
        refine ⟨m, h1, h2, fun _ => h3 ?_⟩
        rw [List.length_append, List.length_singleton]
        omega
      · have hget : flags[i]? = some 0 := (hflags.2 i hiS).1 (hc.mpr hp)
        rw [hget]
        simp only [show ¬ ((0 : Nat) = 1) by omega, if_false]
        obtain ⟨m, h1, h2, h3⟩ := ih (i + 1) (by omega) (by omega) (by omega)
        rw [primesBelow_odd_step i hi, if_neg hp, List.append_nil] at h1 h3
        exact ⟨m, h1, h2, h3⟩
    · rw [if_neg hlen]
      exact ⟨2 * i + 1, rfl, by omega, fun h => by omega⟩

/-- The function `tiny_soe`, for a limit `N ≥ 1` with `40 * N ≤ 2^30` (so that
`limit * 40` does not wrap and every prime of the first loop fits the 16-bit
variable `prime`): it returns, and what it has stored is the list of all
primes below some bound, at least `N` of them. -/
theorem tiny_soe_spec (N : Nat) (h1 : 1 ≤ N) (h2 : 40 * N ≤ 2 ^ 30) :
    ∃ m, tiny_soe N = some (primesBelow m) ∧ N ≤ (primesBelow m).length ∧
      ((primesBelow (2 * Nat.sqrt (40 * N) + 1)).length ≤ N → (primesBelow m).length = N) := by
  have hmul : mul32 N 40 = 40 * N := by
    unfold mul32 U32
    rw [Nat.mul_comm]
    exact Nat.mod_eq_of_lt (by omega)
  have hsqrt : Nat.sqrt (40 * N) * Nat.sqrt (40 * N) ≤ 40 * N := Nat.sqrt_le _
  have hsucc : 40 * N < (Nat.sqrt (40 * N) + 1) * (Nat.sqrt (40 * N) + 1) := Nat.lt_succ_sqrt _
  have hR1 : 1 ≤ Nat.sqrt (40 * N) := Nat.le_sqrt.mpr (by omega)
  have hRS : Nat.sqrt (40 * N) ≤ 20 * N := by nlinarith
  have hR : Nat.sqrt (40 * N) ≤ 32768 := by nlinarith
  have hstart : FlagsAt (20 * N) 1 (List.replicate (20 * N) 1) := by
    refine ⟨List.length_replicate _ _, fun j hj => ⟨?_, fun _ => ?_⟩⟩
    · rintro ⟨i', a, b, _⟩; omega
    · rw [List.getElem?_replicate, if_pos hj]
  have hp3 : primesBelow (2 * 1 + 1) = [2] := by
    simp [primesBelow, List.range_succ]
    decide
  obtain ⟨flags', hloop, hflags'⟩ := sieveLoop_spec (20 * N) (Nat.sqrt (40 * N)) hRS hR
    (Nat.sqrt (40 * N) + 1) 1 _ (le_refl 1) hR1 (by omega) hstart
  rw [hp3] at hloop
  have hcount : N ≤ (primesBelow (2 * (20 * N) + 1)).length := by
    rw [length_primesBelow, show 2 * (20 * N) = 40 * N by ring]
    exact count_primes_ge N h1 (by omega)
  obtain ⟨m, hm, hlen, hexact⟩ := collectLoop_spec N (20 * N) (Nat.sqrt (40 * N)) flags' hflags'
    (by nlinarith) hcount (by unfold U32; omega) (20 * N + 1) (Nat.sqrt (40 * N)) (le_refl _)
    hR1 (by omega)
  refine ⟨m, ?_, hlen, hexact⟩
  unfold tiny_soe
  simp only [hmul, show 40 * N / 2 = 20 * N by omega, hloop, hm]

/-! ## The prime generator: claim C4 -/

/-- No prime lies strictly between two successive prime numbers. -/
theorem no_prime_between_nth (k x : Nat) (h1 : Nat.nth Nat.Prime k < x)
    (h2 : x < Nat.nth Nat.Prime (k + 1)) : ¬ Nat.Prime x := by
  intro hp
  have hinf := Nat.infinite_setOf_prime
  have a : k < Nat.count Nat.Prime x := (Nat.lt_nth_iff_count_lt hinf).mpr h1
  have hx : x + 1 ≤ Nat.nth Nat.Prime (k + 1) := by omega
  have b : Nat.count Nat.Prime (x + 1) ≤ k + 1 := (Nat.count_le_iff_le_nth hinf).mpr hx
  rw [Nat.count_succ, if_pos hp] at b
  omega

/-- C4: for every `N` with `1 ≤ N ≤ 10000`, `tiny_soe (N, primes)` returns and
the entries `primes[0..N-1]` are exactly the first `N` prime numbers in
ascending order: entry `k` is the prime number `k` (counted from zero); in
particular `primes[0] = 2`, every entry is prime, successive entries ascend
strictly and no prime lies strictly between two of them. -/
theorem C4_tiny_soe_first_primes (N : Nat) (h1 : 1 ≤ N) (h2 : N ≤ 10000) :
    ∃ primes, tiny_soe N = some primes ∧ N ≤ primes.length ∧
      (∀ k, k < N → primes[k]? = some (Nat.nth Nat.Prime k)) ∧
      primes[0]? = some 2 ∧
      (∀ k, k < N → ∃ p, primes[k]? = some p ∧ Nat.Prime p) ∧
      (∀ k, k + 1 < N → ∃ p q, primes[k]? = some p ∧ primes[k + 1]? = some q ∧ p < q ∧
        ∀ x, p < x → x < q → ¬ Nat.Prime x) := by
  obtain ⟨m, hm, hlen, _⟩ := tiny_soe_spec N h1 (by omega)
  have hget : ∀ k, k < N → (primesBelow m)[k]? = some (Nat.nth Nat.Prime k) :=
    fun k hk => getElem?_primesBelow m k (by omega)
  refine ⟨primesBelow m, hm, hlen, hget, ?_, fun k hk => ?_, fun k hk => ?_⟩
  · rw [hget 0 (by omega), Nat.nth_prime_zero_eq_two]
  · exact ⟨_, hget k hk, Nat.nth_mem_of_infinite Nat.infinite_setOf_prime k⟩
  · exact ⟨_, _, hget k (by omega), hget (k + 1) hk,
      (Nat.nth_lt_nth Nat.infinite_setOf_prime).mpr (Nat.lt_succ_self k),
      fun x => no_prime_between_nth k x⟩

/-- C4, witness: `N = 20`, where the stored primes are the twenty primes up to 71. -/
theorem C4_tiny_soe_first_primes_witness :
    tiny_soe 20
        = some [2, 3, 5, 7, 11, 13, 17, 19, 23, 29, 31, 37, 41, 43, 47, 53, 59, 61, 67, 71] ∧
      ∃ primes, tiny_soe 20 = some primes ∧ 20 ≤ primes.length ∧
        (∀ k, k < 20 → primes[k]? = some (Nat.nth Nat.Prime k)) ∧
        primes[0]? = some 2 ∧
        (∀ k, k < 20 → ∃ p, primes[k]? = some p ∧ Nat.Prime p) ∧
        (∀ k, k + 1 < 20 → ∃ p q, primes[k]? = some p ∧ primes[k + 1]? = some q ∧ p < q ∧
          ∀ x, p < x → x < q → ¬ Nat.Prime x) :=
  ⟨by decide!, C4_tiny_soe_first_primes 20 (by decide) (by decide)⟩

/-! ## Checking the primes of the band from 64K through 128K -/

/-- Between `D` and `(D + 1)^2` the primes are the numbers coprime to `D!`. -/
theorem gcd_factorial_eq_one_iff (D n : Nat) (h1 : D < n) (h2 : n < (D + 1) ^ 2) :
    Nat.gcd n (Nat.factorial D) = 1 ↔ Nat.Prime n := by
  constructor
  · intro hg
    by_contra hnp
    have hn2 : 2 ≤ n ∨ n < 2 := by omega
    rcases hn2 with hn2 | hn2
    · have hmp : (Nat.minFac n).Prime := Nat.minFac_prime (by omega)
      have hsq : Nat.minFac n ^ 2 ≤ n := Nat.minFac_sq_le_self (by omega) hnp
      have hle : Nat.minFac n ≤ D := by
        by_contra hgt
        have : (D + 1) ^ 2 ≤ Nat.minFac n ^ 2 := Nat.pow_le_pow_left (by omega) 2
        omega
      have hd : Nat.minFac n ∣ Nat.gcd n (Nat.factorial D) :=
        Nat.dvd_gcd (Nat.minFac_dvd n) ((Nat.Prime.dvd_factorial hmp).mpr hle)
      rw [hg] at hd
      exact hmp.one_lt.ne' (Nat.dvd_one.mp hd)
    · have hD : D = 0 := by omega
      have hn : n = 1 := by omega
      subst hD hn
      norm_num at h2
  · intro hp
    exact (Nat.Prime.coprime_iff_not_dvd hp).mpr
      (fun hd => by have := (Nat.Prime.dvd_factorial hp).mp hd; omega)

theorem PrimeState.next_prime {n cnt a b c : Nat} (h : PrimeState n cnt a b c)
    (hp : Nat.Prime n) : PrimeState (n + 1) (cnt + 1) n a b ∧ n = Nat.nth Nat.Prime cnt := by
  obtain ⟨h1, h2, h3, h4, h5⟩ := h
  have hn : n = Nat.nth Nat.Prime cnt := by rw [h1, Nat.nth_count hp]
  refine ⟨⟨?_, by omega, ?_, ?_, ?_⟩, hn⟩
  · rw [Nat.count_succ, if_pos hp, h1]
  · rw [Nat.add_sub_cancel]; exact hn
  · rw [show cnt + 1 - 2 = cnt - 1 by omega]; exact h3
  · rw [show cnt + 1 - 3 = cnt - 2 by omega]; exact h4

theorem PrimeState.next_composite {n cnt a b c : Nat} (h : PrimeState n cnt a b c)
    (hp : ¬ Nat.Prime n) : PrimeState (n + 1) cnt a b c := by
  obtain ⟨h1, h2, h3, h4, h5⟩ := h
  refine ⟨?_, h2, h3, h4, h5⟩
  rw [Nat.count_succ, if_neg hp, h1, Nat.add_zero]

/-- The checker is right: when it returns, it returns the state at `top`, and
every prime it passed whose index lies in `[lo, hi]` fits with the prime
three places before. -/
theorem scanPrimes_spec (D top lo hi : Nat) (htop : top ≤ (D + 1) ^ 2) :
    ∀ fuel cnt a b c out, fuel ≤ top → D < top - fuel →
      PrimeState (top - fuel) cnt a b c →
      scanPrimes (Nat.factorial D) top lo hi fuel cnt a b c = some out →
      PrimeState top out.1 out.2.1 out.2.2.1 out.2.2.2 ∧
        ∀ idx, cnt ≤ idx → idx < out.1 → lo ≤ idx → idx ≤ hi →
          deltaFits (Nat.nth Nat.Prime (idx - 3)) (Nat.nth Nat.Prime idx) = true := by
  intro fuel
  induction fuel with
  | zero =>
    intro cnt a b c out _ _ hst hscan
    simp only [scanPrimes, Option.some.injEq] at hscan
    subst hscan
    exact ⟨by simpa using hst, fun idx h1 h2 => by simp at h2; omega⟩
  | succ fuel ih =>
    intro cnt a b c out hf hD hst hscan
    have hnext : top - (fuel + 1) + 1 = top - fuel := by omega
    have hiff := gcd_factorial_eq_one_iff D (top - (fuel + 1)) hD (by omega)
    rw [scanPrimes] at hscan
    by_cases hp : Nat.Prime (top - (fuel + 1))
    · have hg : Nat.beq (Nat.gcd (Nat.sub top (fuel + 1)) (Nat.factorial D)) 1 = true := by
        rw [show Nat.gcd (Nat.sub top (fuel + 1)) (Nat.factorial D) = 1 from hiff.mpr hp]
        rfl
      rw [hg, cond_true] at hscan
      obtain ⟨hst', hn⟩ := hst.next_prime hp
      rw [hnext] at hst'
      by_cases hchk : (Nat.ble lo cnt && Nat.ble cnt hi
          && !(deltaFits c (Nat.sub top (fuel + 1)))) = true
      · rw [hchk, cond_true] at hscan
        cases hscan
      · rw [Bool.not_eq_true] at hchk
        rw [hchk, cond_false] at hscan
        obtain ⟨r1, r2⟩ := ih (cnt + 1) _ a b out (by omega) (by omega) hst' hscan
        refine ⟨r1, fun idx i1 i2 i3 i4 => ?_⟩
        rcases Nat.lt_or_ge cnt idx with hlt | hge
        · exact r2 idx hlt i2 i3 i4
        · have hidx : idx = cnt := by omega
          subst hidx
          have hlo : Nat.ble lo idx = true := Nat.ble_eq_true_of_le i3
          have hhi : Nat.ble idx hi = true := Nat.ble_eq_true_of_le i4
          rw [hlo, hhi] at hchk
          simp only [Bool.and_self, Bool.true_and, Bool.not_eq_false'] at hchk
          rw [← hst.2.2.2.2, ← hn]
          exact hchk
    · have hg : Nat.beq (Nat.gcd (Nat.sub top (fuel + 1)) (Nat.factorial D)) 1 = false := by
        rw [← Bool.not_eq_true]
        exact fun h => hp (hiff.mp (Nat.eq_of_beq_eq_true h))
      rw [hg, cond_false] at hscan
      have hst' := hst.next_composite hp
      rw [hnext] at hst'
      exact ih cnt a b c out (by omega) (by omega) hst' hscan

theorem primeState_twenty : PrimeState 20 8 19 17 13 := by
  have c20 : Nat.count Nat.Prime 20 = 8 := by decide
  have c19 : Nat.count Nat.Prime 19 = 7 := by decide
  have c17 : Nat.count Nat.Prime 17 = 6 := by decide
  have c13 : Nat.count Nat.Prime 13 = 5 := by decide
  refine ⟨c20.symm, by omega, ?_, ?_, ?_⟩
  · rw [show 8 - 1 = Nat.count Nat.Prime 19 from c19.symm, Nat.nth_count (by norm_num)]
  · rw [show 8 - 2 = Nat.count Nat.Prime 17 from c17.symm, Nat.nth_count (by norm_num)]
  · rw [show 8 - 3 = Nat.count Nat.Prime 13 from c13.symm, Nat.nth_count (by norm_num)]

set_option maxRecDepth 1000000 in
theorem scanPrimes_low :
    scanPrimes (Nat.factorial 19) 400 6711 12341 380 8 19 17 13 = some (78, 397, 389, 383) := by
  decide!

set_option maxRecDepth 1000000 in
theorem scanPrimes_band :
    scanPrimes (Nat.factorial 399) 132240 6711 12341 131840 78 397 389 383
      = some (12344, 132233, 132229, 132199) := by
  decide!

/-- The primes with indices 6711 to 12341 all fit with the prime three places
before, and the prime with index 12343 is 132233. -/
theorem band_primes_fit :
    Nat.nth Nat.Prime 12343 = 132233 ∧
      ∀ idx, 6711 ≤ idx → idx ≤ 12341 →
        deltaFits (Nat.nth Nat.Prime (idx - 3)) (Nat.nth Nat.Prime idx) = true := by
  obtain ⟨st1, _⟩ := scanPrimes_spec 19 400 6711 12341 (by norm_num) 380 8 19 17 13 _
    (by norm_num) (by norm_num) primeState_twenty scanPrimes_low
  obtain ⟨st2, hfit⟩ := scanPrimes_spec 399 132240 6711 12341 (by norm_num) 131840 78 397 389
    383 _ (by norm_num) (by norm_num) st1 scanPrimes_band
  exact ⟨st2.2.2.1.symm, fun idx h1 h2 => hfit idx (by omega) (by simp; omega) h1 h2⟩

/-- A later base prime fits when an earlier one does. -/
theorem deltaFits_mono (p p' q : Nat) (h2 : 2 ≤ p) (h1 : p ≤ p') (h3 : p' < q) (hq : q < U32)
    (h : deltaFits p q = true) : deltaFits p' q = true := by
  have hpinv : ∀ x, 2 ≤ x → gen_pinv x = 4294967295 / x + 1 := by
    intro x hx
    have hle : 4294967295 / x ≤ 4294967295 / 2 := Nat.div_le_div_left hx (by omega)
    unfold gen_pinv add32 U32
    generalize 4294967295 / x = y at hle ⊢
    omega
  have d1 : 4294967295 / p' ≤ 4294967295 / p := Nat.div_le_div_left h1 (by omega)
  have d2 : 4294967295 / q ≤ 4294967295 / p' := Nat.div_le_div_left (by omega) (by omega)
  have d3 : 4294967295 / p ≤ 4294967295 / 2 := Nat.div_le_div_left h2 (by omega)
  unfold deltaFits at h ⊢
  rw [decide_eq_true_eq] at h ⊢
  rw [hpinv p h2, hpinv q (by omega)] at h
  rw [hpinv p' (by omega), hpinv q (by omega)]
  unfold sub32 U32 at h ⊢
  unfold U32 at hq
  generalize 4294967295 / p = a at d1 d3 h ⊢
  generalize 4294967295 / p' = b at d1 d2 h ⊢
  generalize 4294967295 / q = c at d2 h ⊢
  omega

/-- A property kept by the body, for the values the counter takes, is kept
by a `for` loop. -/
theorem forLoop_invariant_counter {σ : Type} (P : σ → Prop) (Q : Nat → Prop) (stop step : Nat)
    (body : Nat → σ → σ) (hQ : ∀ k, Q k → k < stop → Q (k + step))
    (h : ∀ k s, Q k → k < stop → P s → P (body k s)) :
    ∀ fuel k s, Q k → P s → P (forLoop stop step body fuel k s) := by
  intro fuel
  induction fuel with
  | zero => intro k s _ hs; exact hs
  | succ fuel ih =>
    intro k s hk hs
    unfold forLoop
    split
    · rename_i hlt
      exact ih _ _ (hQ k hk hlt) (h k s hk hlt hs)
    · exact hs

/-- A property kept by the body is kept by a `while` loop. -/
theorem whileLoop_invariant {σ : Type} (P : σ → Prop) (cond : σ → Bool) (body : σ → σ)
    (h : ∀ s, P s → P (body s)) : ∀ fuel s, P s → P (whileLoop cond body fuel s) := by
  intro fuel
  induction fuel with
  | zero => intro s hs; exact hs
  | succ fuel ih =>
    intro s hs
    unfold whileLoop
    split
    · exact ih _ (h s hs)
    · exact hs

/-! ## The reports of the encoder through the rows -/

theorem bad_store (s : Encoder) (a v : Nat) : (s.store a v).bad = s.bad := rfl

theorem bad_pushRow (s : Encoder) (row : Row) : (s.pushRow row).bad = s.bad := rfl

/-- A `for` loop whose body makes no report makes none. -/
theorem bad_forLoop (stop step : Nat) (body : Nat → Encoder → Encoder)
    (h : ∀ k t, (body k t).bad = t.bad) :
    ∀ fuel k s, (forLoop stop step body fuel k s).bad = s.bad := by
  intro fuel
  induction fuel with
  | zero => intro k s; rfl
  | succ fuel ih =>
    intro k s
    unfold forLoop
    split
    · rw [ih, h]
    · rfl

/-- A `while` loop whose body makes no report makes none. -/
theorem bad_whileLoop (cond : Encoder → Bool) (body : Encoder → Encoder)
    (h : ∀ t, (body t).bad = t.bad) :
    ∀ fuel s, (whileLoop cond body fuel s).bad = s.bad := by
  intro fuel
  induction fuel with
  | zero => intro s; rfl
  | succ fuel ih =>
    intro s
    unfold whileLoop
    split
    · rw [ih, h]
    · rfl

theorem bad_row16 (primes : Nat → Nat) (s : Encoder) : (row16 primes s).bad = s.bad := by
  unfold row16
  rw [bad_forLoop]
  · rfl
  · intro k t; rfl

theorem bad_row32 (primes : Nat → Nat) (s : Encoder) : (row32 primes s).bad = s.bad := by
  unfold row32
  rw [bad_forLoop]
  · rfl
  · intro k t; rfl

theorem bad_rowStrided (pinv primes : Nat → Nat) (lc : Nat) (s : Encoder) :
    (rowStrided pinv primes lc s).bad = s.bad := by
  unfold rowStrided
  simp only []
  rw [bad_forLoop]
  · rfl
  · intro k t; rfl

theorem bad_deltaRows (mask : Nat) (s : Encoder) : (deltaRows mask s).bad = s.bad := by
  unfold deltaRows
  rw [bad_forLoop]
  intro k t; rfl

theorem bad_sectionBelow64K (mc : Bool) (primes : Nat → Nat) (r : Nat) (s : Encoder) :
    (sectionBelow64K mc primes r s).bad = s.bad := by
  unfold sectionBelow64K
  simp only []
  rw [bad_whileLoop]
  intro t
  dsimp only
  exact bad_row16 primes t

theorem bad_sectionAcross64K (mc : Bool) (primes : Nat → Nat) (r : Nat) (s : Encoder) :
    (sectionAcross64K mc primes r s).bad = s.bad := by
  unfold sectionAcross64K
  simp only []
  rw [bad_whileLoop]
  intro t
  dsimp only
  exact bad_row32 primes t

/-- An entry that fits is stored without a report. -/
theorem bad_deltaEntry_of_fits (primes : Nat → Nat) (shift index back addr : Nat) (s : Encoder)
    (h : deltaFits (primes (index - back)) (primes index) = true) :
    (deltaEntry gen_pinv 127 shift primes index back addr s).bad = s.bad := by
  unfold deltaFits at h
  rw [decide_eq_true_eq] at h
  unfold deltaEntry
  simp only [if_neg h]
  rfl

/-- The packed words of the band from 64K through 128K are stored without a
report when every entry fits. -/
theorem bad_deltaWords3 (primes : Nat → Nat) (s : Encoder) (hlc : s.loop_count % 3 = 1)
    (hfit : ∀ k j back, k % 3 = 1 → k + 2 < s.loop_count → j < threadsPerBlock →
      1 ≤ back → back ≤ 3 →
      deltaFits (primes (s.i + j * s.loop_count + k + (back - 1) - back))
        (primes (s.i + j * s.loop_count + k + (back - 1))) = true) :
    (deltaWords3 primes s).bad = s.bad := by
  unfold deltaWords3
  have key := forLoop_invariant_counter
    (fun t : Encoder => t.cursor = s.cursor ∧ t.bad = s.bad) (fun k => k % 3 = 1)
    s.loop_count 3
    (fun k t =>
      forLoop threadsPerBlock 1
        (fun j u =>
          let index := u.i + j * u.loop_count + k
          let u1 := deltaEntry gen_pinv 127 18 primes index 1
            (u.pinfo + 4 * ((k - 1) * threadsPerBlock + j)) u
          let u2 := deltaEntry gen_pinv 127 18 primes (index + 1) 2
            (u.pinfo + 4 * (k * threadsPerBlock + j)) u1
          deltaEntry gen_pinv 127 18 primes (index + 2) 3
            (u.pinfo + 4 * ((k + 1) * threadsPerBlock + j)) u2)
        threadsPerBlock 0 t)
    (fun k hk _ => by omega) ?_ s.loop_count 1 s (by rfl) ⟨rfl, rfl⟩
  · exact key.2
  · intro k t hk hlt ht
    have hk2 : k + 2 < s.loop_count := by omega
    refine forLoop_invariant_counter
      (fun u : Encoder => u.cursor = s.cursor ∧ u.bad = s.bad) (fun _ => True)
      threadsPerBlock 1 _ (fun _ _ _ => trivial) ?_ threadsPerBlock 0 t trivial ht
    intro j u _ hj hu
    obtain ⟨hc, hb⟩ := hu
    have hi : u.i = s.i := congrArg Prod.fst hc
    have hl : u.loop_count = s.loop_count := congrArg (fun c => c.2.2.1) hc
    have f1 := hfit k j 1 hk hk2 hj (le_refl 1) (by omega)
    have f2 := hfit k j 2 hk hk2 hj (by omega) (by omega)
    have f3 := hfit k j 3 hk hk2 hj (by omega) (le_refl 3)
    simp only [Nat.sub_self, Nat.add_zero, show 2 - 1 = 1 by rfl, show 3 - 1 = 2 by rfl]
      at f1 f2 f3
    simp only [hi, hl]
    refine ⟨?_, ?_⟩
    · rw [cursor_deltaEntry, cursor_deltaEntry, cursor_deltaEntry, hc]
    · rw [bad_deltaEntry_of_fits primes _ _ _ _ _ f3, bad_deltaEntry_of_fits primes _ _ _ _ _ f2,
        bad_deltaEntry_of_fits primes _ _ _ _ _ f1, hb]

/-! ## The band of primes from 64K through 128K: claim C6 -/

theorem bad_deltaAdvance (s : Encoder) : (deltaAdvance s).bad = s.bad := rfl

/-- Reading the true prime list: inside the array the encoder reads the prime
number with that index. -/
theorem primesArray_eq_nth (out : List Nat) (n : Nat)
    (htrue : ∀ k, k < n → out[k]? = some (Nat.nth Nat.Prime k)) (k : Nat) (hk : k < n) :
    primesArray out k = Nat.nth Nat.Prime k := by
  unfold primesArray
  rw [List.getD_eq_getElem?_getD, htrue k hk]
  rfl

/-- Every entry of the band of primes from 64K through 128K fits, for the
true primes: the entry for the prime with index `index`, packed against the
prime `back ≤ 3` places before, where both indices lie in `[6710, 12341]`. -/
theorem band_entry_fits (index back : Nat) (h1 : 1 ≤ back) (h2 : back ≤ 3)
    (h3 : 6710 + back ≤ index) (h4 : index ≤ 12341) :
    deltaFits (Nat.nth Nat.Prime (index - back)) (Nat.nth Nat.Prime index) = true := by
  have hinf := Nat.infinite_setOf_prime
  obtain ⟨htop, hfit⟩ := band_primes_fit
  refine deltaFits_mono (Nat.nth Nat.Prime (index - 3)) _ _ ?_ ?_ ?_ ?_
    (hfit index (by omega) h4)
  · exact (Nat.nth_mem_of_infinite hinf _).two_le
  · exact (Nat.nth_strictMono hinf).monotone (by omega)
  · exact (Nat.nth_lt_nth hinf).mpr (by omega)
  · have : Nat.nth Nat.Prime index < Nat.nth Nat.Prime 12343 :=
      (Nat.nth_lt_nth hinf).mpr (by omega)
    rw [htop] at this
    unfold U32
    omega

/-- C6: for every row count `r ≥ 30` returned by the crossover search (every
configuration that has a delta band from 64K through 128K) and the true prime
list produced by `tiny_soe`, every entry of that band fits its field. For
every turn `k` of the outer loop, every lane `j` and each of the three entries
of the turn (`back = 1, 2, 3`), with `index = 6710 + j * loop_count + k + (back - 1)`
and the base prime at `index - back`, the half prime delta `pdiff` and the
inverse delta `pinvdiff` are both at most 127; the encoder reaches the end of
the band without a single "Bad compress" report. -/
theorem C6_delta_band_fits (mc : Bool) (fuel B primeCount r : Nat) (out : List Nat)
    (hsearch : crossoverSearch mc fuel B = some (primeCount, r)) (hr : 30 ≤ r)
    (_hsoe : tiny_soe primeCount = some out)
    (htrue : ∀ k, k < primeCount → out[k]? = some (Nat.nth Nat.Prime k)) :
    (encodeTo128K mc (primesArray out) r).bad = [] ∧
      ∀ k j back, k % 3 = 1 → k < min r 48 - 26 → j < 256 → 1 ≤ back → back ≤ 3 →
        sub32 (primesArray out (6710 + j * (min r 48 - 26) + k + (back - 1)))
            (primesArray out (6710 + j * (min r 48 - 26) + k + (back - 1) - back)) / 2 ≤ 127 ∧
          sub32 (gen_pinv (primesArray out (6710 + j * (min r 48 - 26) + k + (back - 1) - back)))
            (gen_pinv (primesArray out (6710 + j * (min r 48 - 26) + k + (back - 1)))) ≤ 127 := by
  obtain ⟨hpc, _, hacc⟩ := crossoverSearch_some mc fuel B primeCount r hsearch
  rw [crossoverAccepts_iff] at hacc
  have hlc3 : (min r 48 - 26) % 3 = 1 := hacc.2.2.1 (by omega)
  have hlc22 : min r 48 - 26 ≤ 22 := by omega
  have hlcr : 26 + (min r 48 - 26) ≤ r := by omega
  -- every entry of the loops fits
  have hfit : ∀ k j back, k % 3 = 1 → k + 2 < min r 48 - 26 → j < 256 → 1 ≤ back → back ≤ 3 →
      deltaFits (primesArray out (6710 + j * (min r 48 - 26) + k + (back - 1) - back))
        (primesArray out (6710 + j * (min r 48 - 26) + k + (back - 1))) = true := by
    intro k j back hk hk2 hj hb1 hb3
    have hjl : j * (min r 48 - 26) ≤ 255 * (min r 48 - 26) := Nat.mul_le_mul_right _ (by omega)
    generalize j * (min r 48 - 26) = x at hjl ⊢
    have hidx : 6710 + x + k + (back - 1) < primeCount := by omega
    rw [primesArray_eq_nth out primeCount htrue _ hidx,
      primesArray_eq_nth out primeCount htrue _ (by omega)]
    exact band_entry_fits _ back hb1 hb3 (by omega) (by omega)
  constructor
  · -- the state in front of the packed words of the band
    have hA := cursor_sectionBelow64K mc (primesArray out) r (encoderStart mc r) (prefix_eq mc)
    simp only [Encoder.cursor, Prod.mk.injEq] at hA
    have hB := cursor_sectionAcross64K mc (primesArray out) r _ hA.1
    simp only [Encoder.cursor, Prod.mk.injEq] at hB
    have hC := cursor_rowStrided gen_pinv (primesArray out) (min r 48 - 26)
      (sectionAcross64K mc (primesArray out) r
        (sectionBelow64K mc (primesArray out) r (encoderStart mc r)))
    simp only [Encoder.cursor, Prod.mk.injEq] at hC
    have hD := cursor_deltaRows 0xFFFC0000
      (rowStrided gen_pinv (primesArray out) (min r 48 - 26)
        (sectionAcross64K mc (primesArray out) r
          (sectionBelow64K mc (primesArray out) r (encoderStart mc r))))
    simp only [Encoder.cursor, Prod.mk.injEq] at hD
    have hi : (deltaRows 0xFFFC0000
        (rowStrided gen_pinv (primesArray out) (min r 48 - 26)
          (sectionAcross64K mc (primesArray out) r
            (sectionBelow64K mc (primesArray out) r (encoderStart mc r))))).i = 6710 := by
      rw [hD.1, hC.1, hB.1]; omega
    have hl : (deltaRows 0xFFFC0000
        (rowStrided gen_pinv (primesArray out) (min r 48 - 26)
          (sectionAcross64K mc (primesArray out) r
            (sectionBelow64K mc (primesArray out) r (encoderStart mc r))))).loop_count
        = min r 48 - 26 := by
      rw [hD.2.2.1, hC.2.2.1]
    unfold encodeTo128K section64Kto128K sectionTransition128K
    rw [sieving64KCrossover_eq, sieving128KCrossover_eq]
    simp only [if_pos (show r > 25 + 1 by omega), if_pos (show r > 25 + 2 by omega)]
    rw [bad_deltaAdvance, bad_deltaWords3 _ _ (by rw [hl]; exact hlc3) (by
      intro k j back hk hk2 hj hb1 hb3
      rw [hi, hl] at *
      exact hfit k j back hk hk2 hj hb1 hb3)]
    rw [bad_deltaRows, bad_rowStrided, bad_sectionAcross64K, bad_sectionBelow64K]
    rfl
  · intro k j back hk hklt hj hb1 hb3
    have h := hfit k j back hk (by omega) hj hb1 hb3
    unfold deltaFits at h
    rw [decide_eq_true_eq] at h
    omega

/-- C6, witness: the budget 10000 (`r = 39`, `loop_count = 13`), with the list
that `tiny_soe` produces for 10038 primes. -/
theorem C6_delta_band_fits_witness :
    crossoverSearch true 4 10000 = some (10038, 39) ∧
      ∃ out, tiny_soe 10038 = some out ∧
        (∀ k, k < 10038 → out[k]? = some (Nat.nth Nat.Prime k)) ∧
        (encodeTo128K true (primesArray out) 39).bad = [] ∧
        ∀ k j back, k % 3 = 1 → k < min 39 48 - 26 → j < 256 → 1 ≤ back → back ≤ 3 →
          sub32 (primesArray out (6710 + j * (min 39 48 - 26) + k + (back - 1)))
              (primesArray out (6710 + j * (min 39 48 - 26) + k + (back - 1) - back)) / 2
              ≤ 127 ∧
            sub32
              (gen_pinv (primesArray out (6710 + j * (min 39 48 - 26) + k + (back - 1) - back)))
              (gen_pinv (primesArray out (6710 + j * (min 39 48 - 26) + k + (back - 1))))
              ≤ 127 := by
  obtain ⟨m, hm, hlen, _⟩ := tiny_soe_spec 10038 (by norm_num) (by norm_num)
  have htrue : ∀ k, k < 10038 → (primesBelow m)[k]? = some (Nat.nth Nat.Prime k) :=
    fun k hk => getElem?_primesBelow m k (by omega)
  exact ⟨by decide, primesBelow m, hm, htrue,
    C6_delta_band_fits true 4 10000 10038 39 (primesBelow m) (by decide) (by decide) hm htrue⟩

/-! ## An entry that does not fit: claim C7 -/

theorem gapList_ascending_odd (k : Nat) : gapList k % 2 = 1 ∧ gapList k < gapList (k + 1) := by
  unfold gapList
  split_ifs <;> omega

set_option maxRecDepth 1000000 in
/-- C7, the code at a failing input: the list `gapList`, for 7734 primes
(`r = 30`, a delta band of three packed rows). The entry for the index 6711
has `pdiff = 501 > 127` and `pinvdiff = 22233 > 127`. The encoder reports it
("Bad compress"), stores the word all the same, and completes the build with
all 30 row descriptors and `pinfo_size = 61440`. In the stored word the high
bits of `pinvdiff` are dropped and the high bits of `pdiff` run into the
`pinvdiff` field: decoding gives 117 and 92 in place of 501 and 22233. -/
theorem C7_overflow_is_only_reported :
    crossoverSearch true 4 7734 = some (7734, 30) ∧
      gapList 6710 = 13421 ∧ gapList 6711 = 14423 ∧
      (14423, 501, 22233) ∈ (encode true gapList 30).bad ∧
      (encode true gapList 30).words.lookup 58368 = some 3117678592 ∧
      (3117678592 >>> 18) % 128 = 117 ∧ 3117678592 >>> 25 = 92 ∧
      (encode true gapList 30).rows.length = 30 ∧
      pinfo_size (encode true gapList 30) = 61440 := by
  decide!

/-! ## The search stops within three increments: claim C11 -/

/-- C11: for every budget `B ≥ 54` with `B + 768 < 2^32` the search loop
terminates after adding 256 to the candidate at most 3 times. Four turns of
the loop are enough (so is any larger fuel), the result is the rounded request
plus `256 * k` with `k ≤ 3`, none of the `k` candidates before it is accepted,
and no addition wraps. -/
theorem C11_search_terminates (mc : Bool) (fuel B : Nat) (hfuel : 4 ≤ fuel) (h54 : 54 ≤ B)
    (hB : B + 768 < U32) :
    ∃ k, k ≤ 3 ∧
      crossoverSearch mc 4 B
        = some (roundSievePrimes mc B + 256 * k, primesPerThread mc (roundSievePrimes mc B) + k) ∧
      crossoverSearch mc fuel B = crossoverSearch mc 4 B ∧
      roundSievePrimes mc B + 256 * k < U32 ∧
      ∀ j, j < k →
        crossoverAccepts mc (primesPerThread mc (roundSievePrimes mc B + 256 * j)) = false := by
  have hU : U32 = 4294967296 := rfl
  obtain ⟨k, hk, h4, hacc, hrej⟩ := crossoverSearch_spec mc 4 B (le_refl 4) h54 (by omega)
  obtain ⟨k', _, hf, hacc', hrej'⟩ := crossoverSearch_spec mc fuel B hfuel h54 (by omega)
  have hkk : k' = k := by
    rcases Nat.lt_trichotomy k' k with h | h | h
    · rw [hrej k' h] at hacc'
      exact absurd hacc' (by decide)
    · exact h
    · rw [hrej' k h] at hacc
      exact absurd hacc (by decide)
  subst hkk
  have hround := roundSievePrimes_eq mc B h54 (by omega)
  have hm : (B - 54) / 256 < 16777216 := by omega
  have hppt : ∀ j, j ≤ 3 → primesPerThread mc (roundSievePrimes mc B + 256 * j)
      = (B - 54) / 256 + j := by
    intro j hj
    rw [hround, show 54 + 256 * ((B - 54) / 256) + 256 * j = 54 + 256 * ((B - 54) / 256 + j) by omega]
    exact primesPerThread_grid mc _ (by omega)
  refine ⟨k', hk, ?_, ?_, ?_, ?_⟩
  · have h0 := hppt 0 (by omega)
    simp only [Nat.mul_zero, Nat.add_zero] at h0
    rw [h4, h0, hround]
    exact congrArg some (Prod.ext (by simp only; omega) rfl)
  · rw [hf, h4]
  · rw [hround]; omega
  · intro j hj
    rw [hppt j (by omega)]
    exact hrej j hj

/-- C11, witness: the budget 14000 is rounded to 13878 (row count 54) and three
increments lead to 14646 (row count 57). -/
theorem C11_search_terminates_witness :
    crossoverSearch true 4 14000 = some (14646, 57) ∧
      ∃ k, k ≤ 3 ∧
        crossoverSearch true 4 14000
          = some (roundSievePrimes true 14000 + 256 * k,
              primesPerThread true (roundSievePrimes true 14000) + k) ∧
        crossoverSearch true 7 14000 = crossoverSearch true 4 14000 ∧
        roundSievePrimes true 14000 + 256 * k < U32 ∧
        ∀ j, j < k →
          crossoverAccepts true (primesPerThread true (roundSievePrimes true 14000 + 256 * j))
            = false :=
  ⟨by decide, C11_search_terminates true 7 14000 (by decide) (by decide) (by decide)⟩

/-! ## The exact inverse: claim C12 -/

/-- C12: for every odd `p` with `3 ≤ p < 2^32` the 32-bit value of `gen_pinv p`
is `⌊2^32 / p⌋ + 1`, the sum does not overflow 32 bits, and it is the least
integer whose product with `p` exceeds `2^32`. -/
theorem C12_gen_pinv_exact (p : Nat) (hodd : p % 2 = 1) (h3 : 3 ≤ p) (hp : p < U32) :
    gen_pinv p = 4294967296 / p + 1 ∧ 4294967295 / p + 1 < U32 ∧
      4294967296 < gen_pinv p * p ∧ ∀ m, 4294967296 < m * p → gen_pinv p ≤ m := by
  have hU : U32 = 4294967296 := rfl
  have hpos : 0 < p := by omega
  have hndvd : ¬ p ∣ 4294967296 := by
    intro hd
    have h2 : p ∣ 2 ^ 32 := by simpa using hd
    obtain ⟨t, _, rfl⟩ := (Nat.dvd_prime_pow Nat.prime_two).1 h2
    rcases t with _ | t
    · simp at h3
    · rw [pow_succ] at hodd; omega
  have hq : 4294967295 / p = 4294967296 / p := by
    have := Nat.succ_div 4294967295 p
    simp only [Nat.succ_eq_add_one, Nat.reduceAdd, if_neg hndvd, Nat.add_zero] at this
    exact this.symm
  have hle : 4294967296 / p ≤ 1431655765 := by
    calc 4294967296 / p ≤ 4294967296 / 3 := Nat.div_le_div_left h3 (by norm_num)
      _ = 1431655765 := by norm_num
  have hval : gen_pinv p = 4294967296 / p + 1 := by
    rw [gen_pinv, add32, hq, hU, Nat.mod_eq_of_lt (by omega)]
  refine ⟨hval, by omega, ?_, ?_⟩
  · rw [hval]
    have := Nat.lt_div_mul_add (a := 4294967296) hpos
    calc 4294967296 < 4294967296 / p * p + p := this
      _ = (4294967296 / p + 1) * p := by ring
  · intro m hm
    rw [hval]
    by_contra hlt
    have hm' : m ≤ 4294967296 / p := by omega
    have : m * p ≤ 4294967296 / p * p := Nat.mul_le_mul_right p hm'
    have := Nat.div_mul_le_self 4294967296 p
    omega

/-- C12, witness: `p = 65537`, where `gen_pinv p = 65536`. -/
theorem C12_gen_pinv_exact_witness :
    gen_pinv 65537 = 65536 ∧
      (gen_pinv 65537 = 4294967296 / 65537 + 1 ∧ 4294967295 / 65537 + 1 < U32 ∧
        4294967296 < gen_pinv 65537 * 65537 ∧ ∀ m, 4294967296 < m * 65537 → gen_pinv 65537 ≤ m) :=
  ⟨by decide, C12_gen_pinv_exact 65537 (by decide) (by decide) (by decide)⟩

/-! ## The side table: claim C14 -/

theorem copyPrimes_loop (base : Nat) (primes : Nat → Nat) (stop : Nat)
    (hfit : base + 2 * stop ≤ U32) :
    ∀ fuel k (mem : Nat → Nat), stop - k ≤ fuel →
      (∀ i, k ≤ i → i < stop →
        forLoop stop 1
          (fun i mem => Function.update mem (add32 base (mul32 2 i)) (primes i))
          fuel k mem (base + 2 * i) = primes i) ∧
      (∀ w, (∀ i, k ≤ i → i < stop → w ≠ base + 2 * i) →
        forLoop stop 1
          (fun i mem => Function.update mem (add32 base (mul32 2 i)) (primes i))
          fuel k mem w = mem w) := by
  have hU : U32 = 4294967296 := rfl
  have hidx : ∀ i, i < stop → add32 base (mul32 2 i) = base + 2 * i := by
    intro i hi
    simp only [add32, mul32, U32] at hfit ⊢
    omega
  intro fuel
  induction fuel with
  | zero =>
    intro k mem hk
    refine ⟨fun i h1 h2 => by omega, fun w _ => rfl⟩
  | succ fuel ih =>
    intro k mem hk
    by_cases hlt : k < stop
    · obtain ⟨ih1, ih2⟩ := ih (k + 1)
        (Function.update mem (add32 base (mul32 2 k)) (primes k)) (by omega)
      simp only [forLoop, if_pos hlt]
      constructor
      · intro i h1 h2
        rcases Nat.eq_or_lt_of_le h1 with h | h
        · subst h
          rw [ih2 _ (fun i h1 _ => by omega), hidx k hlt, Function.update_same]
        · exact ih1 i h h2
      · intro w hw
        rw [ih2 w (fun i h1 h2 => hw i (by omega) h2), hidx k hlt,
          Function.update_noteq (hw k (le_refl k) hlt)]
    · exact ⟨fun i h1 h2 => by omega, fun w _ => by simp only [forLoop, if_neg hlt]⟩

/-- C14: the copy of lines 498-500 fills the side table and nothing else. For
every prime index `i` with `primesNotSieved ≤ i < primeCount` the word
`4 * MAX_PRIMES_PER_THREAD + 2 * i` of `rowinfo` holds `primes[i]`
afterwards; the odd-numbered words of the tail, the words in front of the
tail (the row descriptors) and every other word keep their value. The
hypothesis says that `rowinfo_size` is not a wrapped value. -/
theorem C14_side_table (mc : Bool) (MAX_PRIMES_PER_THREAD primeCount : Nat)
    (primes rowinfo : Nat → Nat)
    (hsize : 16 * MAX_PRIMES_PER_THREAD + 8 * primeCount < U32) :
    (∀ i, primesNotSieved mc ≤ i → i < primeCount →
      copyPrimes mc MAX_PRIMES_PER_THREAD primes primeCount rowinfo
        (4 * MAX_PRIMES_PER_THREAD + 2 * i) = primes i) ∧
    (∀ i, copyPrimes mc MAX_PRIMES_PER_THREAD primes primeCount rowinfo
        (4 * MAX_PRIMES_PER_THREAD + 2 * i + 1)
      = rowinfo (4 * MAX_PRIMES_PER_THREAD + 2 * i + 1)) ∧
    (∀ w, w < 4 * MAX_PRIMES_PER_THREAD →
      copyPrimes mc MAX_PRIMES_PER_THREAD primes primeCount rowinfo w = rowinfo w) ∧
    (∀ w, (∀ i, primesNotSieved mc ≤ i → i < primeCount →
        w ≠ 4 * MAX_PRIMES_PER_THREAD + 2 * i) →
      copyPrimes mc MAX_PRIMES_PER_THREAD primes primeCount rowinfo w = rowinfo w) ∧
    rowinfo_size MAX_PRIMES_PER_THREAD primeCount
      = 4 * (4 * MAX_PRIMES_PER_THREAD + 2 * primeCount) := by
  have hU : U32 = 4294967296 := rfl
  have hbase : mul32 MAX_PRIMES_PER_THREAD 4 = 4 * MAX_PRIMES_PER_THREAD := by
    simp only [mul32, U32] at hsize ⊢
    omega
  obtain ⟨h1, h2⟩ := copyPrimes_loop (4 * MAX_PRIMES_PER_THREAD) primes primeCount (by omega)
    primeCount (primesNotSieved mc) rowinfo (by omega)
  have hdef : copyPrimes mc MAX_PRIMES_PER_THREAD primes primeCount rowinfo
      = forLoop primeCount 1
          (fun i mem => Function.update mem (add32 (4 * MAX_PRIMES_PER_THREAD) (mul32 2 i))
            (primes i))
          primeCount (primesNotSieved mc) rowinfo := by
    rw [copyPrimes, hbase]
  rw [hdef]
  refine ⟨h1, fun i => h2 _ (fun j _ _ => by omega), fun w hw => h2 _ (fun j _ _ => by omega),
    h2, ?_⟩
  simp only [rowinfo_size, add32, mul32, U32] at hsize ⊢
  omega

/-- C14, witness: 310 primes and room for 4224 rows. -/
theorem C14_side_table_witness :
    (∀ i, primesNotSieved true ≤ i → i < 310 →
      copyPrimes true 4224 (fun k => 2 * k + 1) 310 (fun _ => 0) (4 * 4224 + 2 * i)
        = 2 * i + 1) ∧
    (∀ i, copyPrimes true 4224 (fun k => 2 * k + 1) 310 (fun _ => 0) (4 * 4224 + 2 * i + 1)
      = 0) ∧
    (∀ w, w < 4 * 4224 →
      copyPrimes true 4224 (fun k => 2 * k + 1) 310 (fun _ => 0) w = 0) ∧
    (∀ w, (∀ i, primesNotSieved true ≤ i → i < 310 → w ≠ 4 * 4224 + 2 * i) →
      copyPrimes true 4224 (fun k => 2 * k + 1) 310 (fun _ => 0) w = 0) ∧
    rowinfo_size 4224 310 = 4 * (4 * 4224 + 2 * 310) :=
  C14_side_table true 4224 310 (fun k => 2 * k + 1) (fun _ => 0) (by decide)

/-! ## More primes than asked for: claim C15 -/

theorem length_primesBelow_odd (R : Nat) (hR : 1 ≤ R) : (primesBelow (2 * R + 1)).length ≤ R := by
  induction R with
  | zero => omega
  | succ R ih =>
    rcases Nat.eq_zero_or_pos R with h0 | hpos
    · subst h0; decide
    · rw [primesBelow_odd_step R hpos, List.length_append]
      have := ih hpos
      split
      · simp only [List.length_singleton]; omega
      · simp only [List.length_nil]; omega

/-- From 14 primes on, `tiny_soe` stores exactly the primes asked for: the
loop of lines 131-140 stores fewer than `limit` primes, and the loop of lines
143-148 stops at `limit`. -/
theorem tiny_soe_length (N : Nat) (h14 : 14 ≤ N) (h2 : 40 * N ≤ 2 ^ 30) :
    ∃ primes, tiny_soe N = some primes ∧ primes.length = N := by
  obtain ⟨m, ht, _, hlen⟩ := tiny_soe_spec N (by omega) h2
  refine ⟨_, ht, hlen ?_⟩
  by_cases h40 : 40 ≤ N
  · have hs : Nat.sqrt (40 * N) ≤ N := by
      calc Nat.sqrt (40 * N) ≤ Nat.sqrt (N * N) := Nat.sqrt_le_sqrt (Nat.mul_le_mul_right N h40)
        _ = N := Nat.sqrt_eq N
    have h1 : 1 ≤ Nat.sqrt (40 * N) := by
      rw [Nat.le_sqrt]; omega
    exact le_trans (length_primesBelow_odd _ h1) hs
  · have hstep : ∀ s c : Nat, 40 * N < (s + 1) ^ 2 → (primesBelow (2 * s + 1)).length = c →
        c ≤ N → (primesBelow (2 * Nat.sqrt (40 * N) + 1)).length ≤ N := by
      intro s c hs hc hcN
      have hle : Nat.sqrt (40 * N) ≤ s := Nat.lt_succ_iff.1 (Nat.sqrt_lt'.2 hs)
      exact le_trans (primesBelow_mono_length (by omega)) (hc ▸ hcN)
    rcases Nat.lt_or_ge N 15 with h | h
    · exact hstep 23 14 (by norm_num; omega) (by decide!) (by omega)
    rcases Nat.lt_or_ge N 16 with h' | h'
    · exact hstep 24 15 (by norm_num; omega) (by decide!) (by omega)
    rcases Nat.lt_or_ge N 22 with h'' | h''
    · exact hstep 28 16 (by norm_num; omega) (by decide!) (by omega)
    · exact hstep 39 21 (by norm_num; omega) (by decide!) (by omega)

set_option maxRecDepth 100000 in
/-- C15 fails on the code for small `N`: asked for one prime, `tiny_soe`
stores five, at the indices 0 to 4 of an array of one entry, and asked for
13 primes it stores 14. The loop of lines 131-140 stores every prime below
twice the square root of `40 * limit` without the test `it < limit` of the
loop of lines 143-148. -/
theorem C15_stores_past_the_end :
    tiny_soe 1 = some [2, 3, 5, 7, 11] ∧
      tiny_soe 13 = some [2, 3, 5, 7, 11, 13, 17, 19, 23, 29, 31, 37, 41, 43] ∧
      ¬ (∀ N primes, 1 ≤ N → tiny_soe N = some primes → primes.length = N) := by
  have h1 : tiny_soe 1 = some [2, 3, 5, 7, 11] := by decide!
  refine ⟨h1, by decide!, fun h => ?_⟩
  exact absurd (h 1 _ (le_refl 1) h1) (by decide)

/-! ## The one-time flag: claim C16 -/

theorem gpusieve_init_buffers_flag (mc : Bool) (M : Nat) (env : InitEnv) (g : Global)
    (code : Int) (g1 : Global)
    (h : gpusieve_init_buffers mc M env g = some (code, g1)) :
    g1.gpusieve_initialized = g.gpusieve_initialized := by
  unfold gpusieve_init_buffers at h
  simp only at h
  split at h
  · exact absurd h (by simp)
  · split at h
    · exact absurd h (by simp)
    · split at h
      · exact absurd h (by simp)
      · split at h
        · exact absurd h (by simp)
        · split at h
          · simp only [Option.some.injEq, Prod.mk.injEq] at h
            rw [← h.2]; rfl
          · split at h
            · simp only [Option.some.injEq, Prod.mk.injEq] at h
              rw [← h.2]; rfl
            · simp only [Option.some.injEq, Prod.mk.injEq] at h
              rw [← h.2]; rfl

theorem gpusieve_init_flag (mc : Bool) (M fuel : Nat) (env : InitEnv) (g : Global)
    (code : Int) (g1 : Global) (h : gpusieve_init mc M fuel env g = some (code, g1)) :
    g1.gpusieve_initialized = true := by
  unfold gpusieve_init at h
  by_cases hflag : g.gpusieve_initialized = true
  · simp only [hflag, if_true, Option.some.injEq, Prod.mk.injEq] at h
    rw [← h.2]; exact hflag
  · simp only [hflag, Bool.false_eq_true, if_false] at h
    split at h
    · simp only [Option.some.injEq, Prod.mk.injEq] at h
      rw [← h.2]; rfl
    · split at h
      · simp only [Option.some.injEq, Prod.mk.injEq] at h
        rw [← h.2]; rfl
      · split at h
        · exact absurd h (by simp)
        · rw [gpusieve_init_buffers_flag _ _ _ _ _ _ h]; rfl

theorem gpusieve_init_again (mc : Bool) (M fuel : Nat) (env : InitEnv) (g : Global)
    (h : g.gpusieve_initialized = true) : gpusieve_init mc M fuel env g = some (0, g) := by
  unfold gpusieve_init
  simp only [h, if_true]

theorem gpusieve_init_calls_again (mc : Bool) (M fuel : Nat) :
    ∀ (envs : List InitEnv) (g : Global), g.gpusieve_initialized = true →
      gpusieve_init_calls mc M fuel envs g = some (List.replicate envs.length 0, g) := by
  intro envs
  induction envs with
  | nil => intro g _; rfl
  | cons env rest ih =>
    intro g hg
    simp only [gpusieve_init_calls, gpusieve_init_again mc M fuel env g hg, ih g hg,
      List.length_cons, List.replicate_succ]

/-- C16: `gpusieve_init` does its work once. When a call returns, the flag is
set, and every later call of any sequence returns 0 and leaves the whole state
unchanged: the run context, `primes_per_thread` and the record of the calls to
the allocator and to OpenCL. A sequence of calls therefore returns the value
of its first call followed by zeros and ends in the state that the first call
left. The other host functions do not touch the flag. -/
theorem C16_init_runs_once (mc : Bool) (MAX_PRIMES_PER_THREAD fuel : Nat) (env : InitEnv)
    (envs : List InitEnv) (g : Global) (code : Int) (g1 : Global)
    (hfirst : gpusieve_init mc MAX_PRIMES_PER_THREAD fuel env g = some (code, g1)) :
    g1.gpusieve_initialized = true ∧
      (∀ later : InitEnv,
        gpusieve_init mc MAX_PRIMES_PER_THREAD fuel later g1 = some (0, g1)) ∧
      gpusieve_init_calls mc MAX_PRIMES_PER_THREAD fuel (env :: envs) g
        = some (code :: List.replicate envs.length 0, g1) ∧
      (g.gpusieve_initialized = true → code = 0 ∧ g1 = g) ∧
      (∀ (h : Global) (n : Nat) (status : Buffer → Int),
        (gpusieve_init_exponent h).gpusieve_initialized = h.gpusieve_initialized ∧
          (gpusieve h n).gpusieve_initialized = h.gpusieve_initialized ∧
          (gpusieve_free status h).2.gpusieve_initialized = h.gpusieve_initialized) := by
  have hflag := gpusieve_init_flag mc MAX_PRIMES_PER_THREAD fuel env g code g1 hfirst
  refine ⟨hflag, fun later => gpusieve_init_again _ _ _ later g1 hflag, ?_, ?_, ?_⟩
  · simp only [gpusieve_init_calls, hfirst,
      gpusieve_init_calls_again mc MAX_PRIMES_PER_THREAD fuel envs g1 hflag]
  · intro hg
    rw [gpusieve_init_again mc MAX_PRIMES_PER_THREAD fuel env g hg] at hfirst
    simp only [Option.some.injEq, Prod.mk.injEq] at hfirst
    exact ⟨hfirst.1.symm, hfirst.2.symm⟩
  · intro h n status
    refine ⟨?_, rfl, ?_⟩
    · unfold gpusieve_init_exponent
      split <;> rfl
    · unfold gpusieve_free
      simp only
      split
      · rfl
      · split
        · rfl
        · split <;> rfl

/-- When every allocation succeeds, the first call of `gpusieve_init` returns
0: four turns of the search loop are enough and `tiny_soe` stays inside its
flags. -/
theorem gpusieve_init_returns (mc : Bool) (M fuel : Nat) (env : InitEnv) (g : Global)
    (hflag : g.gpusieve_initialized = false) (hfuel : 4 ≤ fuel)
    (h54 : 54 ≤ g.mystuff.gpu_sieve_primes)
    (hB : 40 * (g.mystuff.gpu_sieve_primes + 768) ≤ 2 ^ 30)
    (h1 : env.malloc_bitarray = true) (h2 : env.status_bitarray = CL_SUCCESS)
    (h3 : env.malloc_primes = true) (h4 : env.malloc_pinfo = true)
    (h5 : env.malloc_rowinfo = true) (h6 : env.status_sieve_info = CL_SUCCESS)
    (h7 : env.status_calc_bit_to_clear_info = CL_SUCCESS) :
    ∃ g1, gpusieve_init mc M fuel env g = some (0, g1) := by
  have hU : U32 = 4294967296 := rfl
  obtain ⟨k, hk, hs, _, _⟩ := crossoverSearch_spec mc fuel g.mystuff.gpu_sieve_primes hfuel h54
    (by omega)
  obtain ⟨m, ht, _, _⟩ := tiny_soe_spec
    (54 + 256 * ((g.mystuff.gpu_sieve_primes - 54) / 256 + k)) (by omega) (by omega)
  unfold gpusieve_init
  simp only [hflag, Bool.false_eq_true, if_false, h1, Bool.not_true, h2, ne_eq,
    not_true_eq_false, Global.call, hs]
  unfold gpusieve_init_buffers
  simp only [ht, h3, h4, h5, h6, h7, Bool.not_true, Bool.false_eq_true, if_false, ne_eq,
    not_true_eq_false, Option.some.injEq, Prod.mk.injEq, true_and, exists_eq']

/-- C16, witness: a first call with the budget 54, every allocation
succeeding, returns 0; three more calls return 0 and change nothing. -/
theorem C16_init_runs_once_witness :
    ∃ g1,
      gpusieve_init true 4224 4 ⟨true, 0, true, true, true, 0, 0⟩
          ⟨⟨1048576, 54, 0, none, none, none, none, none, none⟩, 0, false, 0, []⟩
        = some (0, g1) ∧
      g1.gpusieve_initialized = true ∧
      (∀ later : InitEnv, gpusieve_init true 4224 4 later g1 = some (0, g1)) ∧
      gpusieve_init_calls true 4224 4
          [⟨true, 0, true, true, true, 0, 0⟩, ⟨false, 1, false, false, false, 1, 1⟩,
            ⟨true, 0, true, true, true, 0, 0⟩, ⟨true, 0, true, true, true, 0, 0⟩]
          ⟨⟨1048576, 54, 0, none, none, none, none, none, none⟩, 0, false, 0, []⟩
        = some ([0, 0, 0, 0], g1) := by
  obtain ⟨g1, hfirst⟩ := gpusieve_init_returns true 4224 4 ⟨true, 0, true, true, true, 0, 0⟩
    ⟨⟨1048576, 54, 0, none, none, none, none, none, none⟩, 0, false, 0, []⟩
    rfl (by decide) (by decide) (by decide) rfl rfl rfl rfl rfl rfl rfl
  obtain ⟨h1, h2, h3, _⟩ := C16_init_runs_once true 4224 4 ⟨true, 0, true, true, true, 0, 0⟩
    [⟨false, 1, false, false, false, 1, 1⟩, ⟨true, 0, true, true, true, 0, 0⟩,
      ⟨true, 0, true, true, true, 0, 0⟩]
    ⟨⟨1048576, 54, 0, none, none, none, none, none, none⟩, 0, false, 0, []⟩ 0 g1 hfirst
  exact ⟨g1, hfirst, h1, h2, h3⟩

/-! ## The memo of the last exponent: claim C17 -/

/-- C17, as stated, fails at the exponent 0: the memo starts at 0, so the
first call with the exponent 0 already finds it and the kernel is not invoked
at all, where the claim has one invocation. -/
theorem C17_counterexample :
    (gpusieve_init_exponent
        ((gpusieve_init_exponent
          (Global.setExponent
            ⟨⟨1048576, 310, 0, none, none, none, none, none, none⟩, 1, true, 0, []⟩ 0)).setExponent
          0)).trace = [] ∧
      (gpusieve_init_exponent
        (Global.setExponent
          ⟨⟨1048576, 310, 0, none, none, none, none, none, none⟩, 1, true, 0, []⟩ 0)).trace
        ≠ [Call.run_calc_mod_inv 2 256] := by
  constructor
  · rfl
  · intro h
    exact absurd (congrArg List.length h) (by decide)

/-- C17, amended to exponents other than 0: starting from the initial memo,
the first call with the exponent `p` invokes the modular-inverse kernel, the
second call with `p` changes nothing, and a following call with an exponent
`q ≠ p` invokes the kernel again; each invocation is over
`primes_per_thread + 1` groups of 256 lanes. -/
theorem C17_exponent_memo (g : Global) (p q : Nat) (hinit : g.last_exponent_initialized = 0)
    (hp : p ≠ 0) (hq : q ≠ p) (hppt : g.primes_per_thread + 1 < U32) :
    (gpusieve_init_exponent (g.setExponent p)).trace
        = g.trace ++ [Call.run_calc_mod_inv (g.primes_per_thread + 1) 256] ∧
      gpusieve_init_exponent ((gpusieve_init_exponent (g.setExponent p)).setExponent p)
        = gpusieve_init_exponent (g.setExponent p) ∧
      (gpusieve_init_exponent
          ((gpusieve_init_exponent
            ((gpusieve_init_exponent (g.setExponent p)).setExponent p)).setExponent q)).trace
        = g.trace ++ [Call.run_calc_mod_inv (g.primes_per_thread + 1) 256,
            Call.run_calc_mod_inv (g.primes_per_thread + 1) 256] ∧
      (gpusieve_init_exponent (g.setExponent p)).last_exponent_initialized = p := by
  have hgroups : add32 g.primes_per_thread 1 = g.primes_per_thread + 1 := by
    rw [add32, Nat.mod_eq_of_lt hppt]
  have hfirst : gpusieve_init_exponent (g.setExponent p)
      = { g with
          mystuff := { g.mystuff with exponent := p }
          last_exponent_initialized := p
          trace := g.trace ++ [Call.run_calc_mod_inv (g.primes_per_thread + 1) 256] } := by
    simp only [gpusieve_init_exponent, Global.setExponent, hinit, hp, if_false, Global.call,
      hgroups, threadsPerBlock]
  have hsecond : gpusieve_init_exponent ((gpusieve_init_exponent (g.setExponent p)).setExponent p)
      = gpusieve_init_exponent (g.setExponent p) := by
    rw [hfirst]
    simp only [gpusieve_init_exponent, Global.setExponent, if_true]
  refine ⟨by rw [hfirst], hsecond, ?_, by rw [hfirst]⟩
  rw [hsecond, hfirst]
  simp only [gpusieve_init_exponent, Global.setExponent, hq, if_false, Global.call, hgroups,
    threadsPerBlock, List.append_assoc, List.singleton_append]

/-- C17, witness: the exponents 86243 and 110503 with one row per thread. -/
theorem C17_exponent_memo_witness :
    (gpusieve_init_exponent
        (Global.setExponent
          ⟨⟨1048576, 310, 0, none, none, none, none, none, none⟩, 1, true, 0, []⟩ 86243)).trace
      = [Call.run_calc_mod_inv 2 256] :=
  (C17_exponent_memo ⟨⟨1048576, 310, 0, none, none, none, none, none, none⟩, 1, true, 0, []⟩
    86243 110503 rfl (by decide) (by decide) (by decide)).1

/-! ## The size of a sieve segment: claim C18 -/

/-- C18: for a bitmap capacity below `2^31` bits and a 64-bit `num_k_remaining`
the sieve kernel is launched over `⌈min (capacity, num_k_remaining) / 65536⌉`
groups of 256 lanes, where 65536 is `block_size = 8192 * 8`. The count is the
least `n` with `min (capacity, num_k_remaining) ≤ 65536 * n`; it comes from
`num_k_remaining` when that is below the capacity and is 0 when nothing
remains. -/
theorem C18_segment_groups (g : Global) (num_k_remaining : Nat)
    (hcap : g.mystuff.gpu_sieve_size < 2 ^ 31) (_hk : num_k_remaining < 2 ^ 64) :
    gpusieve g num_k_remaining
        = g.call (Call.run_cl_sieve
            ((min g.mystuff.gpu_sieve_size num_k_remaining + 65535) / 65536) 256
            g.primes_per_thread) ∧
      block_size = 8192 * 8 ∧ block_size = 65536 ∧
      (∀ n, (min g.mystuff.gpu_sieve_size num_k_remaining + 65535) / 65536 ≤ n ↔
        min g.mystuff.gpu_sieve_size num_k_remaining ≤ 65536 * n) ∧
      (num_k_remaining < g.mystuff.gpu_sieve_size →
        (min g.mystuff.gpu_sieve_size num_k_remaining + 65535) / 65536
          = (num_k_remaining + 65535) / 65536) ∧
      (num_k_remaining = 0 →
        (min g.mystuff.gpu_sieve_size num_k_remaining + 65535) / 65536 = 0) := by
  have hbs : block_size = 65536 := by decide
  refine ⟨?_, by decide, hbs, fun n => by omega, fun h => by rw [Nat.min_eq_right (by omega)],
    fun h => by subst h; simp⟩
  have hv : sub32 (add32 (if g.mystuff.gpu_sieve_size < num_k_remaining
        then g.mystuff.gpu_sieve_size % U32 else num_k_remaining % U32) 65536) 1 / 65536
      = (min g.mystuff.gpu_sieve_size num_k_remaining + 65535) / 65536 := by
    by_cases hlt : g.mystuff.gpu_sieve_size < num_k_remaining
    · simp only [if_pos hlt, sub32, add32, U32]
      rw [Nat.min_eq_left (by omega)]
      omega
    · simp only [if_neg hlt, sub32, add32, U32]
      rw [Nat.min_eq_right (by omega)]
      omega
  unfold gpusieve
  simp only [hbs, threadsPerBlock]
  rw [hv]

/-- C18, witness: a bitmap of 1048576 bits and 100000 candidates left give
2 groups. -/
theorem C18_segment_groups_witness :
    gpusieve ⟨⟨1048576, 310, 0, none, none, none, none, none, none⟩, 1, true, 0, []⟩ 100000
      = Global.call ⟨⟨1048576, 310, 0, none, none, none, none, none, none⟩, 1, true, 0, []⟩
          (Call.run_cl_sieve 2 256 1) :=
  (C18_segment_groups ⟨⟨1048576, 310, 0, none, none, none, none, none, none⟩, 1, true, 0, []⟩
    100000 (by decide) (by decide)).1

/-! ## Releasing the buffers: claim C19 -/

/-- C19: `gpusieve_free` releases the bitmap, then the calc-bit-to-clear info,
then the sieve info, and frees the host mirror of a buffer right after its
release succeeded. It returns 0 exactly when the three releases succeed; when
a release fails it returns 1 with nothing attempted after that release, so
that the mirrors of the buffers before it are freed and those of the failed
buffer and of the later ones are not. -/
theorem C19_free_stops_at_first_failure (status : Buffer → Int) (g : Global) :
    ((gpusieve_free status g).1 = 0 ↔ ∀ b, status b = CL_SUCCESS) ∧
      ((gpusieve_free status g).1 ≠ 0 → (gpusieve_free status g).1 = 1) ∧
      (status .bitarray ≠ CL_SUCCESS →
        gpusieve_free status g
          = (1, { g with trace := g.trace ++ [Call.clReleaseMemObject .bitarray] })) ∧
      (status .bitarray = CL_SUCCESS → status .calc_bit_to_clear_info ≠ CL_SUCCESS →
        gpusieve_free status g
          = (1, { g with trace := g.trace ++ [Call.clReleaseMemObject .bitarray,
              Call.free .bitarray, Call.clReleaseMemObject .calc_bit_to_clear_info] })) ∧
      (status .bitarray = CL_SUCCESS → status .calc_bit_to_clear_info = CL_SUCCESS →
        status .sieve_info ≠ CL_SUCCESS →
        gpusieve_free status g
          = (1, { g with trace := g.trace ++ [Call.clReleaseMemObject .bitarray,
              Call.free .bitarray, Call.clReleaseMemObject .calc_bit_to_clear_info,
              Call.free .calc_bit_to_clear_info, Call.clReleaseMemObject .sieve_info] })) ∧
      (status .bitarray = CL_SUCCESS → status .calc_bit_to_clear_info = CL_SUCCESS →
        status .sieve_info = CL_SUCCESS →
        gpusieve_free status g
          = (0, { g with trace := g.trace ++ [Call.clReleaseMemObject .bitarray,
              Call.free .bitarray, Call.clReleaseMemObject .calc_bit_to_clear_info,
              Call.free .calc_bit_to_clear_info, Call.clReleaseMemObject .sieve_info,
              Call.free .sieve_info] })) := by
  have hall : (∀ b, status b = CL_SUCCESS) ↔
      status .bitarray = CL_SUCCESS ∧ status .calc_bit_to_clear_info = CL_SUCCESS ∧
        status .sieve_info = CL_SUCCESS :=
    ⟨fun h => ⟨h _, h _, h _⟩, fun h b => by cases b; exact h.1; exact h.2.1; exact h.2.2⟩
  rw [hall]
  by_cases h1 : status .bitarray = CL_SUCCESS
  · by_cases h2 : status .calc_bit_to_clear_info = CL_SUCCESS
    · by_cases h3 : status .sieve_info = CL_SUCCESS
      · simp [gpusieve_free, Global.call, h1, h2, h3]
      · simp [gpusieve_free, Global.call, h1, h2, h3]
    · simp [gpusieve_free, Global.call, h1, h2]
  · simp [gpusieve_free, Global.call, h1]

/-! ## The stores of the encoder through the rows -/

/-- The stores of a `for` loop whose body adds the stores `E k` in the turn
with counter `k`: with enough fuel, the turns are those of the counters
`k + step * t` below `stop`. -/
theorem words_forLoop (P : Encoder → Prop) (E : Nat → Nat × Nat → Prop) (stop step : Nat)
    (hstep : 1 ≤ step) (body : Nat → Encoder → Encoder)
    (hP : ∀ k t, P t → P (body k t))
    (hE : ∀ k t, P t → ∀ x, x ∈ (body k t).words ↔ x ∈ t.words ∨ E k x) :
    ∀ fuel k s, stop - k ≤ fuel → P s →
      ∀ x, x ∈ (forLoop stop step body fuel k s).words ↔
        x ∈ s.words ∨ ∃ t, k + step * t < stop ∧ E (k + step * t) x := by
  intro fuel
  induction fuel with
  | zero =>
    intro k s hk _ x
    simp only [forLoop]
    constructor
    · exact Or.inl
    · rintro (h | ⟨t, ht, _⟩)
      · exact h
      · omega
  | succ fuel ih =>
    intro k s hk hs x
    by_cases hlt : k < stop
    · rw [forLoop, if_pos hlt, ih (k + step) (body k s) (by omega) (hP k s hs) x, hE k s hs x]
      constructor
      · rintro ((h | h) | ⟨t, ht, hx⟩)
        · exact Or.inl h
        · exact Or.inr ⟨0, by simpa using hlt, by simpa using h⟩
        · refine Or.inr ⟨t + 1, ?_, ?_⟩
          · rw [Nat.mul_add, Nat.mul_one]; omega
          · rw [Nat.mul_add, Nat.mul_one, ← Nat.add_assoc, Nat.add_right_comm k _ step]
            exact hx
      · rintro (h | ⟨t, ht, hx⟩)
        · exact Or.inl (Or.inl h)
        · cases t with
          | zero => exact Or.inl (Or.inr (by simpa using hx))
          | succ t =>
            rw [Nat.mul_add, Nat.mul_one, ← Nat.add_assoc, Nat.add_right_comm k _ step] at ht hx
            exact Or.inr ⟨t, ht, hx⟩
    · rw [forLoop, if_neg hlt]
      constructor
      · exact Or.inl
      · rintro (h | ⟨t, ht, _⟩)
        · exact h
        · omega

theorem words_store (s : Encoder) (a v : Nat) (x : Nat × Nat) :
    x ∈ (s.store a v).words ↔ x ∈ s.words ∨ x = (a, v) := by
  simp only [Encoder.store, List.mem_cons]
  tauto

theorem words_deltaEntry (pinv : Nat → Nat) (maxinv shift : Nat) (primes : Nat → Nat)
    (index back addr : Nat) (s : Encoder) (x : Nat × Nat) :
    x ∈ (deltaEntry pinv maxinv shift primes index back addr s).words ↔
      x ∈ s.words ∨ x = (addr, deltaWord pinv shift primes index back) := by
  unfold deltaEntry
  simp only
  split
  · rw [words_store]; rfl
  · rw [words_store]; rfl

theorem words_row16 (primes : Nat → Nat) (s : Encoder) (x : Nat × Nat) :
    x ∈ (row16 primes s).words ↔ x ∈ s.words ∨ Stored16 primes s.pinfo s.i x := by
  have h := words_forLoop (fun t => t.pinfo = s.pinfo ∧ t.i = s.i)
    (fun j x => x = (s.pinfo + 4 * j, add32 (shl32 (primes (s.i + j)) 16) 0) ∨
      x = (s.pinfo + 4 * (j + 256), gen_pinv (primes (s.i + j))))
    threadsPerBlock 1 (le_refl 1)
    (fun j t =>
      (t.store (t.pinfo + 4 * j) (add32 (shl32 (primes (t.i + j)) 16) 0)).store
        (t.pinfo + 4 * (j + threadsPerBlock)) (gen_pinv (primes (t.i + j))))
    (fun j t ht => ht)
    (fun j t ht x => by
      rw [words_store, words_store, ht.1, ht.2]
      simp only [threadsPerBlock, or_assoc])
    threadsPerBlock 0 (s.pushRow ⟨s.pinfo % U32, s.i, 1, 0xFFFF0000⟩) (by omega) ⟨rfl, rfl⟩ x
  unfold row16
  rw [h]
  simp only [Encoder.pushRow, threadsPerBlock, Nat.zero_add, Nat.one_mul, Stored16]

theorem words_row32 (primes : Nat → Nat) (s : Encoder) (x : Nat × Nat) :
    x ∈ (row32 primes s).words ↔ x ∈ s.words ∨ Stored32 gen_pinv primes s.pinfo s.i 1 x := by
  have h := words_forLoop (fun t => t.pinfo = s.pinfo ∧ t.i = s.i)
    (fun j x => x = (s.pinfo + 4 * j, 0) ∨
      x = (s.pinfo + 4 * (j + 256), gen_pinv (primes (s.i + j))) ∨
      x = (s.pinfo + 4 * (j + 512), primes (s.i + j)))
    threadsPerBlock 1 (le_refl 1)
    (fun j t =>
      ((t.store (t.pinfo + 4 * j) 0).store
        (t.pinfo + 4 * (j + threadsPerBlock)) (gen_pinv (primes (t.i + j)))).store
        (t.pinfo + 4 * (j + threadsPerBlock * 2)) (primes (t.i + j)))
    (fun j t ht => ht)
    (fun j t ht x => by
      rw [words_store, words_store, words_store, ht.1, ht.2]
      simp only [threadsPerBlock, Nat.reduceMul, or_assoc])
    threadsPerBlock 0 (s.pushRow ⟨s.pinfo % U32, s.i, 1, 0⟩) (by omega) ⟨rfl, rfl⟩ x
  unfold row32
  rw [h]
  simp only [Encoder.pushRow, threadsPerBlock, Nat.zero_add, Nat.one_mul, Stored32, Nat.mul_one]

theorem words_rowStrided (pinv primes : Nat → Nat) (lc : Nat) (s : Encoder) (x : Nat × Nat) :
    x ∈ (rowStrided pinv primes lc s).words ↔
      x ∈ s.words ∨ Stored32 pinv primes s.pinfo s.i lc x := by
  have h := words_forLoop (fun t => t.pinfo = s.pinfo ∧ t.i = s.i ∧ t.loop_count = lc)
    (fun j x => x = (s.pinfo + 4 * j, 0) ∨
      x = (s.pinfo + 4 * (j + 256), pinv (primes (s.i + j * lc))) ∨
      x = (s.pinfo + 4 * (j + 512), primes (s.i + j * lc)))
    threadsPerBlock 1 (le_refl 1)
    (fun j t =>
      ((t.store (t.pinfo + 4 * j) 0).store
        (t.pinfo + 4 * (j + threadsPerBlock)) (pinv (primes (t.i + j * t.loop_count)))).store
        (t.pinfo + 4 * (j + threadsPerBlock * 2)) (primes (t.i + j * t.loop_count)))
    (fun j t ht => ht)
    (fun j t ht x => by
      rw [words_store, words_store, words_store, ht.1, ht.2.1, ht.2.2]
      simp only [threadsPerBlock, Nat.reduceMul, or_assoc])
    threadsPerBlock 0 (({ s with loop_count := lc }).pushRow ⟨s.pinfo % U32, s.i, lc, 0⟩)
    (by omega) ⟨rfl, rfl, rfl⟩ x
  unfold rowStrided
  simp only
  rw [h]
  simp only [Encoder.pushRow, threadsPerBlock, Nat.zero_add, Nat.one_mul, Stored32]

theorem words_deltaWords3 (primes : Nat → Nat) (s : Encoder) (x : Nat × Nat) :
    x ∈ (deltaWords3 primes s).words ↔
      x ∈ s.words ∨ StoredDelta gen_pinv 18 primes 3 s.pinfo s.i s.loop_count x := by
  have hinner : ∀ k (t : Encoder), t.cursor = s.cursor → ∀ x,
      x ∈ (forLoop threadsPerBlock 1
        (fun j (u : Encoder) =>
          deltaEntry gen_pinv 127 18 primes (u.i + j * u.loop_count + k + 2) 3
            (u.pinfo + 4 * ((k + 1) * threadsPerBlock + j))
            (deltaEntry gen_pinv 127 18 primes (u.i + j * u.loop_count + k + 1) 2
              (u.pinfo + 4 * (k * threadsPerBlock + j))
              (deltaEntry gen_pinv 127 18 primes (u.i + j * u.loop_count + k) 1
                (u.pinfo + 4 * ((k - 1) * threadsPerBlock + j)) u)))
        threadsPerBlock 0 t).words ↔
      x ∈ t.words ∨ ∃ j, j < 256 ∧
        (x = (s.pinfo + 4 * ((k - 1) * 256 + j),
            deltaWord gen_pinv 18 primes (s.i + j * s.loop_count + k) 1) ∨
          x = (s.pinfo + 4 * (k * 256 + j),
            deltaWord gen_pinv 18 primes (s.i + j * s.loop_count + k + 1) 2) ∨
          x = (s.pinfo + 4 * ((k + 1) * 256 + j),
            deltaWord gen_pinv 18 primes (s.i + j * s.loop_count + k + 2) 3)) := by
    intro k t ht x
    have h := words_forLoop (fun u => u.cursor = s.cursor)
      (fun j x =>
        x = (s.pinfo + 4 * ((k - 1) * 256 + j),
            deltaWord gen_pinv 18 primes (s.i + j * s.loop_count + k) 1) ∨
          x = (s.pinfo + 4 * (k * 256 + j),
            deltaWord gen_pinv 18 primes (s.i + j * s.loop_count + k + 1) 2) ∨
          x = (s.pinfo + 4 * ((k + 1) * 256 + j),
            deltaWord gen_pinv 18 primes (s.i + j * s.loop_count + k + 2) 3))
      threadsPerBlock 1 (le_refl 1)
      (fun j (u : Encoder) =>
          deltaEntry gen_pinv 127 18 primes (u.i + j * u.loop_count + k + 2) 3
            (u.pinfo + 4 * ((k + 1) * threadsPerBlock + j))
            (deltaEntry gen_pinv 127 18 primes (u.i + j * u.loop_count + k + 1) 2
              (u.pinfo + 4 * (k * threadsPerBlock + j))
              (deltaEntry gen_pinv 127 18 primes (u.i + j * u.loop_count + k) 1
                (u.pinfo + 4 * ((k - 1) * threadsPerBlock + j)) u)))
      (fun j u hu => by simp only [cursor_deltaEntry, hu])
      (fun j u hu x => by
        simp only [Encoder.cursor, Prod.mk.injEq] at hu
        rw [words_deltaEntry, words_deltaEntry, words_deltaEntry, hu.1, hu.2.1, hu.2.2.1]
        simp only [threadsPerBlock, or_assoc])
      threadsPerBlock 0 t (by omega) ht x
    rw [h]
    simp only [threadsPerBlock, Nat.zero_add, Nat.one_mul]
  have houter := words_forLoop (fun t => t.cursor = s.cursor)
    (fun k x => ∃ j, j < 256 ∧
        (x = (s.pinfo + 4 * ((k - 1) * 256 + j),
            deltaWord gen_pinv 18 primes (s.i + j * s.loop_count + k) 1) ∨
          x = (s.pinfo + 4 * (k * 256 + j),
            deltaWord gen_pinv 18 primes (s.i + j * s.loop_count + k + 1) 2) ∨
          x = (s.pinfo + 4 * ((k + 1) * 256 + j),
            deltaWord gen_pinv 18 primes (s.i + j * s.loop_count + k + 2) 3)))
    s.loop_count 3 (by omega)
    (fun k (t : Encoder) =>
      forLoop threadsPerBlock 1
        (fun j (u : Encoder) =>
          deltaEntry gen_pinv 127 18 primes (u.i + j * u.loop_count + k + 2) 3
            (u.pinfo + 4 * ((k + 1) * threadsPerBlock + j))
            (deltaEntry gen_pinv 127 18 primes (u.i + j * u.loop_count + k + 1) 2
              (u.pinfo + 4 * (k * threadsPerBlock + j))
              (deltaEntry gen_pinv 127 18 primes (u.i + j * u.loop_count + k) 1
                (u.pinfo + 4 * ((k - 1) * threadsPerBlock + j)) u)))
        threadsPerBlock 0 t)
    (fun k t ht => by
      refine forLoop_invariant (fun u : Encoder => u.cursor = s.cursor) _ _ _ ?_ _ _ _ ht
      intro j u hu
      simp only [cursor_deltaEntry, hu])
    (fun k t ht x => hinner k t ht x)
    s.loop_count 1 s (by omega) rfl x
  unfold deltaWords3
  simp only
  rw [houter]
  refine or_congr Iff.rfl ?_
  unfold StoredDelta
  constructor
  · rintro ⟨t, ht, j, hj, h | h | h⟩
    · exact ⟨t, j, 0, ht, hj, by omega, by rw [h]; exact Prod.ext (by simp only; omega) rfl⟩
    · exact ⟨t, j, 1, ht, hj, by omega, by rw [h]; exact Prod.ext (by simp only; omega) rfl⟩
    · exact ⟨t, j, 2, ht, hj, by omega, by rw [h]; exact Prod.ext (by simp only; omega) rfl⟩
  · rintro ⟨t, j, e, ht, hj, he, h⟩
    refine ⟨t, ht, j, hj, ?_⟩
    rcases e with _ | _ | _ | e
    · exact Or.inl (by rw [h]; exact Prod.ext (by simp only; omega) rfl)
    · exact Or.inr (Or.inl (by rw [h]; exact Prod.ext (by simp only; omega) rfl))
    · exact Or.inr (Or.inr (by rw [h]; exact Prod.ext (by simp only; omega) rfl))
    · omega

theorem words_deltaWords4 (maxinv shift : Nat) (primes : Nat → Nat) (s : Encoder)
    (x : Nat × Nat) :
    x ∈ (deltaWords4 maxinv shift primes s).words ↔
      x ∈ s.words ∨ StoredDelta gen_sloppy_pinv shift primes 4 s.pinfo s.i s.loop_count x := by
  have hinner : ∀ k (t : Encoder), t.cursor = s.cursor → ∀ x,
      x ∈ (forLoop threadsPerBlock 1
        (fun j (u : Encoder) =>
          deltaEntry gen_sloppy_pinv maxinv shift primes (u.i + j * u.loop_count + k + 3) 4
            (u.pinfo + 4 * ((k + 2) * threadsPerBlock + j))
            (deltaEntry gen_sloppy_pinv maxinv shift primes (u.i + j * u.loop_count + k + 2) 3
              (u.pinfo + 4 * ((k + 1) * threadsPerBlock + j))
              (deltaEntry gen_sloppy_pinv maxinv shift primes (u.i + j * u.loop_count + k + 1) 2
                (u.pinfo + 4 * (k * threadsPerBlock + j))
                (deltaEntry gen_sloppy_pinv maxinv shift primes (u.i + j * u.loop_count + k) 1
                  (u.pinfo + 4 * ((k - 1) * threadsPerBlock + j)) u))))
        threadsPerBlock 0 t).words ↔
      x ∈ t.words ∨ ∃ j, j < 256 ∧
        (x = (s.pinfo + 4 * ((k - 1) * 256 + j),
            deltaWord gen_sloppy_pinv shift primes (s.i + j * s.loop_count + k) 1) ∨
          x = (s.pinfo + 4 * (k * 256 + j),
            deltaWord gen_sloppy_pinv shift primes (s.i + j * s.loop_count + k + 1) 2) ∨
          x = (s.pinfo + 4 * ((k + 1) * 256 + j),
            deltaWord gen_sloppy_pinv shift primes (s.i + j * s.loop_count + k + 2) 3) ∨
          x = (s.pinfo + 4 * ((k + 2) * 256 + j),
            deltaWord gen_sloppy_pinv shift primes (s.i + j * s.loop_count + k + 3) 4)) := by
    intro k t ht x
    have h := words_forLoop (fun u => u.cursor = s.cursor)
      (fun j x =>
        x = (s.pinfo + 4 * ((k - 1) * 256 + j),
            deltaWord gen_sloppy_pinv shift primes (s.i + j * s.loop_count + k) 1) ∨
          x = (s.pinfo + 4 * (k * 256 + j),
            deltaWord gen_sloppy_pinv shift primes (s.i + j * s.loop_count + k + 1) 2) ∨
          x = (s.pinfo + 4 * ((k + 1) * 256 + j),
            deltaWord gen_sloppy_pinv shift primes (s.i + j * s.loop_count + k + 2) 3) ∨
          x = (s.pinfo + 4 * ((k + 2) * 256 + j),
            deltaWord gen_sloppy_pinv shift primes (s.i + j * s.loop_count + k + 3) 4))
      threadsPerBlock 1 (le_refl 1)
      (fun j (u : Encoder) =>
          deltaEntry gen_sloppy_pinv maxinv shift primes (u.i + j * u.loop_count + k + 3) 4
            (u.pinfo + 4 * ((k + 2) * threadsPerBlock + j))
            (deltaEntry gen_sloppy_pinv maxinv shift primes (u.i + j * u.loop_count + k + 2) 3
              (u.pinfo + 4 * ((k + 1) * threadsPerBlock + j))
              (deltaEntry gen_sloppy_pinv maxinv shift primes (u.i + j * u.loop_count + k + 1) 2
                (u.pinfo + 4 * (k * threadsPerBlock + j))
                (deltaEntry gen_sloppy_pinv maxinv shift primes (u.i + j * u.loop_count + k) 1
                  (u.pinfo + 4 * ((k - 1) * threadsPerBlock + j)) u))))
      (fun j u hu => by simp only [cursor_deltaEntry, hu])
      (fun j u hu x => by
        simp only [Encoder.cursor, Prod.mk.injEq] at hu
        rw [words_deltaEntry, words_deltaEntry, words_deltaEntry, words_deltaEntry,
          hu.1, hu.2.1, hu.2.2.1]
        simp only [threadsPerBlock, or_assoc])
      threadsPerBlock 0 t (by omega) ht x
    rw [h]
    simp only [threadsPerBlock, Nat.zero_add, Nat.one_mul]
  have houter := words_forLoop (fun t => t.cursor = s.cursor)
    (fun k x => ∃ j, j < 256 ∧
        (x = (s.pinfo + 4 * ((k - 1) * 256 + j),
            deltaWord gen_sloppy_pinv shift primes (s.i + j * s.loop_count + k) 1) ∨
          x = (s.pinfo + 4 * (k * 256 + j),
            deltaWord gen_sloppy_pinv shift primes (s.i + j * s.loop_count + k + 1) 2) ∨
          x = (s.pinfo + 4 * ((k + 1) * 256 + j),
            deltaWord gen_sloppy_pinv shift primes (s.i + j * s.loop_count + k + 2) 3) ∨
          x = (s.pinfo + 4 * ((k + 2) * 256 + j),
            deltaWord gen_sloppy_pinv shift primes (s.i + j * s.loop_count + k + 3) 4)))
    s.loop_count 4 (by omega)
    (fun k (t : Encoder) =>
      forLoop threadsPerBlock 1
        (fun j (u : Encoder) =>
          deltaEntry gen_sloppy_pinv maxinv shift primes (u.i + j * u.loop_count + k + 3) 4
            (u.pinfo + 4 * ((k + 2) * threadsPerBlock + j))
            (deltaEntry gen_sloppy_pinv maxinv shift primes (u.i + j * u.loop_count + k + 2) 3
              (u.pinfo + 4 * ((k + 1) * threadsPerBlock + j))
              (deltaEntry gen_sloppy_pinv maxinv shift primes (u.i + j * u.loop_count + k + 1) 2
                (u.pinfo + 4 * (k * threadsPerBlock + j))
                (deltaEntry gen_sloppy_pinv maxinv shift primes (u.i + j * u.loop_count + k) 1
                  (u.pinfo + 4 * ((k - 1) * threadsPerBlock + j)) u))))
        threadsPerBlock 0 t)
    (fun k t ht => by
      refine forLoop_invariant (fun u : Encoder => u.cursor = s.cursor) _ _ _ ?_ _ _ _ ht
      intro j u hu
      simp only [cursor_deltaEntry, hu])
    (fun k t ht x => hinner k t ht x)
    s.loop_count 1 s (by omega) rfl x
  unfold deltaWords4
  simp only
  rw [houter]
  refine or_congr Iff.rfl ?_
  unfold StoredDelta
  constructor
  · rintro ⟨t, ht, j, hj, h | h | h | h⟩
    · exact ⟨t, j, 0, ht, hj, by omega, by rw [h]; exact Prod.ext (by simp only; omega) rfl⟩
    · exact ⟨t, j, 1, ht, hj, by omega, by rw [h]; exact Prod.ext (by simp only; omega) rfl⟩
    · exact ⟨t, j, 2, ht, hj, by omega, by rw [h]; exact Prod.ext (by simp only; omega) rfl⟩
    · exact ⟨t, j, 3, ht, hj, by omega, by rw [h]; exact Prod.ext (by simp only; omega) rfl⟩
  · rintro ⟨t, j, e, ht, hj, he, h⟩
    refine ⟨t, ht, j, hj, ?_⟩
    rcases e with _ | _ | _ | _ | e
    · exact Or.inl (by rw [h]; exact Prod.ext (by simp only; omega) rfl)
    · exact Or.inr (Or.inl (by rw [h]; exact Prod.ext (by simp only; omega) rfl))
    · exact Or.inr (Or.inr (Or.inl (by rw [h]; exact Prod.ext (by simp only; omega) rfl)))
    · exact Or.inr (Or.inr (Or.inr (by rw [h]; exact Prod.ext (by simp only; omega) rfl)))
    · omega

theorem words_pushRow (s : Encoder) (row : Row) : (s.pushRow row).words = s.words := rfl

theorem words_deltaRows (mask : Nat) (s : Encoder) : (deltaRows mask s).words = s.words := by
  unfold deltaRows
  exact forLoop_invariant (fun t : Encoder => t.words = s.words) _ _ _
    (fun k t ht => by
      show (t.pushRow _).words = s.words
      rw [words_pushRow]; exact ht) _ _ _ rfl

theorem words_deltaAdvance (s : Encoder) : (deltaAdvance s).words = s.words := rfl

/-- The stores of the loop over the rows of a dense section. -/
theorem words_denseLoop (rowf : Encoder → Encoder) (bytes bound : Nat)
    (E : Nat → Nat → Nat × Nat → Prop)
    (hcur : ∀ t : Encoder, (rowf t).i = t.i ∧ (rowf t).pinfo = t.pinfo)
    (hrow : ∀ (t : Encoder) x, x ∈ (rowf t).words ↔ x ∈ t.words ∨ E t.pinfo t.i x) :
    ∀ n fuel (s : Encoder), n ≤ fuel → s.i + threadsPerBlock * n = bound →
      ∀ x, x ∈ (whileLoop (fun t : Encoder => decide (t.i < bound))
          (fun t => { rowf t with i := (rowf t).i + threadsPerBlock,
                                  pinfo := (rowf t).pinfo + bytes }) fuel s).words ↔
        x ∈ s.words ∨ ∃ m, m < n ∧ E (s.pinfo + bytes * m) (s.i + threadsPerBlock * m) x := by
  intro n
  induction n with
  | zero =>
    intro fuel s _ hb x
    have hi : s.i = bound := by omega
    have hw : (whileLoop (fun t : Encoder => decide (t.i < bound))
          (fun t => { rowf t with i := (rowf t).i + threadsPerBlock,
                                  pinfo := (rowf t).pinfo + bytes }) fuel s) = s := by
      cases fuel with
      | zero => rfl
      | succ fuel => simp [whileLoop, hi]
    rw [hw]
    constructor
    · exact Or.inl
    · rintro (h | ⟨m, hm, _⟩)
      · exact h
      · omega
  | succ n ih =>
    intro fuel s hf hb x
    obtain ⟨fuel, rfl⟩ : ∃ g, fuel = g + 1 := ⟨fuel - 1, by omega⟩
    have hlt : s.i < bound := by simp only [threadsPerBlock] at hb; omega
    obtain ⟨h1, h2⟩ := hcur s
    rw [whileLoop, if_pos (by simpa using hlt),
      ih fuel _ (by omega) (by simp only [h1, threadsPerBlock] at hb ⊢; omega) x]
    simp only [h1, h2]
    rw [hrow s x]
    constructor
    · rintro ((h | h) | ⟨m, hm, h⟩)
      · exact Or.inl h
      · exact Or.inr ⟨0, by omega, by simpa using h⟩
      · refine Or.inr ⟨m + 1, by omega, ?_⟩
        have e1 : s.pinfo + bytes * (m + 1) = s.pinfo + bytes + bytes * m := by ring
        have e2 : s.i + threadsPerBlock * (m + 1) = s.i + threadsPerBlock + threadsPerBlock * m := by
          ring
        rw [e1, e2]; exact h
    · rintro (h | ⟨m, hm, h⟩)
      · exact Or.inl (Or.inl h)
      · cases m with
        | zero => exact Or.inl (Or.inr (by simpa using h))
        | succ m =>
          have e1 : s.pinfo + bytes * (m + 1) = s.pinfo + bytes + bytes * m := by ring
          have e2 : s.i + threadsPerBlock * (m + 1)
              = s.i + threadsPerBlock + threadsPerBlock * m := by ring
          rw [e1, e2] at h
          exact Or.inr ⟨m, by omega, h⟩

theorem words_sectionBelow64K (mc : Bool) (primes : Nat → Nat) (r : Nat) (s : Encoder)
    (hi : s.i = 54) (x : Nat × Nat) :
    x ∈ (sectionBelow64K mc primes r s).words ↔
      x ∈ s.words ∨ ∃ n, n < min r 25 ∧ Stored16 primes (s.pinfo + 2048 * n) (54 + 256 * n) x := by
  have hc : ∀ t : Encoder, (row16 primes t).i = t.i ∧ (row16 primes t).pinfo = t.pinfo := by
    intro t
    have := cursor_row16 primes t
    simp only [Encoder.cursor, Prod.mk.injEq] at this
    exact ⟨this.1, this.2.1⟩
  have h := words_denseLoop (row16 primes) (threadsPerBlock * 8) (54 + 256 * min r 25)
    (Stored16 primes) hc (words_row16 primes) (min r 25) (min r 25) s (le_refl _)
    (by simp [hi, threadsPerBlock]) x
  unfold sectionBelow64K
  rw [sieving64KCrossover_eq, prefix_eq]
  simp only [threadsPerBlock, hi] at h ⊢
  have e : 54 + min r 25 * 256 = 54 + 256 * min r 25 := by ring
  simp only [e, Nat.reduceMul] at h ⊢
  exact h

theorem words_sectionAcross64K (mc : Bool) (primes : Nat → Nat) (r : Nat) (s : Encoder)
    (hi : s.i = 54 + 256 * min r 25) (x : Nat × Nat) :
    x ∈ (sectionAcross64K mc primes r s).words ↔
      x ∈ s.words ∨ ∃ n, n < min r 26 - min r 25 ∧
        Stored32 gen_pinv primes (s.pinfo + 3072 * n) (54 + 256 * min r 25 + 256 * n) 1 x := by
  have hc : ∀ t : Encoder, (row32 primes t).i = t.i ∧ (row32 primes t).pinfo = t.pinfo := by
    intro t
    have := cursor_row32 primes t
    simp only [Encoder.cursor, Prod.mk.injEq] at this
    exact ⟨this.1, this.2.1⟩
  have h := words_denseLoop (row32 primes) (threadsPerBlock * 12) (54 + 256 * min r 26)
    (fun p i => Stored32 gen_pinv primes p i 1) hc (words_row32 primes)
    (min r 26 - min r 25) (min r 26) s (by omega)
    (by simp only [hi, threadsPerBlock]; omega) x
  unfold sectionAcross64K
  rw [sieving64KCrossover_eq, prefix_eq]
  simp only [threadsPerBlock, hi] at h ⊢
  have e : 54 + min r (25 + 1) * 256 = 54 + 256 * min r 26 := by ring
  simp only [e, Nat.reduceMul, Nat.reduceAdd] at h ⊢
  exact h

/-- The stores of a delta band: those of the row in front and, when the band
has more than one row, the packed words. -/
theorem words_band (pinv primes : Nat → Nat) (W : Encoder → Encoder)
    (E : Nat → Nat → Nat → Nat × Nat → Prop)
    (hW : ∀ (t : Encoder) x, x ∈ (W t).words ↔ x ∈ t.words ∨ E t.pinfo t.i t.loop_count x)
    (mask lc : Nat) (s : Encoder) (g : Prop) [Decidable g] (x : Nat × Nat) :
    x ∈ (if g then deltaAdvance (W (deltaRows mask (rowStrided pinv primes lc s)))
      else rowStrided pinv primes lc s).words ↔
      x ∈ s.words ∨ Stored32 pinv primes s.pinfo s.i lc x ∨
        (g ∧ E (s.pinfo + 3072) s.i lc x) := by
  by_cases hg : g
  · rw [if_pos hg]
    simp only [hg, true_and]
    have h1 := cursor_rowStrided pinv primes lc s
    have h2 := cursor_deltaRows mask (rowStrided pinv primes lc s)
    simp only [Encoder.cursor, Prod.mk.injEq, threadsPerBlock, Nat.reduceMul] at h1 h2
    rw [words_deltaAdvance, hW, words_deltaRows, words_rowStrided, h2.1, h2.2.1, h2.2.2.1,
      h1.1, h1.2.1, h1.2.2.1, or_assoc]
  · rw [if_neg hg]
    simp only [hg, false_and, or_false]
    exact words_rowStrided pinv primes lc s x

theorem words_band128K (mc : Bool) (primes : Nat → Nat) (r : Nat) (s : Encoder)
    (hi : 26 < r → s.i = 6710) (x : Nat × Nat) :
    x ∈ (section64Kto128K mc primes r (sectionTransition128K mc primes r s)).words ↔
      x ∈ s.words ∨ (26 < r ∧ (Stored32 gen_pinv primes s.pinfo 6710 (min r 48 - 26) x ∨
        (27 < r ∧ StoredDelta gen_pinv 18 primes 3 (s.pinfo + 3072) 6710 (min r 48 - 26) x))) := by
  unfold section64Kto128K sectionTransition128K
  rw [sieving64KCrossover_eq, sieving128KCrossover_eq]
  by_cases h26 : 26 < r
  · have h := words_band gen_pinv primes (deltaWords3 primes)
      (fun p i lc => StoredDelta gen_pinv 18 primes 3 p i lc) (words_deltaWords3 primes)
      0xFFFC0000 (min r (47 + 1) - (25 + 1)) s (r > 25 + 2) x
    rw [if_pos (show r > 25 + 1 from h26), h, hi h26]
    simp only [h26, true_and, Nat.reduceAdd, gt_iff_lt]
  · rw [if_neg (show ¬ r > 25 + 1 from h26), if_neg (show ¬ r > 25 + 2 by omega)]
    simp only [h26, false_and, or_false]

theorem words_band1M (mc : Bool) (primes : Nat → Nat) (r : Nat) (s : Encoder)
    (hi : 48 < r → s.i = 12342) (x : Nat × Nat) :
    x ∈ (section128Kto1M mc primes r (sectionFirstAbove128K mc primes r s)).words ↔
      x ∈ s.words ∨ (48 < r ∧ (Stored32 gen_sloppy_pinv primes s.pinfo 12342 (min r 317 - 48) x ∨
        (49 < r ∧
          StoredDelta gen_sloppy_pinv 20 primes 4 (s.pinfo + 3072) 12342 (min r 317 - 48) x))) := by
  unfold section128Kto1M sectionFirstAbove128K
  rw [sieving128KCrossover_eq, sieving1MCrossover_eq]
  by_cases h48 : 48 < r
  · have h := words_band gen_sloppy_pinv primes (deltaWords4 31 20 primes)
      (fun p i lc => StoredDelta gen_sloppy_pinv 20 primes 4 p i lc)
      (words_deltaWords4 31 20 primes) 0xFFF00000 (min r 317 - (47 + 1)) s (r > 47 + 2) x
    rw [if_pos (show r > 47 + 1 from h48), h, hi h48]
    simp only [h48, true_and, Nat.reduceAdd, gt_iff_lt]
  · rw [if_neg (show ¬ r > 47 + 1 from h48), if_neg (show ¬ r > 47 + 2 by omega)]
    simp only [h48, false_and, or_false]

theorem words_band16M (mc : Bool) (primes : Nat → Nat) (r : Nat) (s : Encoder)
    (hi : 317 < r → s.i = 81206) (x : Nat × Nat) :
    x ∈ (section1Mto16M mc primes r (sectionAcross1M mc primes r s)).words ↔
      x ∈ s.words ∨ (317 < r ∧ (Stored32 gen_sloppy_pinv primes s.pinfo 81206 (r - 317) x ∨
        (318 < r ∧
          StoredDelta gen_sloppy_pinv 24 primes 4 (s.pinfo + 3072) 81206 (r - 317) x))) := by
  unfold section1Mto16M sectionAcross1M
  rw [sieving1MCrossover_eq]
  by_cases h317 : 317 < r
  · have h := words_band gen_sloppy_pinv primes (deltaWords4 1 24 primes)
      (fun p i lc => StoredDelta gen_sloppy_pinv 24 primes 4 p i lc)
      (words_deltaWords4 1 24 primes) 0xFF000000 (r - 317) s (r > 317 + 1) x
    rw [if_pos (show r > 317 from h317), h, hi h317]
    simp only [h317, true_and, Nat.reduceAdd, gt_iff_lt]
  · rw [if_neg (show ¬ r > 317 from h317), if_neg (show ¬ r > 317 + 1 by omega)]
    simp only [h317, false_and, or_false]

/-- The two cursors between the sections of the encoder. -/
theorem encode_stages (mc : Bool) (primes : Nat → Nat) (r : Nat) :
    (sectionBelow64K mc primes r (encoderStart mc r)).i = 54 + 256 * min r 25 ∧
      (sectionBelow64K mc primes r (encoderStart mc r)).pinfo = 1024 + 2048 * min r 25 ∧
      (sectionAcross64K mc primes r (sectionBelow64K mc primes r (encoderStart mc r))).i
        = 54 + 256 * min r 26 ∧
      (sectionAcross64K mc primes r (sectionBelow64K mc primes r (encoderStart mc r))).pinfo
        = 1024 + 2048 * min r 25 + 3072 * (min r 26 - min r 25) ∧
      (48 < r → (encodeTo128K mc primes r).i = 12342) ∧
      (encodeTo128K mc primes r).pinfo
        = 1024 + 2048 * min r 25 + 3072 * (min r 26 - min r 25)
          + (if 26 < r then 3072 + 1024 * (min r 48 - 27) else 0) ∧
      (317 < r → (section128Kto1M mc primes r
        (sectionFirstAbove128K mc primes r (encodeTo128K mc primes r))).i = 81206) ∧
      (section128Kto1M mc primes r
        (sectionFirstAbove128K mc primes r (encodeTo128K mc primes r))).pinfo
        = 1024 + 2048 * min r 25 + 3072 * (min r 26 - min r 25)
          + (if 26 < r then 3072 + 1024 * (min r 48 - 27) else 0)
          + (if 48 < r then 3072 + 1024 * (min r 317 - 49) else 0) := by
  have hb1 : 26 < r → 54 + 256 * min r 26 = 6710 := by omega
  have hA := cursor_sectionBelow64K mc primes r (encoderStart mc r) (prefix_eq mc)
  simp only [Encoder.cursor, Prod.mk.injEq] at hA
  obtain ⟨a1, a2, _, _⟩ := hA
  have hB := cursor_sectionAcross64K mc primes r _ a1
  simp only [Encoder.cursor, Prod.mk.injEq] at hB
  obtain ⟨b1, b2, _, _⟩ := hB
  obtain ⟨_, c2, c1⟩ := cursor_band128K mc primes r
    (sectionAcross64K mc primes r (sectionBelow64K mc primes r (encoderStart mc r)))
    (fun h => by rw [b1]; exact hb1 h)
  obtain ⟨_, d2, d1⟩ := cursor_band1M mc primes r (encodeTo128K mc primes r) c1
  have hstart : (encoderStart mc r).pinfo = 1024 := rfl
  rw [hstart] at a2
  rw [a2] at b2
  have c2' : (encodeTo128K mc primes r).pinfo
      = 1024 + 2048 * min r 25 + 3072 * (min r 26 - min r 25)
        + (if 26 < r then 3072 + 1024 * (min r 48 - 27) else 0) := by
    unfold encodeTo128K; rw [c2, b2]
  exact ⟨a1, a2, b1, b2, c1, c2', d1, by rw [d2, c2']⟩

/-- The stores of the encoder, in closed form. -/
theorem encode_words (mc : Bool) (primes : Nat → Nat) (r : Nat) (x : Nat × Nat) :
    x ∈ (encode mc primes r).words ↔ EncodedWord primes r x := by
  have e1 : 26 < r → 1024 + 2048 * min r 25 + 3072 * (min r 26 - min r 25) = 55296 := by omega
  have e2 : 48 < r → 1024 + 2048 * min r 25 + 3072 * (min r 26 - min r 25)
      + (3072 + 1024 * (min r 48 - 27)) = 79872 := by omega
  have e3 : 317 < r → 1024 + 2048 * min r 25 + 3072 * (min r 26 - min r 25)
      + (3072 + 1024 * (min r 48 - 27)) + (3072 + 1024 * (min r 317 - 49)) = 357376 := by omega
  have f1 : ∀ k, 48 < k → 26 < k := fun k h => by omega
  have f2 : ∀ k, 317 < k → 48 < k := fun k h => by omega
  have hb1 : 26 < r → 54 + 256 * min r 26 = 6710 := by omega
  obtain ⟨a1, a2, b1, b2, c1, c2, d1, d2⟩ := encode_stages mc primes r
  have hA := words_sectionBelow64K mc primes r (encoderStart mc r) (prefix_eq mc) x
  have hB := words_sectionAcross64K mc primes r _ a1 x
  have hC := words_band128K mc primes r
    (sectionAcross64K mc primes r (sectionBelow64K mc primes r (encoderStart mc r)))
    (fun h => by rw [b1]; exact hb1 h) x
  have hD := words_band1M mc primes r (encodeTo128K mc primes r) c1 x
  have hE := words_band16M mc primes r
    (section128Kto1M mc primes r (sectionFirstAbove128K mc primes r (encodeTo128K mc primes r)))
    d1 x
  have hstart : (encoderStart mc r).pinfo = 1024 ∧ (encoderStart mc r).words = [] := ⟨rfl, rfl⟩
  rw [hstart.1, hstart.2] at hA
  rw [a2] at hB
  rw [b2] at hC
  rw [c2] at hD
  rw [d2] at hE
  have hC' : x ∈ (encodeTo128K mc primes r).words ↔ _ := hC
  unfold encode
  rw [hE, hD, hC', hB, hA]
  unfold EncodedWord
  simp only [List.not_mem_nil, false_or, or_assoc]
  refine or_congr Iff.rfl (or_congr Iff.rfl (or_congr ?_ (or_congr ?_ ?_)))
  · refine and_congr_right (fun h => ?_)
    simp only [e1 h, Nat.reduceAdd]
  · refine and_congr_right (fun h => ?_)
    simp only [if_pos (f1 r h), e2 h, Nat.reduceAdd]
  · refine and_congr_right (fun h => ?_)
    simp only [if_pos (f1 r (f2 r h)), if_pos (f2 r h), e3 h, Nat.reduceAdd]

/-! ## The first word of every lane: claim C13 -/

theorem underMask_of_mod (mask k w : Nat) (hor : mask ||| (2 ^ k - 1) = 4294967295)
    (hxor : 4294967295 ^^^ mask = 2 ^ k - 1) (hw : w < 4294967296) (hmod : w % 2 ^ k = 0) :
    underMask mask w := by
  have hlow : w &&& (2 ^ k - 1) = 0 := by rw [Nat.and_pow_two_sub_one_eq_mod, hmod]
  refine ⟨by rw [hxor, hlow], ?_⟩
  have h1 : w &&& (2 ^ 32 - 1) = w := by
    rw [Nat.and_pow_two_sub_one_eq_mod]; exact Nat.mod_eq_of_lt (by norm_num; exact hw)
  have h2 : w &&& (mask ||| (2 ^ k - 1)) = w := by rw [hor]; exact h1
  rw [Nat.and_or_distrib_left, hlow, Nat.or_zero] at h2
  exact h2

theorem underMask_zero (mask : Nat) : underMask mask 0 := by
  simp [underMask]

theorem underMask_shl16 (p : Nat) : underMask 0xFFFF0000 (add32 (shl32 p 16) 0) := by
  refine underMask_of_mod _ 16 _ (by decide) (by decide) ?_ ?_
  · simp only [add32, shl32, U32]; omega
  · simp only [add32, shl32, U32, Nat.shiftLeft_eq]; norm_num

theorem deltaWord_mod (pinv : Nat → Nat) (shift : Nat) (primes : Nat → Nat) (index back : Nat)
    (hs : shift + 7 ≤ 32) :
    deltaWord pinv shift primes index back < 4294967296 ∧
      deltaWord pinv shift primes index back % 2 ^ shift = 0 := by
  unfold deltaWord
  generalize sub32 (pinv (primes (index - back))) (pinv (primes index)) = a
  generalize sub32 (primes index) (primes (index - back)) / 2 = b
  have hU : U32 = 2 ^ shift * 2 ^ (32 - shift) := by
    rw [← pow_add]; unfold U32
    rw [show shift + (32 - shift) = 32 by omega]; norm_num
  constructor
  · simp only [add32, U32]; omega
  · simp only [add32, shl32, Nat.add_zero, Nat.shiftLeft_eq]
    rw [Nat.mod_mod, hU, Nat.mod_mul_right_mod]
    rw [Nat.add_mod, Nat.mod_mul_right_mod, Nat.mod_mul_right_mod,
      show shift + 7 = 7 + shift by omega, pow_add, ← Nat.mul_assoc, Nat.mul_mod_left,
      Nat.mul_mod_left]
    simp

theorem underMask_deltaWord18 (pinv primes : Nat → Nat) (index back : Nat) :
    underMask 0xFFFC0000 (deltaWord pinv 18 primes index back) := by
  obtain ⟨h1, h2⟩ := deltaWord_mod pinv 18 primes index back (by omega)
  exact underMask_of_mod _ 18 _ (by decide) (by decide) h1 h2

theorem underMask_deltaWord20 (pinv primes : Nat → Nat) (index back : Nat) :
    underMask 0xFFF00000 (deltaWord pinv 20 primes index back) := by
  obtain ⟨h1, h2⟩ := deltaWord_mod pinv 20 primes index back (by omega)
  exact underMask_of_mod _ 20 _ (by decide) (by decide) h1 h2

theorem underMask_deltaWord24 (pinv primes : Nat → Nat) (index back : Nat) :
    underMask 0xFF000000 (deltaWord pinv 24 primes index back) := by
  obtain ⟨h1, h2⟩ := deltaWord_mod pinv 24 primes index back (by omega)
  exact underMask_of_mod _ 24 _ (by decide) (by decide) h1 h2

theorem mem_denseRows (p0 i0 bytes mask n : Nat) (row : Row) :
    row ∈ denseRows p0 i0 bytes mask n ↔
      ∃ k, k < n ∧ row = ⟨(p0 + bytes * k) % U32, i0 + 256 * k, 1, mask⟩ := by
  simp only [denseRows, List.mem_map, List.mem_range, threadsPerBlock]
  constructor
  · rintro ⟨k, hk, rfl⟩; exact ⟨k, hk, rfl⟩
  · rintro ⟨k, hk, rfl⟩; exact ⟨k, hk, rfl⟩

theorem mem_bandRows (p0 i0 lc mask : Nat) (row : Row) (hb : p0 + 3072 + 1024 * (lc - 1) < U32) :
    row ∈ bandRows p0 i0 lc mask ↔
      row = ⟨p0, i0, lc, 0⟩ ∨
        ∃ k, 1 ≤ k ∧ k < lc ∧ row = ⟨p0 + 3072 + 1024 * (k - 1), i0 + k, lc, mask⟩ := by
  have hU : U32 = 4294967296 := rfl
  have hoff : ∀ k, 1 ≤ k → k < lc →
      add32 ((p0 + threadsPerBlock * 12) % U32) (mul32 (mul32 (k - 1) threadsPerBlock) 4)
        = p0 + 3072 + 1024 * (k - 1) := by
    intro k h1 h2
    simp only [add32, mul32, threadsPerBlock, U32] at hb ⊢
    omega
  have hp0 : p0 % U32 = p0 := Nat.mod_eq_of_lt (by omega)
  simp only [bandRows, List.mem_cons, List.mem_map, List.mem_range'_1, hp0]
  constructor
  · rintro (h | ⟨k, ⟨h1, h2⟩, rfl⟩)
    · exact Or.inl h
    · exact Or.inr ⟨k, h1, by omega, by rw [hoff k h1 (by omega)]⟩
  · rintro (h | ⟨k, h1, h2, rfl⟩)
    · exact Or.inl h
    · exact Or.inr ⟨k, ⟨h1, by omega⟩, by rw [hoff k h1 h2]⟩

theorem mem_encodedRows (r : Nat) (hb : 12 * (54 + 256 * r) < U32) (row : Row) :
    row ∈ encodedRows r ↔
      (∃ n, n < min r 25 ∧ row = ⟨1024 + 2048 * n, 54 + 256 * n, 1, 0xFFFF0000⟩) ∨
      (∃ n, n < min r 26 - min r 25 ∧
        row = ⟨1024 + 2048 * min r 25 + 3072 * n, 54 + 256 * min r 25 + 256 * n, 1, 0⟩) ∨
      (26 < r ∧ (row = ⟨55296, 6710, min r 48 - 26, 0⟩ ∨
        ∃ k, 1 ≤ k ∧ k < min r 48 - 26 ∧
          row = ⟨55296 + 3072 + 1024 * (k - 1), 6710 + k, min r 48 - 26, 0xFFFC0000⟩)) ∨
      (48 < r ∧ (row = ⟨79872, 12342, min r 317 - 48, 0⟩ ∨
        ∃ k, 1 ≤ k ∧ k < min r 317 - 48 ∧
          row = ⟨79872 + 3072 + 1024 * (k - 1), 12342 + k, min r 317 - 48, 0xFFF00000⟩)) ∨
      (317 < r ∧ (row = ⟨357376, 81206, r - 317, 0⟩ ∨
        ∃ k, 1 ≤ k ∧ k < r - 317 ∧
          row = ⟨357376 + 3072 + 1024 * (k - 1), 81206 + k, r - 317, 0xFF000000⟩)) := by
  have hU : U32 = 4294967296 := rfl
  have h1 : ∀ n, n < min r 25 → (1024 + 2048 * n) % U32 = 1024 + 2048 * n :=
    fun n hn => Nat.mod_eq_of_lt (by omega)
  have h2 : ∀ n, n < min r 26 - min r 25 →
      (1024 + 2048 * min r 25 + 3072 * n) % U32 = 1024 + 2048 * min r 25 + 3072 * n :=
    fun n hn => Nat.mod_eq_of_lt (by omega)
  have hA := mem_denseRows 1024 54 2048 0xFFFF0000 (min r 25) row
  have hB := mem_denseRows (1024 + 2048 * min r 25) (54 + 256 * min r 25) 3072 0
    (min r 26 - min r 25) row
  have hC : 26 < r → _ := fun h =>
    mem_bandRows 55296 6710 (min r 48 - 26) 0xFFFC0000 row (by omega)
  have hD : 48 < r → _ := fun h =>
    mem_bandRows 79872 12342 (min r 317 - 48) 0xFFF00000 row (by omega)
  have hE : 317 < r → _ := fun h =>
    mem_bandRows 357376 81206 (r - 317) 0xFF000000 row (by omega)
  unfold encodedRows
  simp only [List.mem_append, or_assoc]
  refine or_congr ?_ (or_congr ?_ (or_congr ?_ (or_congr ?_ ?_)))
  · rw [hA]
    constructor
    · rintro ⟨k, hk, rfl⟩; exact ⟨k, hk, by rw [h1 k hk]⟩
    · rintro ⟨k, hk, rfl⟩; exact ⟨k, hk, by rw [h1 k hk]⟩
  · rw [hB]
    constructor
    · rintro ⟨k, hk, rfl⟩; exact ⟨k, hk, by rw [h2 k hk]⟩
    · rintro ⟨k, hk, rfl⟩; exact ⟨k, hk, by rw [h2 k hk]⟩
  · by_cases h : 26 < r
    · rw [if_pos h]
      simp only [h, true_and]
      exact hC h
    · rw [if_neg h]
      simp only [h, false_and, List.not_mem_nil]
  · by_cases h : 48 < r
    · rw [if_pos h]
      simp only [h, true_and]
      exact hD h
    · rw [if_neg h]
      simp only [h, false_and, List.not_mem_nil]
  · by_cases h : 317 < r
    · rw [if_pos h]
      simp only [h, true_and]
      exact hE h
    · rw [if_neg h]
      simp only [h, false_and, List.not_mem_nil]

theorem stored16_range (primes : Nat → Nat) (p i a w : Nat) (h : Stored16 primes p i (a, w)) :
    p ≤ a ∧ a + 4 ≤ p + 2048 ∧ (a < p + 1024 → underMask 0xFFFF0000 w) := by
  obtain ⟨j, hj, h | h⟩ := h
  · simp only [Prod.mk.injEq] at h
    obtain ⟨rfl, rfl⟩ := h
    exact ⟨by omega, by omega, fun _ => underMask_shl16 _⟩
  · simp only [Prod.mk.injEq] at h
    obtain ⟨rfl, rfl⟩ := h
    exact ⟨by omega, by omega, fun h => by omega⟩

theorem stored32_range (pinv primes : Nat → Nat) (p i st a w : Nat)
    (h : Stored32 pinv primes p i st (a, w)) :
    p ≤ a ∧ a + 4 ≤ p + 3072 ∧ (a < p + 1024 → underMask 0 w) := by
  obtain ⟨j, hj, h | h | h⟩ := h
  · simp only [Prod.mk.injEq] at h
    obtain ⟨rfl, rfl⟩ := h
    exact ⟨by omega, by omega, fun _ => underMask_zero _⟩
  · simp only [Prod.mk.injEq] at h
    obtain ⟨rfl, rfl⟩ := h
    exact ⟨by omega, by omega, fun h => by omega⟩
  · simp only [Prod.mk.injEq] at h
    obtain ⟨rfl, rfl⟩ := h
    exact ⟨by omega, by omega, fun h => by omega⟩

/-- A turn of the loop of the packed words stays inside the band when the row
count of the band is `1` modulo the step: the rows `k - 1, ..., k - 2 + step`
that the turn with counter `k = 1 + step * t` writes are among the
`lc - 1` rows of packed words. -/
theorem delta_turn_rows (step t lc : Nat) (hlc : lc % step = 1 % step)
    (ht : 1 + step * t < lc) : step * t + step + 1 ≤ lc := by
  obtain ⟨c, hc⟩ : ∃ c, lc = 1 + step * t + 1 + c := ⟨lc - (1 + step * t + 1), by omega⟩
  have hdvd : step ∣ lc - 1 := (Nat.modEq_iff_dvd' (by omega)).1 hlc.symm
  have hdvd2 : step ∣ 1 + c := by
    have : lc - 1 = step * t + (1 + c) := by omega
    rw [this] at hdvd
    exact (Nat.dvd_add_right (Dvd.intro t rfl)).1 hdvd
  have := Nat.le_of_dvd (by omega) hdvd2
  omega

/-- A packed word of a delta band whose row count is `1` modulo the step of
its loop lies in one of the rows of the band. -/
theorem storedDelta_range (pinv : Nat → Nat) (shift : Nat) (primes : Nat → Nat)
    (step q i lc a w : Nat) (hlc : lc % step = 1 % step)
    (h : StoredDelta pinv shift primes step q i lc (a, w)) :
    ∃ k index back, 1 ≤ k ∧ k < lc ∧ q + 1024 * (k - 1) ≤ a ∧ a + 4 ≤ q + 1024 * k ∧
      w = deltaWord pinv shift primes index back ∧
      i + 1 ≤ index ∧ index < i + 256 * lc ∧ 1 ≤ back ∧ i ≤ index - back := by
  obtain ⟨t, j, e, ht, hj, he, h⟩ := h
  simp only [Prod.mk.injEq] at h
  obtain ⟨rfl, rfl⟩ := h
  have hrows := delta_turn_rows step t lc hlc ht
  have hjl : j * lc + lc ≤ 256 * lc := by
    have : (j + 1) * lc ≤ 256 * lc := Nat.mul_le_mul_right lc (by omega)
    rw [Nat.add_mul, Nat.one_mul] at this
    exact this
  refine ⟨step * t + e + 1, i + j * lc + (1 + step * t) + e, e + 1, by omega, by omega, ?_, ?_,
    rfl, by omega, by omega, by omega, by omega⟩
  · simp only [Nat.add_sub_cancel]; omega
  · omega

/-- Every store of the encoder lies in the byte range of one of the rows,
and a store into the first 1024 bytes of a row, the first words of its lanes,
has nothing outside the mask of the row. -/
theorem encodedWord_row (primes : Nat → Nat) (r : Nat) (hb : 12 * (54 + 256 * r) < U32)
    (h3 : 26 < r → (min r 48 - 26) % 3 = 1) (h4 : 48 < r → (min r 317 - 48) % 4 = 1)
    (h5 : 317 < r → (r - 317) % 4 = 1) (a w : Nat) (h : EncodedWord primes r (a, w)) :
    ∃ row, row ∈ encodedRows r ∧ row.offset ≤ a ∧
      a + 4 ≤ row.offset + threadsPerBlock * row.entrySize ∧
      (a < row.offset + 1024 → underMask row.mask w) := by
  have e8 : ∀ o f st, Row.entrySize ⟨o, f, st, 0xFFFF0000⟩ = 8 := fun _ _ _ => by
    simp [Row.entrySize]
  have e12 : ∀ o f st, Row.entrySize ⟨o, f, st, 0⟩ = 12 := fun _ _ _ => by
    simp [Row.entrySize]
  have e18 : ∀ o f st, Row.entrySize ⟨o, f, st, 0xFFFC0000⟩ = 4 := fun _ _ _ => by
    simp [Row.entrySize]
  have e20 : ∀ o f st, Row.entrySize ⟨o, f, st, 0xFFF00000⟩ = 4 := fun _ _ _ => by
    simp [Row.entrySize]
  have e24 : ∀ o f st, Row.entrySize ⟨o, f, st, 0xFF000000⟩ = 4 := fun _ _ _ => by
    simp [Row.entrySize]
  rcases h with ⟨n, hn, h⟩ | ⟨n, hn, h⟩ | ⟨hr, h | ⟨hr', h⟩⟩ | ⟨hr, h | ⟨hr', h⟩⟩ |
    ⟨hr, h | ⟨hr', h⟩⟩
  · obtain ⟨c1, c2, c3⟩ := stored16_range _ _ _ _ _ h
    refine ⟨⟨1024 + 2048 * n, 54 + 256 * n, 1, 0xFFFF0000⟩,
      (mem_encodedRows r hb _).2 (Or.inl ⟨n, hn, rfl⟩), c1, ?_, c3⟩
    rw [e8]; simp only [threadsPerBlock]; omega
  · obtain ⟨c1, c2, c3⟩ := stored32_range _ _ _ _ _ _ _ h
    refine ⟨⟨1024 + 2048 * min r 25 + 3072 * n, 54 + 256 * min r 25 + 256 * n, 1, 0⟩,
      (mem_encodedRows r hb _).2 (Or.inr (Or.inl ⟨n, hn, rfl⟩)), c1, ?_, c3⟩
    rw [e12]; simp only [threadsPerBlock]; omega
  · obtain ⟨c1, c2, c3⟩ := stored32_range _ _ _ _ _ _ _ h
    refine ⟨⟨55296, 6710, min r 48 - 26, 0⟩,
      (mem_encodedRows r hb _).2 (Or.inr (Or.inr (Or.inl ⟨hr, Or.inl rfl⟩))), c1, ?_, c3⟩
    rw [e12]; simp only [threadsPerBlock]; omega
  · obtain ⟨k, index, back, k1, k2, c1, c2, hw, _⟩ :=
      storedDelta_range _ _ _ 3 _ _ _ _ _ (h3 hr) h
    refine ⟨⟨55296 + 3072 + 1024 * (k - 1), 6710 + k, min r 48 - 26, 0xFFFC0000⟩,
      (mem_encodedRows r hb _).2 (Or.inr (Or.inr (Or.inl ⟨hr, Or.inr ⟨k, k1, k2, rfl⟩⟩))),
      by simp only; omega, ?_, fun _ => hw ▸ underMask_deltaWord18 _ _ _ _⟩
    rw [e18]; simp only [threadsPerBlock]; omega
  · obtain ⟨c1, c2, c3⟩ := stored32_range _ _ _ _ _ _ _ h
    refine ⟨⟨79872, 12342, min r 317 - 48, 0⟩,
      (mem_encodedRows r hb _).2 (Or.inr (Or.inr (Or.inr (Or.inl ⟨hr, Or.inl rfl⟩)))), c1, ?_, c3⟩
    rw [e12]; simp only [threadsPerBlock]; omega
  · obtain ⟨k, index, back, k1, k2, c1, c2, hw, _⟩ :=
      storedDelta_range _ _ _ 4 _ _ _ _ _ (h4 hr) h
    refine ⟨⟨79872 + 3072 + 1024 * (k - 1), 12342 + k, min r 317 - 48, 0xFFF00000⟩,
      (mem_encodedRows r hb _).2
        (Or.inr (Or.inr (Or.inr (Or.inl ⟨hr, Or.inr ⟨k, k1, k2, rfl⟩⟩)))),
      by simp only; omega, ?_, fun _ => hw ▸ underMask_deltaWord20 _ _ _ _⟩
    rw [e20]; simp only [threadsPerBlock]; omega
  · obtain ⟨c1, c2, c3⟩ := stored32_range _ _ _ _ _ _ _ h
    refine ⟨⟨357376, 81206, r - 317, 0⟩,
      (mem_encodedRows r hb _).2 (Or.inr (Or.inr (Or.inr (Or.inr ⟨hr, Or.inl rfl⟩)))), c1, ?_, c3⟩
    rw [e12]; simp only [threadsPerBlock]; omega
  · obtain ⟨k, index, back, k1, k2, c1, c2, hw, _⟩ :=
      storedDelta_range _ _ _ 4 _ _ _ _ _ (h5 hr) h
    refine ⟨⟨357376 + 3072 + 1024 * (k - 1), 81206 + k, r - 317, 0xFF000000⟩,
      (mem_encodedRows r hb _).2
        (Or.inr (Or.inr (Or.inr (Or.inr ⟨hr, Or.inr ⟨k, k1, k2, rfl⟩⟩)))),
      by simp only; omega, ?_, fun _ => hw ▸ underMask_deltaWord24 _ _ _ _⟩
    rw [e24]; simp only [threadsPerBlock]; omega

/-- The first word of every lane of every row is stored. -/
theorem encodedRows_stored (primes : Nat → Nat) (r : Nat) (hb : 12 * (54 + 256 * r) < U32)
    (row : Row) (hrow : row ∈ encodedRows r) (j : Nat) (hj : j < 256) :
    ∃ w, EncodedWord primes r (row.offset + 4 * j, w) := by
  have hdelta : ∀ (pinv : Nat → Nat) (shift step q i lc k : Nat), 1 ≤ step → 1 ≤ k → k < lc →
      ∃ w, StoredDelta pinv shift primes step q i lc (q + 1024 * (k - 1) + 4 * j, w) := by
    intro pinv shift step q i lc k hs k1 k2
    have hdm := Nat.div_add_mod (k - 1) step
    have hlt := Nat.mod_lt (k - 1) (show 0 < step by omega)
    refine ⟨deltaWord pinv shift primes
      (i + j * lc + (1 + step * ((k - 1) / step)) + (k - 1) % step) ((k - 1) % step + 1),
      (k - 1) / step, j, (k - 1) % step, by omega, hj, hlt, ?_⟩
    refine Prod.ext ?_ rfl
    simp only
    rw [hdm]; omega
  rcases (mem_encodedRows r hb row).1 hrow with ⟨n, hn, rfl⟩ | ⟨n, hn, rfl⟩ |
    ⟨hr, rfl | ⟨k, k1, k2, rfl⟩⟩ | ⟨hr, rfl | ⟨k, k1, k2, rfl⟩⟩ | ⟨hr, rfl | ⟨k, k1, k2, rfl⟩⟩
  · exact ⟨_, Or.inl ⟨n, hn, j, hj, Or.inl rfl⟩⟩
  · exact ⟨_, Or.inr (Or.inl ⟨n, hn, j, hj, Or.inl rfl⟩)⟩
  · exact ⟨_, Or.inr (Or.inr (Or.inl ⟨hr, Or.inl ⟨j, hj, Or.inl rfl⟩⟩))⟩
  · obtain ⟨w, hw⟩ := hdelta gen_pinv 18 3 58368 6710 (min r 48 - 26) k (by omega) k1 k2
    exact ⟨w, Or.inr (Or.inr (Or.inl ⟨hr, Or.inr ⟨by omega, hw⟩⟩))⟩
  · exact ⟨_, Or.inr (Or.inr (Or.inr (Or.inl ⟨hr, Or.inl ⟨j, hj, Or.inl rfl⟩⟩)))⟩
  · obtain ⟨w, hw⟩ := hdelta gen_sloppy_pinv 20 4 82944 12342 (min r 317 - 48) k (by omega) k1 k2
    exact ⟨w, Or.inr (Or.inr (Or.inr (Or.inl ⟨hr, Or.inr ⟨by omega, hw⟩⟩)))⟩
  · exact ⟨_, Or.inr (Or.inr (Or.inr (Or.inr ⟨hr, Or.inl ⟨j, hj, Or.inl rfl⟩⟩)))⟩
  · obtain ⟨w, hw⟩ := hdelta gen_sloppy_pinv 24 4 360448 81206 (r - 317) k (by omega) k1 k2
    exact ⟨w, Or.inr (Or.inr (Or.inr (Or.inr ⟨hr, Or.inr ⟨by omega, hw⟩⟩)))⟩

theorem load_of_mem (s : Encoder) (a : Nat) (h : ∃ w, (a, w) ∈ s.words) :
    ∃ w, s.load a = some w ∧ (a, w) ∈ s.words := by
  obtain ⟨w0, hw0⟩ := h
  unfold Encoder.load
  cases hfind : s.words.find? (fun x => x.1 == a) with
  | none =>
    rw [List.find?_eq_none] at hfind
    exact absurd (by simp) (hfind _ hw0)
  | some y =>
    have h1 := List.find?_some hfind
    have h2 := List.mem_of_find?_eq_some hfind
    simp only [beq_iff_eq] at h1
    refine ⟨y.2, rfl, ?_⟩
    rw [← h1]
    exact h2

theorem entrySize_ge (row : Row) : 4 ≤ row.entrySize := by
  unfold Row.entrySize
  split
  · omega
  · split <;> omega

/-- C13: after the encoder, the first 32-bit word of every lane of every row
has a zero bit-to-clear field and nothing outside the mask of the row: the
word `w` at `row.offset + 4 * j` satisfies `w AND NOT mask = 0` and
`w AND mask = w`. The rows are those of `encodedRows`, with the mask
`0xFFFF0000` in the 16-bit band, `0` in the rows of full 32-bit entries, and
`0xFFFC0000`, `0xFFF00000` and `0xFF000000` in the three delta bands; these are
the complements of the low 16, 32, 18, 20 and 24 bits. The second hypothesis
says that the allocation of line 276 is not a wrapped size. -/
theorem C13_first_word_under_mask (mc : Bool) (fuel B primeCount r : Nat) (primes : Nat → Nat)
    (hsearch : crossoverSearch mc fuel B = some (primeCount, r))
    (halloc : 12 * primeCount < U32) :
    (encode mc primes r).rows = encodedRows r ∧
      (∀ row ∈ (encode mc primes r).rows, ∀ j, j < 256 →
        ∃ w, (encode mc primes r).load (row.offset + 4 * j) = some w ∧
          w &&& (4294967295 ^^^ row.mask) = 0 ∧ w &&& row.mask = w) ∧
      (∀ row ∈ (encode mc primes r).rows,
        row.mask = 0xFFFF0000 ∨ row.mask = 0 ∨ row.mask = 0xFFFC0000 ∨
          row.mask = 0xFFF00000 ∨ row.mask = 0xFF000000) ∧
      (4294967295 ^^^ 0xFFFF0000 = 2 ^ 16 - 1 ∧ 4294967295 ^^^ 0 = 2 ^ 32 - 1 ∧
        4294967295 ^^^ 0xFFFC0000 = 2 ^ 18 - 1 ∧ 4294967295 ^^^ 0xFFF00000 = 2 ^ 20 - 1 ∧
        4294967295 ^^^ 0xFF000000 = 2 ^ 24 - 1) := by
  obtain ⟨hpc, _, hacc⟩ := crossoverSearch_some mc fuel B primeCount r hsearch
  obtain ⟨_, _, h3, h4, h5⟩ := (crossoverAccepts_iff mc r).1 hacc
  have hb : 12 * (54 + 256 * r) < U32 := hpc ▸ halloc
  have hrows := (encode_closed mc primes r).1
  have hpair := (stacked_spec _ _ _ (stacked_encodedRows r hb)).2.2.1
  have hsymm : Symmetric Row.disjoint := fun x y h => Or.symm h
  refine ⟨hrows, ?_, ?_, by decide⟩
  · intro row hrow j hj
    rw [hrows] at hrow
    obtain ⟨w0, hw0⟩ := encodedRows_stored primes r hb row hrow j hj
    obtain ⟨w, hload, hmem⟩ := load_of_mem (encode mc primes r) (row.offset + 4 * j)
      ⟨w0, (encode_words mc primes r _).2 hw0⟩
    obtain ⟨row', hrow', c1, c2, c3⟩ := encodedWord_row primes r hb h3 h4 h5 _ _
      ((encode_words mc primes r _).1 hmem)
    have hsame : row' = row := by
      by_contra hne
      have hd := hpair.forall hsymm hrow' hrow hne
      have he := entrySize_ge row
      have he' := entrySize_ge row'
      simp only [Row.disjoint, threadsPerBlock] at hd c2
      rcases hd with hd | hd <;> omega
    subst hsame
    obtain ⟨u1, u2⟩ := c3 (by omega)
    exact ⟨w, hload, u1, u2⟩
  · intro row hrow
    rw [hrows] at hrow
    rcases (mem_encodedRows r hb row).1 hrow with ⟨n, hn, rfl⟩ | ⟨n, hn, rfl⟩ |
      ⟨hr, rfl | ⟨k, k1, k2, rfl⟩⟩ | ⟨hr, rfl | ⟨k, k1, k2, rfl⟩⟩ | ⟨hr, rfl | ⟨k, k1, k2, rfl⟩⟩
    · exact Or.inl rfl
    · exact Or.inr (Or.inl rfl)
    · exact Or.inr (Or.inl rfl)
    · exact Or.inr (Or.inr (Or.inl rfl))
    · exact Or.inr (Or.inl rfl)
    · exact Or.inr (Or.inr (Or.inr (Or.inl rfl)))
    · exact Or.inr (Or.inl rfl)
    · exact Or.inr (Or.inr (Or.inr (Or.inr rfl)))

/-- C13, witness: the budget 10000 gives 39 rows, with rows of the 16-bit
band, rows of full entries and rows of the first delta band. -/
theorem C13_first_word_under_mask_witness :
    crossoverSearch true 4 10000 = some (10038, 39) ∧
      ∀ row ∈ (encode true (fun k => 2 * k + 1) 39).rows, ∀ j, j < 256 →
        ∃ w, (encode true (fun k => 2 * k + 1) 39).load (row.offset + 4 * j) = some w ∧
          w &&& (4294967295 ^^^ row.mask) = 0 ∧ w &&& row.mask = w :=
  ⟨by decide,
    (C13_first_word_under_mask true 4 10000 10038 39 (fun k => 2 * k + 1) (by decide)
      (by decide)).2.1⟩

/-! ## The indices of the delta bands: claim C20 -/

/-- The entries of a list that a `for` loop builds when its body appends the
entries `E k` in the turn with counter `k`. -/
theorem mem_forLoop_append {α : Type} (E : Nat → α → Prop) (stop step : Nat)
    (hstep : 1 ≤ step) (body : Nat → List α → List α)
    (hE : ∀ k l x, x ∈ body k l ↔ x ∈ l ∨ E k x) :
    ∀ fuel k l, stop - k ≤ fuel →
      ∀ x, x ∈ forLoop stop step body fuel k l ↔
        x ∈ l ∨ ∃ t, k + step * t < stop ∧ E (k + step * t) x := by
  intro fuel
  induction fuel with
  | zero =>
    intro k l hk x
    simp only [forLoop]
    constructor
    · exact Or.inl
    · rintro (h | ⟨t, ht, _⟩)
      · exact h
      · omega
  | succ fuel ih =>
    intro k l hk x
    by_cases hlt : k < stop
    · rw [forLoop, if_pos hlt, ih (k + step) (body k l) (by omega) x, hE k l x]
      constructor
      · rintro ((h | h) | ⟨t, ht, hx⟩)
        · exact Or.inl h
        · exact Or.inr ⟨0, by simpa using hlt, by simpa using h⟩
        · refine Or.inr ⟨t + 1, ?_, ?_⟩
          · rw [Nat.mul_add, Nat.mul_one]; omega
          · rw [Nat.mul_add, Nat.mul_one, ← Nat.add_assoc, Nat.add_right_comm k _ step]
            exact hx
      · rintro (h | ⟨t, ht, hx⟩)
        · exact Or.inl (Or.inl h)
        · cases t with
          | zero => exact Or.inl (Or.inr (by simpa using hx))
          | succ t =>
            rw [Nat.mul_add, Nat.mul_one, ← Nat.add_assoc, Nat.add_right_comm k _ step] at ht hx
            exact Or.inr ⟨t, ht, hx⟩
    · rw [forLoop, if_neg hlt]
      constructor
      · exact Or.inl
      · rintro (h | ⟨t, ht, _⟩)
        · exact h
        · omega

theorem mem_deltaReads (step : Nat) (hstep : 1 ≤ step) (s : Encoder) (idx : Nat) :
    idx ∈ deltaReads step s ↔
      ∃ t j e, 1 + step * t < s.loop_count ∧ j < 256 ∧ e < step ∧
        (idx = s.i + j * s.loop_count + (1 + step * t) + e ∨
          idx = s.i + j * s.loop_count + (1 + step * t) + e - (e + 1)) := by
  have hinner : ∀ k (l : List Nat) x,
      x ∈ forLoop threadsPerBlock 1
        (fun j reads =>
          reads ++ (List.range step).flatMap fun e =>
            [s.i + j * s.loop_count + k + e, s.i + j * s.loop_count + k + e - (e + 1)])
        threadsPerBlock 0 l ↔
      x ∈ l ∨ ∃ j, j < 256 ∧ ∃ e, e < step ∧
        (x = s.i + j * s.loop_count + k + e ∨ x = s.i + j * s.loop_count + k + e - (e + 1)) := by
    intro k l x
    have h := mem_forLoop_append
      (fun j x => ∃ e, e < step ∧
        (x = s.i + j * s.loop_count + k + e ∨ x = s.i + j * s.loop_count + k + e - (e + 1)))
      threadsPerBlock 1 (le_refl 1)
      (fun j reads =>
        reads ++ (List.range step).flatMap fun e =>
          [s.i + j * s.loop_count + k + e, s.i + j * s.loop_count + k + e - (e + 1)])
      (fun j l x => by
        simp only [List.mem_append, List.mem_flatMap, List.mem_range, List.mem_cons,
          List.mem_singleton, List.not_mem_nil, or_false])
      threadsPerBlock 0 l (by omega) x
    rw [h]
    simp only [threadsPerBlock, Nat.zero_add, Nat.one_mul]
  have houter := mem_forLoop_append
    (fun k x => ∃ j, j < 256 ∧ ∃ e, e < step ∧
        (x = s.i + j * s.loop_count + k + e ∨ x = s.i + j * s.loop_count + k + e - (e + 1)))
    s.loop_count step hstep
    (fun k reads =>
      forLoop threadsPerBlock 1
        (fun j reads =>
          reads ++ (List.range step).flatMap fun e =>
            [s.i + j * s.loop_count + k + e, s.i + j * s.loop_count + k + e - (e + 1)])
        threadsPerBlock 0 reads)
    hinner s.loop_count 1 [] (by omega) idx
  unfold deltaReads
  rw [houter]
  simp only [List.not_mem_nil, false_or]
  constructor
  · rintro ⟨t, ht, j, hj, e, he, h⟩
    exact ⟨t, j, e, ht, hj, he, h⟩
  · rintro ⟨t, j, e, ht, hj, he, h⟩
    exact ⟨t, ht, j, hj, e, he, h⟩

theorem deltaReads_range (step : Nat) (hstep : 1 ≤ step) (s : Encoder)
    (hlc : s.loop_count % step = 1 % step) (idx : Nat) (h : idx ∈ deltaReads step s) :
    s.i ≤ idx ∧ idx < s.i + 256 * s.loop_count := by
  obtain ⟨t, j, e, ht, hj, he, h⟩ := (mem_deltaReads step hstep s idx).1 h
  have hrows := delta_turn_rows step t s.loop_count hlc ht
  have hjl : j * s.loop_count + s.loop_count ≤ 256 * s.loop_count := by
    have : (j + 1) * s.loop_count ≤ 256 * s.loop_count := Nat.mul_le_mul_right _ (by omega)
    rw [Nat.add_mul, Nat.one_mul] at this
    exact this
  rcases h with h | h <;> omega

theorem bandStart128K_cursor (mc : Bool) (primes : Nat → Nat) (r : Nat) (h : 26 < r) :
    (bandStart128K mc primes r).i = 6710 ∧ (bandStart128K mc primes r).pinfo = 58368 ∧
      (bandStart128K mc primes r).loop_count = min r 48 - 26 := by
  have e1 : 54 + 256 * min r 26 = 6710 := by omega
  have e2 : 1024 + 2048 * min r 25 + 3072 * (min r 26 - min r 25) + 256 * 12 = 58368 := by omega
  obtain ⟨_, _, b1, b2, _⟩ := encode_stages mc primes r
  have hd := cursor_deltaRows 0xFFFC0000 (sectionTransition128K mc primes r
    (sectionAcross64K mc primes r (sectionBelow64K mc primes r (encoderStart mc r))))
  have hs := cursor_rowStrided gen_pinv primes
    (min r (sieving128KCrossover mc + 1) - (sieving64KCrossover mc + 1))
    (sectionAcross64K mc primes r (sectionBelow64K mc primes r (encoderStart mc r)))
  have hT : sectionTransition128K mc primes r
      (sectionAcross64K mc primes r (sectionBelow64K mc primes r (encoderStart mc r)))
      = rowStrided gen_pinv primes
          (min r (sieving128KCrossover mc + 1) - (sieving64KCrossover mc + 1))
          (sectionAcross64K mc primes r (sectionBelow64K mc primes r (encoderStart mc r))) := by
    unfold sectionTransition128K
    rw [if_pos (by rw [sieving64KCrossover_eq]; exact h)]
  simp only [Encoder.cursor, Prod.mk.injEq, threadsPerBlock] at hd hs
  unfold bandStart128K
  rw [hd.1, hd.2.1, hd.2.2.1, hT, hs.1, hs.2.1, hs.2.2.1, b1, b2, sieving64KCrossover_eq,
    sieving128KCrossover_eq]
  exact ⟨e1, e2, rfl⟩

theorem bandStart1M_cursor (mc : Bool) (primes : Nat → Nat) (r : Nat) (h : 48 < r) :
    (bandStart1M mc primes r).i = 12342 ∧ (bandStart1M mc primes r).pinfo = 82944 ∧
      (bandStart1M mc primes r).loop_count = min r 317 - 48 := by
  have e2 : 1024 + 2048 * min r 25 + 3072 * (min r 26 - min r 25)
      + (3072 + 1024 * (min r 48 - 27)) + 256 * 12 = 82944 := by omega
  have f1 : 26 < r := by omega
  obtain ⟨_, _, _, _, c1, c2, _⟩ := encode_stages mc primes r
  have hd := cursor_deltaRows 0xFFF00000 (sectionFirstAbove128K mc primes r
    (encodeTo128K mc primes r))
  have hs := cursor_rowStrided gen_sloppy_pinv primes
    (min r (sieving1MCrossover mc) - (sieving128KCrossover mc + 1)) (encodeTo128K mc primes r)
  have hT : sectionFirstAbove128K mc primes r (encodeTo128K mc primes r)
      = rowStrided gen_sloppy_pinv primes
          (min r (sieving1MCrossover mc) - (sieving128KCrossover mc + 1))
          (encodeTo128K mc primes r) := by
    unfold sectionFirstAbove128K
    rw [if_pos (by rw [sieving128KCrossover_eq]; exact h)]
  simp only [Encoder.cursor, Prod.mk.injEq, threadsPerBlock] at hd hs
  unfold bandStart1M
  rw [hd.1, hd.2.1, hd.2.2.1, hT, hs.1, hs.2.1, hs.2.2.1, c1 h, c2, if_pos f1,
    sieving128KCrossover_eq, sieving1MCrossover_eq]
  exact ⟨rfl, e2, rfl⟩

theorem bandStart16M_cursor (mc : Bool) (primes : Nat → Nat) (r : Nat) (h : 317 < r) :
    (bandStart16M mc primes r).i = 81206 ∧ (bandStart16M mc primes r).pinfo = 360448 ∧
      (bandStart16M mc primes r).loop_count = r - 317 := by
  have e2 : 1024 + 2048 * min r 25 + 3072 * (min r 26 - min r 25)
      + (3072 + 1024 * (min r 48 - 27)) + (3072 + 1024 * (min r 317 - 49)) + 256 * 12
      = 360448 := by omega
  have f1 : 26 < r := by omega
  have f2 : 48 < r := by omega
  obtain ⟨_, _, _, _, _, _, d1, d2⟩ := encode_stages mc primes r
  have hd := cursor_deltaRows 0xFF000000 (sectionAcross1M mc primes r
    (section128Kto1M mc primes r (sectionFirstAbove128K mc primes r (encodeTo128K mc primes r))))
  have hs := cursor_rowStrided gen_sloppy_pinv primes (r - sieving1MCrossover mc)
    (section128Kto1M mc primes r (sectionFirstAbove128K mc primes r (encodeTo128K mc primes r)))
  have hT : sectionAcross1M mc primes r
      (section128Kto1M mc primes r (sectionFirstAbove128K mc primes r (encodeTo128K mc primes r)))
      = rowStrided gen_sloppy_pinv primes (r - sieving1MCrossover mc)
          (section128Kto1M mc primes r
            (sectionFirstAbove128K mc primes r (encodeTo128K mc primes r))) := by
    unfold sectionAcross1M
    rw [if_pos (by rw [sieving1MCrossover_eq]; exact h)]
  simp only [Encoder.cursor, Prod.mk.injEq, threadsPerBlock] at hd hs
  unfold bandStart16M
  rw [hd.1, hd.2.1, hd.2.2.1, hT, hs.1, hs.2.1, hs.2.2.1, d1 h, d2, if_pos f1, if_pos f2,
    sieving1MCrossover_eq]
  exact ⟨rfl, e2, rfl⟩

theorem storedDelta_inside (pinv : Nat → Nat) (shift : Nat) (primes : Nat → Nat)
    (step q i lc : Nat) (hlc : lc % step = 1 % step) (x : Nat × Nat)
    (h : StoredDelta pinv shift primes step q i lc x) :
    q ≤ x.1 ∧ x.1 + 4 ≤ q + (lc - 1) * 256 * 4 := by
  obtain ⟨k, _, _, k1, k2, c1, c2, _⟩ :=
    storedDelta_range pinv shift primes step q i lc x.1 x.2 hlc h
  omega

/-- C20: for a row count `r` that the search accepts, each of the three loops
of packed words stays in range (`DeltaInRange`): every index of `primes` it
reads is at least 54 and below `primeCount`, and every word it stores lies in
the `(loop_count - 1) * 256` words of its own band, which end where the next
section starts and not beyond `pinfo_size`. The row count of the band is 1
modulo 3 in the band from 64K through 128K and 1 modulo 4 in the two bands
above. The second hypothesis says that the allocation of line 276 is not a
wrapped size. -/
theorem C20_delta_indices_in_range (mc : Bool) (fuel B primeCount r : Nat)
    (primes : Nat → Nat) (hsearch : crossoverSearch mc fuel B = some (primeCount, r))
    (halloc : 12 * primeCount < U32) :
    (27 < r →
      DeltaInRange 3 primeCount (bandStart128K mc primes r) (encodeTo128K mc primes r)
        (deltaWords3 primes) (pinfo_size (encode mc primes r))) ∧
    (49 < r →
      DeltaInRange 4 primeCount (bandStart1M mc primes r)
        (section128Kto1M mc primes r
          (sectionFirstAbove128K mc primes r (encodeTo128K mc primes r)))
        (deltaWords4 31 20 primes) (pinfo_size (encode mc primes r))) ∧
    (318 < r →
      DeltaInRange 4 primeCount (bandStart16M mc primes r) (encode mc primes r)
        (deltaWords4 1 24 primes) (pinfo_size (encode mc primes r)) ∧
      (encode mc primes r).pinfo = pinfo_size (encode mc primes r)) := by
  have hU : U32 = 4294967296 := rfl
  obtain ⟨hpc, _, hacc⟩ := crossoverSearch_some mc fuel B primeCount r hsearch
  obtain ⟨_, _, h3, h4, h5⟩ := (crossoverAccepts_iff mc r).1 hacc
  have hb : 12 * (54 + 256 * r) < U32 := hpc ▸ halloc
  have hbytes := encodedBytes_exact r hb
  have hsize : pinfo_size (encode mc primes r) = encodedBytes r := by
    rw [pinfo_size, (encode_closed mc primes r).2]
    exact Nat.mod_eq_of_lt (by rw [hbytes]; split_ifs <;> omega)
  have hfinal := (encode_closed mc primes r).2
  obtain ⟨_, _, _, _, _, c2, _, d2⟩ := encode_stages mc primes r
  refine ⟨fun hr => ?_, fun hr => ?_, fun hr => ?_⟩
  · obtain ⟨s1, s2, s3⟩ := bandStart128K_cursor mc primes r (by omega)
    have hlc : (bandStart128K mc primes r).loop_count % 3 = 1 := by rw [s3]; exact h3 (by omega)
    refine ⟨?_, hlc, ?_, ?_, ?_, ?_⟩
    · unfold encodeTo128K section64Kto128K bandStart128K
      rw [if_pos (by rw [sieving64KCrossover_eq]; exact hr)]
    · intro idx hidx
      have := deltaReads_range 3 (by omega) _ hlc idx hidx
      rw [s1, s3] at this
      omega
    · intro x hx
      rcases (words_deltaWords3 primes _ x).1 hx with h | h
      · exact Or.inl h
      · exact Or.inr (storedDelta_inside _ _ _ _ _ _ _ hlc x h)
    · rw [s2, s3, c2, if_pos (show 26 < r by omega)]; omega
    · rw [hsize, hbytes, c2]; split_ifs <;> omega
  · obtain ⟨s1, s2, s3⟩ := bandStart1M_cursor mc primes r (by omega)
    have hlc : (bandStart1M mc primes r).loop_count % 4 = 1 := by rw [s3]; exact h4 (by omega)
    refine ⟨?_, hlc, ?_, ?_, ?_, ?_⟩
    · unfold section128Kto1M bandStart1M
      rw [if_pos (by rw [sieving128KCrossover_eq]; exact hr)]
    · intro idx hidx
      have := deltaReads_range 4 (by omega) _ hlc idx hidx
      rw [s1, s3] at this
      omega
    · intro x hx
      rcases (words_deltaWords4 31 20 primes _ x).1 hx with h | h
      · exact Or.inl h
      · exact Or.inr (storedDelta_inside _ _ _ _ _ _ _ hlc x h)
    · rw [s2, s3, d2, if_pos (show 26 < r by omega), if_pos (show 48 < r by omega)]; omega
    · rw [hsize, hbytes, d2]; split_ifs <;> omega
  · obtain ⟨s1, s2, s3⟩ := bandStart16M_cursor mc primes r (by omega)
    have hlc : (bandStart16M mc primes r).loop_count % 4 = 1 := by rw [s3]; exact h5 (by omega)
    refine ⟨⟨?_, hlc, ?_, ?_, ?_, ?_⟩, ?_⟩
    · unfold encode section1Mto16M bandStart16M
      rw [if_pos (by rw [sieving1MCrossover_eq]; exact hr)]
    · intro idx hidx
      have := deltaReads_range 4 (by omega) _ hlc idx hidx
      rw [s1, s3] at this
      omega
    · intro x hx
      rcases (words_deltaWords4 1 24 primes _ x).1 hx with h | h
      · exact Or.inl h
      · exact Or.inr (storedDelta_inside _ _ _ _ _ _ _ hlc x h)
    · rw [s2, s3, hfinal, hbytes]; split_ifs <;> omega
    · rw [hsize, hfinal]
    · rw [hsize, hfinal]

/-- C20, witness: the budget 10000 gives 39 rows, 13 of them in the band from
64K through 128K. -/
theorem C20_delta_indices_in_range_witness :
    crossoverSearch true 4 10000 = some (10038, 39) ∧
      DeltaInRange 3 10038 (bandStart128K true (fun k => 2 * k + 1) 39)
        (encodeTo128K true (fun k => 2 * k + 1) 39) (deltaWords3 fun k => 2 * k + 1)
        (pinfo_size (encode true (fun k => 2 * k + 1) 39)) :=
  ⟨by decide,
    (C20_delta_indices_in_range true 4 10000 10038 39 (fun k => 2 * k + 1) (by decide)
      (by decide)).1 (by decide)⟩

/-! ## Decoding a packed word: claim C21 -/

theorem packed_word_fields (w v pdiff pinvdiff : Nat)
    (hwv : (w = 18 ∧ v = 7) ∨ (w = 20 ∧ v = 5) ∨ (w = 24 ∧ v = 1))
    (hp : pdiff ≤ 127) (hv : pinvdiff < 2 ^ v) :
    add32 (add32 (shl32 pinvdiff (w + 7)) (shl32 pdiff w)) 0
        = pinvdiff * 2 ^ (w + 7) + pdiff * 2 ^ w ∧
      add32 (add32 (shl32 pinvdiff (w + 7)) (shl32 pdiff w)) 0 % 2 ^ w = 0 ∧
      (add32 (add32 (shl32 pinvdiff (w + 7)) (shl32 pdiff w)) 0 >>> w) % 128 = pdiff ∧
      add32 (add32 (shl32 pinvdiff (w + 7)) (shl32 pdiff w)) 0 >>> (w + 7) = pinvdiff := by
  rcases hwv with ⟨rfl, rfl⟩ | ⟨rfl, rfl⟩ | ⟨rfl, rfl⟩
  all_goals
    simp only [add32, shl32, U32, Nat.shiftLeft_eq, Nat.shiftRight_eq_div_pow, Nat.reduceAdd,
      Nat.reducePow, Nat.add_zero] at hv ⊢
    omega

/-- C21: decoding undoes the packing of a delta word. For the three layouts
(bit-to-clear width `w`, inverse-delta width `v`) = (18, 7), (20, 5), (24, 1),
a half-difference `pdiff ≤ 127` and an inverse difference `pinvdiff < 2^v`
give the word `pinvdiff * 2^(w+7) + pdiff * 2^w` without a wrap; its low `w`
bits are zero, `(W >> w) mod 128` is `pdiff` and `W >> (w + 7)` is `pinvdiff`.
For the word that the encoder stores for the prime at `index` against the
prime `back` places earlier, both odd: twice `pdiff` is the difference of the
two primes exactly, so the prime is the earlier one plus
`2 * ((W >> w) mod 128)`. -/
theorem C21_delta_word_decodes (w v : Nat)
    (hwv : (w = 18 ∧ v = 7) ∨ (w = 20 ∧ v = 5) ∨ (w = 24 ∧ v = 1)) :
    (∀ pdiff pinvdiff, pdiff ≤ 127 → pinvdiff < 2 ^ v →
      add32 (add32 (shl32 pinvdiff (w + 7)) (shl32 pdiff w)) 0
          = pinvdiff * 2 ^ (w + 7) + pdiff * 2 ^ w ∧
        add32 (add32 (shl32 pinvdiff (w + 7)) (shl32 pdiff w)) 0 % 2 ^ w = 0 ∧
        (add32 (add32 (shl32 pinvdiff (w + 7)) (shl32 pdiff w)) 0 >>> w) % 128 = pdiff ∧
        add32 (add32 (shl32 pinvdiff (w + 7)) (shl32 pdiff w)) 0 >>> (w + 7) = pinvdiff) ∧
    (∀ (pinv primes : Nat → Nat) (index back : Nat),
      primes index % 2 = 1 → primes (index - back) % 2 = 1 →
      primes (index - back) ≤ primes index → primes index < U32 →
      sub32 (primes index) (primes (index - back)) / 2 ≤ 127 →
      sub32 (pinv (primes (index - back))) (pinv (primes index)) < 2 ^ v →
      2 * (sub32 (primes index) (primes (index - back)) / 2)
          = primes index - primes (index - back) ∧
        deltaWord pinv w primes index back % 2 ^ w = 0 ∧
        (deltaWord pinv w primes index back >>> w) % 128
          = sub32 (primes index) (primes (index - back)) / 2 ∧
        deltaWord pinv w primes index back >>> (w + 7)
          = sub32 (pinv (primes (index - back))) (pinv (primes index)) ∧
        primes index
          = primes (index - back) + 2 * ((deltaWord pinv w primes index back >>> w) % 128)) := by
  refine ⟨fun pdiff pinvdiff hp hv => packed_word_fields w v pdiff pinvdiff hwv hp hv, ?_⟩
  intro pinv primes index back hodd1 hodd2 hle hlt hp hv
  obtain ⟨_, f2, f3, f4⟩ := packed_word_fields w v _ _ hwv hp hv
  have hsub : sub32 (primes index) (primes (index - back))
      = primes index - primes (index - back) := by
    simp only [sub32, U32] at hlt ⊢
    omega
  have htwice : 2 * (sub32 (primes index) (primes (index - back)) / 2)
      = primes index - primes (index - back) := by
    rw [hsub]; omega
  refine ⟨htwice, f2, f3, f4, ?_⟩
  have f3' : (deltaWord pinv w primes index back >>> w) % 128
      = sub32 (primes index) (primes (index - back)) / 2 := f3
  rw [f3', htwice]
  omega

/-- C21, witness: the layout (18, 7) and the primes 65537 and 65539, whose
packed word holds the half-difference 1 and the inverse difference 2. -/
theorem C21_delta_word_decodes_witness :
    deltaWord gen_pinv 18 (fun k => 65537 + 2 * k) 1 1 = 2 * 2 ^ 25 + 1 * 2 ^ 18 ∧
      (65539 : Nat)
        = 65537 + 2 * ((deltaWord gen_pinv 18 (fun k => 65537 + 2 * k) 1 1 >>> 18) % 128) :=
  ⟨by decide,
    ((C21_delta_word_decodes 18 7 (Or.inl ⟨rfl, rfl⟩)).2 gen_pinv (fun k => 65537 + 2 * k) 1 1
      (by decide) (by decide) (by decide) (by decide) (by decide) (by decide)).2.2.2.2⟩

/-! ## The primes of the 16-bit band: claim C22 -/

set_option maxRecDepth 1000000 in
theorem scanPrimes_16bit :
    scanPrimes (Nat.factorial 399) 65536 1 0 65136 78 397 389 383
      = some (6542, 65521, 65519, 65497) := by
  decide!

/-- There are 6542 primes below 65536, and the last of them is 65521. -/
theorem primes_below_64K :
    Nat.count Nat.Prime 65536 = 6542 ∧ Nat.nth Nat.Prime 6541 = 65521 := by
  obtain ⟨st1, _⟩ := scanPrimes_spec 19 400 6711 12341 (by norm_num) 380 8 19 17 13 _
    (by norm_num) (by norm_num) primeState_twenty scanPrimes_low
  obtain ⟨st2, _⟩ := scanPrimes_spec 399 65536 1 0 (by norm_num) 65136 78 397 389
    383 _ (by norm_num) (by norm_num) st1 scanPrimes_16bit
  exact ⟨st2.1.symm, st2.2.2.1.symm⟩

theorem nth_prime_lt_64K (i : Nat) (hi : i < 6542) : Nat.nth Nat.Prime i < 65536 := by
  have hmono : Nat.nth Nat.Prime i ≤ Nat.nth Nat.Prime 6541 :=
    (Nat.nth_strictMono Nat.infinite_setOf_prime).monotone (show i ≤ 6541 by omega)
  rw [primes_below_64K.2] at hmono
  exact lt_of_le_of_lt hmono (by norm_num)

/-- C22: the primes of the 16-bit band fit in 16 bits. For the primes that
`tiny_soe` generates, every prime index `i` with
`54 ≤ i < 54 + 256 * min (r, 25)` holds the `i`-th prime, which is below
`2^16`, so that shifting it left by 16 bits in 32-bit arithmetic and back
gives the prime again. The band ends at the index 6454 at most, and there are
6542 primes below 65536. The second hypothesis keeps `tiny_soe` in the range
where its 16-bit variable `prime` holds every sieving prime. -/
theorem C22_primes_fit_16_bits (mc : Bool) (fuel B primeCount r : Nat)
    (hsearch : crossoverSearch mc fuel B = some (primeCount, r))
    (hrange : 40 * primeCount ≤ 2 ^ 30) :
    ∃ out, tiny_soe primeCount = some out ∧
      (∀ i, 54 ≤ i → i < 54 + 256 * min r 25 →
        primesArray out i = Nat.nth Nat.Prime i ∧ primesArray out i < 2 ^ 16 ∧
          shl32 (primesArray out i) 16 >>> 16 = primesArray out i) ∧
      54 + 256 * min r 25 ≤ 6454 ∧ 6454 < 6542 ∧ Nat.count Nat.Prime 65536 = 6542 := by
  obtain ⟨hpc, _, _⟩ := crossoverSearch_some mc fuel B primeCount r hsearch
  obtain ⟨m, hm, hlen, _⟩ := tiny_soe_spec primeCount (by omega) hrange
  have htrue : ∀ k, k < primeCount → (primesBelow m)[k]? = some (Nat.nth Nat.Prime k) :=
    fun k hk => getElem?_primesBelow m k (by omega)
  refine ⟨primesBelow m, hm, ?_, by omega, by omega, primes_below_64K.1⟩
  intro i h54 hi
  have hval := primesArray_eq_nth (primesBelow m) primeCount htrue i (by omega)
  have hlt := nth_prime_lt_64K i (by omega)
  rw [hval]
  refine ⟨rfl, by norm_num; exact hlt, ?_⟩
  generalize Nat.nth Nat.Prime i = p at hlt
  simp only [shl32, U32, Nat.shiftLeft_eq, Nat.shiftRight_eq_div_pow, Nat.reducePow]
  omega

/-- C22, witness: the budget 10000, whose 25 rows of the 16-bit band end at
the index 6454. -/
theorem C22_primes_fit_16_bits_witness :
    crossoverSearch true 4 10000 = some (10038, 39) ∧
      ∃ out, tiny_soe 10038 = some out ∧
        (∀ i, 54 ≤ i → i < 54 + 256 * min 39 25 →
          primesArray out i = Nat.nth Nat.Prime i ∧ primesArray out i < 2 ^ 16 ∧
            shl32 (primesArray out i) 16 >>> 16 = primesArray out i) ∧
        54 + 256 * min 39 25 ≤ 6454 ∧ 6454 < 6542 ∧ Nat.count Nat.Prime 65536 = 6542 :=
  ⟨by decide, C22_primes_fit_16_bits true 4 10000 10038 39 (by decide) (by norm_num)⟩

/-! ## The row counts that the search accepts: claim C23 -/

/-- C23: the body of the search loop accepts the row count `r` exactly when
`r` is 0 or 1, or `r ≤ 25` with `r mod 3 = 1`, or `27 ≤ r ≤ 48` with
`r mod 3 = 0`, or `49 ≤ r ≤ 317` with `r mod 4 = 1`, or `r ≥ 318` with
`r mod 4 = 2`. The crossover row counts 25, 48 and 317 are accepted and 26
is not. -/
theorem C23_accepted_row_counts (mc : Bool) (r : Nat) :
    (crossoverAccepts mc r = true ↔
      (r = 0 ∨ r = 1 ∨ (r ≤ 25 ∧ r % 3 = 1) ∨ (27 ≤ r ∧ r ≤ 48 ∧ r % 3 = 0) ∨
        (49 ≤ r ∧ r ≤ 317 ∧ r % 4 = 1) ∨ (318 ≤ r ∧ r % 4 = 2))) ∧
      crossoverAccepts mc 25 = true ∧ crossoverAccepts mc 48 = true ∧
      crossoverAccepts mc 317 = true ∧ crossoverAccepts mc 26 = false := by
  have h : ∀ k, crossoverAccepts mc k = true ↔
      (k = 0 ∨ k = 1 ∨ (k ≤ 25 ∧ k % 3 = 1) ∨ (27 ≤ k ∧ k ≤ 48 ∧ k % 3 = 0) ∨
        (49 ≤ k ∧ k ≤ 317 ∧ k % 4 = 1) ∨ (318 ≤ k ∧ k % 4 = 2)) := by
    intro k
    rw [crossoverAccepts_iff]
    omega
  refine ⟨h r, (h 25).2 (by omega), (h 48).2 (by omega), (h 317).2 (by omega), ?_⟩
  cases hc : crossoverAccepts mc 26 with
  | false => rfl
  | true => exact absurd ((h 26).1 hc) (by omega)

/-! ## Twelve bytes for every prime: claim C24 -/

/-- Every store of the encoder, for an accepted row count, lies behind the
padding and below `12 * (54 + 256 * r)`. -/
theorem encodedWord_below (primes : Nat → Nat) (r : Nat)
    (h3 : 26 < r → (min r 48 - 26) % 3 = 1) (h4 : 48 < r → (min r 317 - 48) % 4 = 1)
    (h5 : 317 < r → (r - 317) % 4 = 1) (x : Nat × Nat) (h : EncodedWord primes r x) :
    1024 ≤ x.1 ∧ x.1 + 4 ≤ 12 * (54 + 256 * r) := by
  rcases h with ⟨n, hn, h⟩ | ⟨n, hn, h⟩ | ⟨hr, h | ⟨hr', h⟩⟩ | ⟨hr, h | ⟨hr', h⟩⟩ |
    ⟨hr, h | ⟨hr', h⟩⟩
  · obtain ⟨c1, c2, _⟩ := stored16_range primes _ _ x.1 x.2 h
    omega
  · obtain ⟨c1, c2, _⟩ := stored32_range gen_pinv primes _ _ _ x.1 x.2 h
    omega
  · obtain ⟨c1, c2, _⟩ := stored32_range gen_pinv primes _ _ _ x.1 x.2 h
    omega
  · obtain ⟨c1, c2⟩ := storedDelta_inside _ _ _ 3 _ _ _ (h3 hr) x h
    omega
  · obtain ⟨c1, c2, _⟩ := stored32_range gen_sloppy_pinv primes _ _ _ x.1 x.2 h
    omega
  · obtain ⟨c1, c2⟩ := storedDelta_inside _ _ _ 4 _ _ _ (h4 hr) x h
    omega
  · obtain ⟨c1, c2, _⟩ := stored32_range gen_sloppy_pinv primes _ _ _ x.1 x.2 h
    omega
  · obtain ⟨c1, c2⟩ := storedDelta_inside _ _ _ 4 _ _ _ (h5 hr) x h
    omega

theorem encodedBytes_le (r : Nat) (h1 : 1 ≤ r) (hr : r < 16777216) :
    encodedBytes r ≤ 12 * (54 + 256 * r) := by
  simp only [encodedBytes, mul32, sub32, U32]
  split_ifs <;> omega

/-- C24, as stated, fails once the 32-bit product of line 276 wraps. The budget
357914000 gives 357914166 primes in 1398102 rows; the size asked for is
`357914166 * 12` modulo `2^32`, which is 2696, while the first row alone has a
store at byte 3068 and the final `pinfo_size` is 1431691264. -/
theorem C24_counterexample :
    crossoverSearch true 4 357914000 = some (357914166, 1398102) ∧
      mul32 357914166 12 = 2696 ∧
      (3068, gen_pinv 619) ∈ (encode true (fun k => 2 * k + 1) 1398102).words ∧
      ¬ (3068 < mul32 357914166 12) ∧
      pinfo_size (encode true (fun k => 2 * k + 1) 1398102) = 1431691264 ∧
      ¬ (pinfo_size (encode true (fun k => 2 * k + 1) 1398102) ≤ mul32 357914166 12) := by
  have hsize : pinfo_size (encode true (fun k => 2 * k + 1) 1398102) = 1431691264 := by
    rw [pinfo_size, (encode_closed true _ 1398102).2]
    decide
  refine ⟨by decide, by decide, ?_, by decide, hsize, ?_⟩
  · exact (encode_words true _ 1398102 _).2 (Or.inl ⟨0, by decide, 255, by decide, Or.inr rfl⟩)
  · rw [hsize]; decide

/-- C24, amended to the budgets for which the 32-bit product `12 * primeCount`
of line 276 does not wrap: for every budget `B ≥ 54` the search returns a
`primeCount` and a row count `r`; the product does not wrap for any
`B ≤ 357913173`; and whenever it does not wrap, the size
`mul32 primeCount 12` that line 276 asks for is `12 * primeCount`, every store
of the encoder into the packed buffer lies behind the 1024 bytes of padding
and ends at or below that size, and for `r ≥ 1` the final `pinfo_size` is at
most that size. With no row (`r = 0`) nothing is stored and `pinfo_size` is
the padding alone. -/
theorem C24_twelve_bytes_per_prime (mc : Bool) (fuel B : Nat) (primes : Nat → Nat)
    (hfuel : 4 ≤ fuel) (h54 : 54 ≤ B) :
    ∃ primeCount r, crossoverSearch mc fuel B = some (primeCount, r) ∧
      (B ≤ 357913173 → 12 * primeCount < U32) ∧
      (12 * primeCount < U32 →
        mul32 primeCount 12 = 12 * primeCount ∧
          (∀ x ∈ (encode mc primes r).words,
            1024 ≤ x.1 ∧ x.1 + 4 ≤ mul32 primeCount 12) ∧
          (1 ≤ r → pinfo_size (encode mc primes r) ≤ mul32 primeCount 12)) ∧
      (r = 0 →
        (encode mc primes r).words = [] ∧ pinfo_size (encode mc primes r) = PINFO_PAD1) := by
  have hU : U32 = 4294967296 := rfl
  obtain ⟨m, hm, hround⟩ := roundSievePrimes_grid mc B
  obtain ⟨r, hr, hl, hacc⟩ := crossoverLoop_total mc fuel m hfuel hm
  obtain ⟨_, _, h3, h4, h5⟩ := (crossoverAccepts_iff mc r).1 hacc
  have hbytes := (encode_closed mc primes r).2
  have hsearch : crossoverSearch mc fuel B = some (54 + 256 * r, r) := by
    rw [crossoverSearch, hround, hl]
  refine ⟨54 + 256 * r, r, hsearch, ?_, ?_, ?_⟩
  · intro hB
    obtain ⟨k, hk, hs, _, _⟩ := crossoverSearch_spec mc fuel B hfuel h54 (by omega)
    rw [hsearch] at hs
    simp only [Option.some.injEq, Prod.mk.injEq] at hs
    omega
  · intro hno
    have hmul : mul32 (54 + 256 * r) 12 = 12 * (54 + 256 * r) := by
      rw [mul32, Nat.mod_eq_of_lt (by omega)]
      omega
    rw [hmul]
    refine ⟨rfl, ?_, ?_⟩
    · intro x hx
      exact encodedWord_below primes r h3 h4 h5 x ((encode_words mc primes r x).1 hx)
    · intro h1
      rw [pinfo_size, hbytes]
      exact le_trans (Nat.mod_le _ _) (encodedBytes_le r h1 hr)
  · intro h0
    subst h0
    constructor
    · rw [List.eq_nil_iff_forall_not_mem]
      intro x hx
      have := encodedWord_below primes 0 h3 h4 h5 x ((encode_words mc primes 0 x).1 hx)
      omega
    · rw [pinfo_size, hbytes]; decide

/-- C24, witness: the budget 10000, for which line 276 asks for 120456 bytes;
every store of the 39 rows ends at or below that size, and so does
`pinfo_size`. -/
theorem C24_twelve_bytes_per_prime_witness :
    crossoverSearch true 4 10000 = some (10038, 39) ∧ mul32 10038 12 = 120456 ∧
      (∀ x ∈ (encode true (fun k => 2 * k + 1) 39).words, 1024 ≤ x.1 ∧ x.1 + 4 ≤ 120456) ∧
      pinfo_size (encode true (fun k => 2 * k + 1) 39) ≤ 120456 := by
  have hs0 : crossoverSearch true 4 10000 = some (10038, 39) := by decide
  have hm : mul32 10038 12 = 120456 := by decide
  obtain ⟨primeCount, r, hs, hB, hno, _⟩ :=
    C24_twelve_bytes_per_prime true 4 10000 (fun k => 2 * k + 1) (by decide) (by decide)
  rw [hs0] at hs
  simp only [Option.some.injEq, Prod.mk.injEq] at hs
  obtain ⟨rfl, rfl⟩ := hs
  obtain ⟨_, hw, hp⟩ := hno (hB (by decide))
  rw [hm] at hw hp
  exact ⟨hs0, hm, hw, hp (by decide)⟩

/-! ## The two configurations of the small primes: claim C25 -/

theorem crossoverAccepts_switch (r : Nat) : crossoverAccepts true r = crossoverAccepts false r := by
  cases h1 : crossoverAccepts true r <;> cases h2 : crossoverAccepts false r
  · rfl
  · rw [crossoverAccepts_iff] at h2
    rw [← crossoverAccepts_iff true r, h1] at h2
    exact absurd h2 (by decide)
  · rw [crossoverAccepts_iff] at h1
    rw [← crossoverAccepts_iff false r, h2] at h1
    exact absurd h1 (by decide)
  · rfl

theorem primesPerThread_switch (g : Nat) : primesPerThread true g = primesPerThread false g := by
  simp only [primesPerThread, sub32, primesNotSieved, primesHandledWithSpecialCode,
    threadsPerBlock, U32]
  omega

theorem roundSievePrimes_switch (B : Nat) : roundSievePrimes true B = roundSievePrimes false B := by
  simp only [roundSievePrimes, add32, mul32, sub32, primesNotSieved,
    primesHandledWithSpecialCode, threadsPerBlock, U32]
  omega

theorem crossoverLoop_switch : ∀ fuel g, crossoverLoop true fuel g = crossoverLoop false fuel g := by
  intro fuel
  induction fuel with
  | zero => intro g; rfl
  | succ fuel ih =>
    intro g
    simp only [crossoverLoop, primesPerThread_switch g, crossoverAccepts_switch, ih]

theorem encode_switch (primes : Nat → Nat) (r : Nat) : encode true primes r = encode false primes r := by
  simp only [encode, encodeTo128K, section1Mto16M, sectionAcross1M, section128Kto1M,
    sectionFirstAbove128K, section64Kto128K, sectionTransition128K, sectionAcross64K,
    sectionBelow64K, encoderStart, sieving64KCrossover_eq, sieving128KCrossover_eq,
    sieving1MCrossover_eq, prefix_eq]

theorem copyPrimes_spec (mc : Bool) (M pc : Nat) (primes rowinfo : Nat → Nat)
    (hsize : 16 * M + 8 * pc < U32) :
    (∀ i, primesNotSieved mc ≤ i → i < pc →
      copyPrimes mc M primes pc rowinfo (4 * M + 2 * i) = primes i) ∧
    (∀ w, (∀ i, primesNotSieved mc ≤ i → i < pc → w ≠ 4 * M + 2 * i) →
      copyPrimes mc M primes pc rowinfo w = rowinfo w) := by
  have hU : U32 = 4294967296 := rfl
  have hbase : mul32 M 4 = 4 * M := by
    simp only [mul32, U32] at hsize ⊢
    omega
  have h := copyPrimes_loop (4 * M) primes pc (by omega) pc (primesNotSieved mc) rowinfo
    (by omega)
  have hdef : copyPrimes mc M primes pc rowinfo
      = forLoop pc 1
          (fun i mem => Function.update mem (add32 (4 * M) (mul32 2 i)) (primes i))
          pc (primesNotSieved mc) rowinfo := by
    rw [copyPrimes, hbase]
  rw [hdef]
  exact h

/-- C25: the two configurations of the small primes give the same packed data.
Both have a prefix of 54 primes and the crossovers 25, 47 and 317; for every
budget the search returns the same `primeCount` and row count, and for the
same primes the encoder ends in the same state: the same row descriptors, the
same stores into the packed buffer, the same reports and the same size. The
side tables agree in every word but the one for the prime index 4, which is
filled without `MORE_CLASSES` (first index 4) and left alone with it (first
index 5). The hypothesis says that `rowinfo_size` is not a wrapped value. -/
theorem C25_configurations_agree (fuel B r MAX_PRIMES_PER_THREAD primeCount : Nat)
    (primes rowinfo : Nat → Nat)
    (hsize : 16 * MAX_PRIMES_PER_THREAD + 8 * primeCount < U32) (hcount : 5 ≤ primeCount) :
    (primesNotSieved true = 5 ∧ primesHandledWithSpecialCode true = 49 ∧
      primesNotSieved false = 4 ∧ primesHandledWithSpecialCode false = 50) ∧
    (∀ mc, primesNotSieved mc + primesHandledWithSpecialCode mc = 54 ∧
      sieving64KCrossover mc = 25 ∧ sieving128KCrossover mc = 47 ∧
      sieving1MCrossover mc = 317) ∧
    crossoverSearch true fuel B = crossoverSearch false fuel B ∧
    encode true primes r = encode false primes r ∧
    (encode true primes r).rows = (encode false primes r).rows ∧
    (encode true primes r).words = (encode false primes r).words ∧
    pinfo_size (encode true primes r) = pinfo_size (encode false primes r) ∧
    (∀ w, w ≠ 4 * MAX_PRIMES_PER_THREAD + 2 * 4 →
      copyPrimes true MAX_PRIMES_PER_THREAD primes primeCount rowinfo w
        = copyPrimes false MAX_PRIMES_PER_THREAD primes primeCount rowinfo w) ∧
    copyPrimes false MAX_PRIMES_PER_THREAD primes primeCount rowinfo
        (4 * MAX_PRIMES_PER_THREAD + 2 * 4) = primes 4 ∧
    copyPrimes true MAX_PRIMES_PER_THREAD primes primeCount rowinfo
        (4 * MAX_PRIMES_PER_THREAD + 2 * 4) = rowinfo (4 * MAX_PRIMES_PER_THREAD + 2 * 4) := by
  obtain ⟨t1, t2⟩ := copyPrimes_spec true MAX_PRIMES_PER_THREAD primeCount primes rowinfo hsize
  obtain ⟨f1, f2⟩ := copyPrimes_spec false MAX_PRIMES_PER_THREAD primeCount primes rowinfo hsize
  have hsw := encode_switch primes r
  have hp5 : primesNotSieved true = 5 := rfl
  have hp4 : primesNotSieved false = 4 := rfl
  refine ⟨⟨rfl, rfl, rfl, rfl⟩,
    fun mc => ⟨prefix_eq mc, sieving64KCrossover_eq mc, sieving128KCrossover_eq mc,
      sieving1MCrossover_eq mc⟩, ?_, hsw, by rw [hsw], by rw [hsw], by rw [hsw], ?_, ?_, ?_⟩
  · rw [crossoverSearch, crossoverSearch, roundSievePrimes_switch, crossoverLoop_switch]
  · intro w hw
    by_cases hex : ∃ i, 5 ≤ i ∧ i < primeCount ∧ w = 4 * MAX_PRIMES_PER_THREAD + 2 * i
    · obtain ⟨i, h5, hlt, rfl⟩ := hex
      rw [t1 i (by rw [hp5]; exact h5) hlt, f1 i (by rw [hp4]; omega) hlt]
    · have hno : ∀ i, 5 ≤ i → i < primeCount → w ≠ 4 * MAX_PRIMES_PER_THREAD + 2 * i :=
        fun i h5 hlt he => hex ⟨i, h5, hlt, he⟩
      rw [t2 w (fun i hi hlt => hno i (by rw [hp5] at hi; exact hi) hlt),
        f2 w (fun i hi hlt he => by
          rw [hp4] at hi
          rcases Nat.eq_or_lt_of_le hi with h | h
          · subst h; exact hw he
          · exact hno i h hlt he)]
  · exact f1 4 (by rw [hp4]) (by omega)
  · exact t2 _ (fun i hi hlt he => by rw [hp5] at hi; omega)

/-- C25, witness: the budget 10000, 39 rows and a side table for 10038 primes. -/
theorem C25_configurations_agree_witness :
    crossoverSearch true 4 10000 = crossoverSearch false 4 10000 ∧
      encode true (fun k => 2 * k + 1) 39 = encode false (fun k => 2 * k + 1) 39 ∧
      copyPrimes false 4224 (fun k => 2 * k + 1) 10038 (fun _ => 0) (4 * 4224 + 2 * 4) = 9 ∧
      copyPrimes true 4224 (fun k => 2 * k + 1) 10038 (fun _ => 0) (4 * 4224 + 2 * 4) = 0 :=
  have h := C25_configurations_agree 4 10000 39 4224 10038 (fun k => 2 * k + 1) (fun _ => 0)
    (by decide) (by decide)
  ⟨h.2.2.1, h.2.2.2.1, h.2.2.2.2.2.2.2.2.1, h.2.2.2.2.2.2.2.2.2⟩

end GpuSieve
